import Mathlib

/-!
libCEED: MAGMA 3-D interpolation kernel and the t564 assembly test

A shallow embedding of

* `include/ceed/jit-source/magma/interp-3d.h`
  (`magma_interp_3d_device`, `magma_interpn_3d_kernel`, `magma_interpt_3d_kernel`),
  namespace `Magma`;
* `tests/t564-operator.c` (the loops of `main`), namespace `T564`;
* the operator Apply and assembly algorithms, whose code is not among the sources and which are
  modelled from the specification, namespace `OperatorModel`;
* `examples/fluids/navierstokes.c` (the choice of the vector and matrix types in `main`),
  namespace `NavierStokes`;

together with the properties proved about them.  The definitions come first, the theorems
follow.

Conventions of the embedding.

* Scalars (`CeedScalar`, the template type `T`) are elements of a commutative ring `R`;
  arithmetic is exact.
* `int` indices are natural numbers; the template constants are small, no wrap-around is
  modelled.
* A CUDA thread block is a family of per-thread register files indexed by the thread number
  `tx`; shared memory is one function `Nat → R`.  Every `__syncthreads()` ends a stage: a stage
  is run by letting the threads `0, 1, ..., nthreads - 1` execute their part of the stage one
  after the other on the common state.
* The leading index of `rU[DIM_U][NCOMP_][rUsize]` and `rV[DIM_V][NCOMP_][rVsize]` is always `0`
  in this file of the source and is dropped.
-/

namespace Magma

/-- A memory access performed by `magma_interp_3d_device`: which array and which index. -/
inductive Access where
  | swork (idx : Nat)
  | rTmp (idx : Nat)
  | rU (comp idx : Nat)
  | rV (comp idx : Nat)
  | sT (idx : Nat)
  deriving DecidableEq, Repr

/-- The state of one thread block while `magma_interp_3d_device` runs.

* `swork`: the shared scratch buffer `swork` of the element;
* `rTmp tx k`: register `rTmp[k]` of thread `tx`;
* `rV tx c j`: register `rV[0][c][j]` of thread `tx`;
* `madds`: number of multiply-add statements (`x += a * b`) executed so far, over all threads;
* `trace`: every array access made so far, most recent last. -/
structure State (R : Type) where
  swork : Nat → R
  rTmp : Nat → Nat → R
  rV : Nat → Nat → Nat → R
  madds : Nat
  trace : List Access

/-- Macro `sT(i, j)`, that is `sT[(j)*P_ + (i)]`: the index. -/
def sTidx (P_ i j : Nat) : Nat := j * P_ + i

/-- Macro `sTmp(i, j, ldw)`, that is `sTmp[(j) * (ldw) + (i)]`, with `sTmp = swork + base`:
the index into `swork`. -/
def sTmpidx (base i j ldw : Nat) : Nat := base + (j * ldw + i)

/-- Statement `rTmp[k] = 0.0;` of thread `tx`. -/
def zeroTmp {R : Type} [CommRing R] (tx k : Nat) (s : State R) : State R :=
  { s with
    rTmp := Function.update s.rTmp tx (Function.update (s.rTmp tx) k 0)
    trace := s.trace ++ [Access.rTmp k] }

/-- Stage 1, innermost statement `rTmp[0] += rU[0][icomp][i] * sT(i, j);` of thread `tx`. -/
def stage1Madd {R : Type} [CommRing R] (P_ : Nat) (sT : Nat → R) (rU : Nat → Nat → Nat → R)
    (tx icomp j : Nat) (s : State R) (i : Nat) : State R :=
  { s with
    rTmp := Function.update s.rTmp tx
      (Function.update (s.rTmp tx) 0 (s.rTmp tx 0 + rU tx icomp i * sT (sTidx P_ i j)))
    madds := s.madds + 1
    trace := s.trace ++ [Access.rU icomp i, Access.sT (sTidx P_ i j), Access.rTmp 0] }

/-- Stage 1, statement `sTmp(0, j, sld) = rTmp[0];` of thread `tx`, where
`sTmp = swork + batchid * (1 * Q_)`, `batchid = tx` and `sld = 1`. -/
def stage1Store {R : Type} [CommRing R] (Q_ tx j : Nat) (s : State R) : State R :=
  { s with
    swork := Function.update s.swork (sTmpidx (tx * (1 * Q_)) 0 j 1) (s.rTmp tx 0)
    trace := s.trace ++ [Access.rTmp 0, Access.swork (sTmpidx (tx * (1 * Q_)) 0 j 1)] }

/-- Stage 1, body of the loop `for (int j = 0; j < Q_; j++)` of thread `tx`. -/
def stage1Body {R : Type} [CommRing R] (P_ Q_ : Nat) (sT : Nat → R) (rU : Nat → Nat → Nat → R)
    (tx icomp : Nat) (s : State R) (j : Nat) : State R :=
  stage1Store Q_ tx j
    ((List.range P_).foldl (stage1Madd P_ sT rU tx icomp j) (zeroTmp tx 0 s))

/-- Stage 1 as executed by thread `tx`: the block guarded by `if (tx < (P_ * P_))`. -/
def stage1Thread {R : Type} [CommRing R] (P_ Q_ : Nat) (sT : Nat → R) (rU : Nat → Nat → Nat → R)
    (icomp : Nat) (s : State R) (tx : Nat) : State R :=
  if tx < P_ * P_ then (List.range Q_).foldl (stage1Body P_ Q_ sT rU tx icomp) s else s

/-- Stage 2, innermost statement `rTmp[j] += sTmp(tx_, i, sld) * sT(i, j);` of thread `tx`,
where `sTmp = swork + batchid * (Q_ * P_)`, `batchid = tx / Q_`, `tx_ = tx % Q_`, `sld = Q_`. -/
def stage2Madd {R : Type} [CommRing R] (P_ Q_ : Nat) (sT : Nat → R)
    (tx j : Nat) (s : State R) (i : Nat) : State R :=
  { s with
    rTmp := Function.update s.rTmp tx
      (Function.update (s.rTmp tx) j
        (s.rTmp tx j + s.swork (sTmpidx (tx / Q_ * (Q_ * P_)) (tx % Q_) i Q_) * sT (sTidx P_ i j)))
    madds := s.madds + 1
    trace := s.trace ++ [Access.swork (sTmpidx (tx / Q_ * (Q_ * P_)) (tx % Q_) i Q_),
      Access.sT (sTidx P_ i j), Access.rTmp j] }

/-- Stage 2, body of the loop `for (int j = 0; j < Q_; j++)` of thread `tx`. -/
def stage2Body {R : Type} [CommRing R] (P_ Q_ : Nat) (sT : Nat → R)
    (tx : Nat) (s : State R) (j : Nat) : State R :=
  (List.range P_).foldl (stage2Madd P_ Q_ sT tx j) (zeroTmp tx j s)

/-- Stage 2 as executed by thread `tx`: the first block guarded by `if (tx < (P_ * Q_))`. -/
def stage2Thread {R : Type} [CommRing R] (P_ Q_ : Nat) (sT : Nat → R)
    (s : State R) (tx : Nat) : State R :=
  if tx < P_ * Q_ then (List.range Q_).foldl (stage2Body P_ Q_ sT tx) s else s

/-- Write-back, statement `sTmp(tx_, j, sld) = rTmp[j];` of thread `tx`, where
`sTmp = swork + batchid * (Q_ * Q_)`, `batchid = tx / Q_`, `tx_ = tx % Q_`, `sld = Q_`. -/
def writeBackStore {R : Type} [CommRing R] (Q_ tx : Nat) (s : State R) (j : Nat) : State R :=
  { s with
    swork := Function.update s.swork (sTmpidx (tx / Q_ * (Q_ * Q_)) (tx % Q_) j Q_) (s.rTmp tx j)
    trace := s.trace ++ [Access.rTmp j, Access.swork (sTmpidx (tx / Q_ * (Q_ * Q_)) (tx % Q_) j Q_)] }

/-- Write-back as executed by thread `tx`: the second block guarded by `if (tx < (P_ * Q_))`. -/
def writeBackThread {R : Type} [CommRing R] (P_ Q_ : Nat)
    (s : State R) (tx : Nat) : State R :=
  if tx < P_ * Q_ then (List.range Q_).foldl (writeBackStore Q_ tx) s else s

/-- Stage 3, innermost statement `rTmp[0] += sTmp(tx, i, sld) * sT(i, j);` of thread `tx`,
where `sTmp = swork` and `sld = Q_ * Q_`. -/
def stage3Madd {R : Type} [CommRing R] (P_ Q_ : Nat) (sT : Nat → R)
    (tx j : Nat) (s : State R) (i : Nat) : State R :=
  { s with
    rTmp := Function.update s.rTmp tx
      (Function.update (s.rTmp tx) 0
        (s.rTmp tx 0 + s.swork (sTmpidx 0 tx i (Q_ * Q_)) * sT (sTidx P_ i j)))
    madds := s.madds + 1
    trace := s.trace ++ [Access.swork (sTmpidx 0 tx i (Q_ * Q_)),
      Access.sT (sTidx P_ i j), Access.rTmp 0] }

/-- Stage 3, statement `rV[0][icomp][j] += rTmp[0];` of thread `tx`. -/
def stage3Acc {R : Type} [CommRing R] (tx icomp j : Nat) (s : State R) : State R :=
  { s with
    rV := Function.update s.rV tx
      (Function.update (s.rV tx) icomp
        (Function.update (s.rV tx icomp) j (s.rV tx icomp j + s.rTmp tx 0)))
    trace := s.trace ++ [Access.rTmp 0, Access.rV icomp j] }

/-- Stage 3, body of the loop `for (int j = 0; j < Q_; j++)` of thread `tx`. -/
def stage3Body {R : Type} [CommRing R] (P_ Q_ : Nat) (sT : Nat → R)
    (tx icomp : Nat) (s : State R) (j : Nat) : State R :=
  stage3Acc tx icomp j
    ((List.range P_).foldl (stage3Madd P_ Q_ sT tx j) (zeroTmp tx 0 s))

/-- Stage 3 as executed by thread `tx`: the block guarded by `if (tx < (Q_ * Q_))`. -/
def stage3Thread {R : Type} [CommRing R] (P_ Q_ : Nat) (sT : Nat → R)
    (icomp : Nat) (s : State R) (tx : Nat) : State R :=
  if tx < Q_ * Q_ then (List.range Q_).foldl (stage3Body P_ Q_ sT tx icomp) s else s

/-- One stage (the code between two `__syncthreads()`): every thread of the block runs its
part. -/
def runStage {R : Type} (nthreads : Nat) (thread : State R → Nat → State R)
    (s : State R) : State R :=
  (List.range nthreads).foldl thread s

/-- Body of the loop `for (int icomp = 0; icomp < NCOMP_; icomp++)`: the four stages, each
closed by `__syncthreads()`. -/
def compBody {R : Type} [CommRing R] (P_ Q_ nthreads : Nat) (sT : Nat → R)
    (rU : Nat → Nat → Nat → R) (s : State R) (icomp : Nat) : State R :=
  runStage nthreads (stage3Thread P_ Q_ sT icomp)
    (runStage nthreads (writeBackThread P_ Q_)
      (runStage nthreads (stage2Thread P_ Q_ sT)
        (runStage nthreads (stage1Thread P_ Q_ sT rU icomp) s)))

/-- The routine `magma_interp_3d_device<T, DIM_U, DIM_V, NCOMP_, P_, Q_, rUsize, rVsize>`,
run by a block of `nthreads` threads.  `sT` is the matrix in shared memory, `rU tx c i` is
register `rU[0][c][i]` of thread `tx`; the registers `rV`, `rTmp` and the scratch `swork`
are in the state.  (`transT` is not used by the body.) -/
def magma_interp_3d_device {R : Type} [CommRing R] (NCOMP_ P_ Q_ nthreads : Nat) (sT : Nat → R)
    (rU : Nat → Nat → Nat → R) (s : State R) : State R :=
  (List.range NCOMP_).foldl (compBody P_ Q_ nthreads sT rU) s

/-- The tensor contraction of `rU` with the matrix: the value that the three batched products
contribute to `rV[0][c][j]` of thread `tx` (its output point is `(tx % Q_, tx / Q_, j)`), with
the input node `(i0, i1, i2)` held by thread `i1 + P_ * i2` in `rU[0][c][i0]`. -/
def contraction {R : Type} [CommRing R] (P_ Q_ : Nat) (sT : Nat → R)
    (rU : Nat → Nat → Nat → R) (tx c j : Nat) : R :=
  ∑ i2 in Finset.range P_, (∑ i1 in Finset.range P_,
    (∑ i0 in Finset.range P_, rU (i1 + P_ * i2) c i0 * sT (sTidx P_ i0 (tx % Q_)))
      * sT (sTidx P_ i1 (tx / Q_))) * sT (sTidx P_ i2 j)

/-- Entry `T(i, j)` of the `P_ x Q_` matrix stored as `sT[j*P_ + i]`. -/
def Tmat {R : Type} (P_ : Nat) (sT : Nat → R) (i j : Nat) : R := sT (sTidx P_ i j)

/-- The dense tensor-product action, written as the triple sum over the nodes. -/
def tensorSum {R : Type} [CommRing R] (P_ : Nat) (sT : Nat → R) (u : Nat → Nat → Nat → R)
    (j0 j1 j2 : Nat) : R :=
  ∑ i0 in Finset.range P_, ∑ i1 in Finset.range P_, ∑ i2 in Finset.range P_,
    u i0 i1 i2 * Tmat P_ sT i0 j0 * Tmat P_ sT i1 j1 * Tmat P_ sT i2 j2

/-- Modelled on the spec's "equivalent dense P^D×Q^D matrix" for `D = 3`: entry `(p, q)` of the
Kronecker product `T ⊗ T ⊗ T`, where `p = i0 + P_*i1 + P_^2*i2` numbers the nodes and
`q = j0 + Q_*j1 + Q_^2*j2` the quadrature points. -/
def kron3 {R : Type} [CommRing R] (P_ Q_ : Nat) (sT : Nat → R) (p q : Nat) : R :=
  Tmat P_ sT (p % P_) (q % Q_) * Tmat P_ sT (p / P_ % P_) (q / Q_ % Q_)
    * Tmat P_ sT (p / (P_ * P_)) (q / (Q_ * Q_))

/-- Action of a dense matrix `K` with `n` rows on the vector `x`: entry `q` of `x K`. -/
def denseApply {R : Type} [CommRing R] (n : Nat) (K : Nat → Nat → R) (x : Nat → R) (q : Nat) :
    R :=
  ∑ p in Finset.range n, x p * K p q

/-- The nodal array `u[i0, i1, i2]` as a vector of `P_^3` values, `i0` fastest. -/
def flatten3 {R : Type} (P_ : Nat) (u : Nat → Nat → Nat → R) (p : Nat) : R :=
  u (p % P_) (p / P_ % P_) (p / (P_ * P_))

/-- The register file `rU` of a block that has read the array `x` of `n^3` values per
component: thread `b = i1 + n * i2` holds `rU[0][c][i0] = x c i0 i1 i2`. -/
def loadU {R : Type} (n : Nat) (x : Nat → Nat → Nat → Nat → R) : Nat → Nat → Nat → R :=
  fun b c i => x c i (b % n) (b / n)

/-- The matrix as the transposed kernel uses it (`P_ = Q`, `Q_ = P`): the `Q x P` matrix whose
entry `(i, j)`, stored at index `j*Q + i`, is `T(j, i)`. -/
def transposeT {R : Type} (P Q : Nat) (sT : Nat → R) : Nat → R :=
  fun k => sT (sTidx P (k / Q) (k % Q))

/-- Output of `magma_interp_3d_device` started in state `s` on the input array `x`, read as an
array over the output points: the value for point `(j0, j1, j2)` of component `c` is
`rV[0][c][j2]` of thread `j0 + Q_ * j1`. -/
def runInterp {R : Type} [CommRing R] (NCOMP_ P_ Q_ nthreads : Nat) (sT : Nat → R)
    (x : Nat → Nat → Nat → Nat → R) (s : State R) (c j0 j1 j2 : Nat) : R :=
  (magma_interp_3d_device NCOMP_ P_ Q_ nthreads sT (loadU P_ x) s).rV (j0 + Q_ * j1) c j2

/-- Number of scalars of shared memory the kernels reserve per element for `sTmp`:
`max(P * P * MAXPQ, P * Q * Q)` in `magma_interpn_3d_kernel` and, with `P` and `Q` exchanged,
`max(Q * Q * MAXPQ, Q * P * P)` in `magma_interpt_3d_kernel`; in both cases
`max(P_ * P_ * MAXPQ, P_ * Q_ * Q_)` in terms of the template arguments handed to
`magma_interp_3d_device`.  The macro `MAXPQ` is defined outside this file and is a parameter. -/
def workspaceSize (P_ Q_ MAXPQ : Nat) : Nat := max (P_ * P_ * MAXPQ) (P_ * Q_ * Q_)

/-- An access stays inside the arrays as the kernels declare them: `swork` has
`W` scalars, `rTmp` has `Q_`, `rU[0]` is `NCOMP_ x P_`, `rV[0]` is `NCOMP_ x Q_` and `sT` has
`P_ * Q_`. -/
def Access.inBounds (NCOMP_ P_ Q_ W : Nat) : Access → Bool
  | Access.swork idx => decide (idx < W)
  | Access.rTmp idx => decide (idx < Q_)
  | Access.rU comp idx => decide (comp < NCOMP_ ∧ idx < P_)
  | Access.rV comp idx => decide (comp < NCOMP_ ∧ idx < Q_)
  | Access.sT idx => decide (idx < P_ * Q_)

/-- Every access recorded in the trace is in bounds. -/
def TraceOK {R : Type} (NCOMP_ P_ Q_ W : Nat) (s : State R) : Prop :=
  ∀ a ∈ s.trace, Access.inBounds NCOMP_ P_ Q_ W a = true

/-- The device helpers that the two kernels call and that are defined outside
`interp-3d.h`; the kernel models take them as parameters.

* `dread_T_gm2sm P Q transT dT`: the content of the shared array `sT` after the matrix has been
  read from `dT` (`transT` is `false` for `MagmaNoTrans`, `true` for `MagmaTrans`);
* `readU_3d LENGTH NCOMP dU base cstrdU sTmp`: the registers `rU` of all threads (`tx c i`) after
  the read from `dU + base`, and the content of the scratch `sTmp` it leaves behind;
* `readV_3d LENGTH NCOMP dV base cstrdV`: the registers `rV` of all threads after the read from
  `dV + base`;
* `writeV_3d LENGTH NCOMP dV base cstrdV rV`: the global array after all threads have written
  their registers `rV` to `dV + base`. -/
structure Helpers (R : Type) where
  dread_T_gm2sm : Nat → Nat → Bool → (Nat → R) → (Nat → R)
  readU_3d : Nat → Nat → (Nat → R) → Nat → Nat → (Nat → R) →
    (Nat → Nat → Nat → R) × (Nat → R)
  readV_3d : Nat → Nat → (Nat → R) → Nat → Nat → (Nat → Nat → Nat → R)
  writeV_3d : Nat → Nat → (Nat → R) → Nat → Nat → (Nat → Nat → Nat → R) → (Nat → R)

/-- The element a thread row works on: `elem_id = (blockIdx.x * blockDim.y) + ty`. -/
def elemId (blockIdx_x blockDim_y ty : Nat) : Nat := blockIdx_x * blockDim_y + ty

/-- The registers `rV` at the call of `writeV_3d` in `magma_interpn_3d_kernel`, for a row with
`elem_id < nelem`: `rV` and `rTmp` are zero-initialised, `rU` comes from `readU_3d`. -/
def interpnRegs {R : Type} [CommRing R] (H : Helpers R) (NCOMP P Q nthreads : Nat)
    (dT dU : Nat → R) (estrdU cstrdU elem_id : Nat) (sTmp : Nat → R) : Nat → Nat → Nat → R :=
  (magma_interp_3d_device NCOMP P Q nthreads (H.dread_T_gm2sm P Q false dT)
    (H.readU_3d P NCOMP dU (elem_id * estrdU) cstrdU sTmp).1
    { swork := (H.readU_3d P NCOMP dU (elem_id * estrdU) cstrdU sTmp).2
      rTmp := fun _ _ => 0
      rV := fun _ _ _ => 0
      madds := 0
      trace := [] }).rV

/-- The kernel `magma_interpn_3d_kernel` as run by the thread row `ty` of block `blockIdx_x`
(`nthreads = blockDim.x` threads): the content of `dV` afterwards.  `sTmp` is the content of
the row's part of the shared memory at the start. -/
def magma_interpn_3d_kernel {R : Type} [CommRing R] (H : Helpers R) (NCOMP P Q nthreads : Nat)
    (dT dU : Nat → R) (estrdU cstrdU : Nat) (dV : Nat → R) (estrdV cstrdV nelem : Nat)
    (blockIdx_x blockDim_y ty : Nat) (sTmp : Nat → R) : Nat → R :=
  if elemId blockIdx_x blockDim_y ty ≥ nelem then dV
  else
    H.writeV_3d Q NCOMP dV (elemId blockIdx_x blockDim_y ty * estrdV) cstrdV
      (interpnRegs H NCOMP P Q nthreads dT dU estrdU cstrdU (elemId blockIdx_x blockDim_y ty) sTmp)

/-- The registers `rV` at the call of `writeV_3d` in `magma_interpt_3d_kernel`, for a row with
`elem_id < nelem`: `rV` is pre-loaded by `readV_3d`, `rTmp` is zero-initialised, `rU` comes from
`readU_3d`, and the routine is instantiated with `P_ = Q`, `Q_ = P`. -/
def interptRegs {R : Type} [CommRing R] (H : Helpers R) (NCOMP P Q nthreads : Nat)
    (dT dU : Nat → R) (estrdU cstrdU : Nat) (dV : Nat → R) (estrdV cstrdV elem_id : Nat)
    (sTmp : Nat → R) : Nat → Nat → Nat → R :=
  (magma_interp_3d_device NCOMP Q P nthreads (H.dread_T_gm2sm Q P true dT)
    (H.readU_3d Q NCOMP dU (elem_id * estrdU) cstrdU sTmp).1
    { swork := (H.readU_3d Q NCOMP dU (elem_id * estrdU) cstrdU sTmp).2
      rTmp := fun _ _ => 0
      rV := H.readV_3d P NCOMP dV (elem_id * estrdV) cstrdV
      madds := 0
      trace := [] }).rV

/-- The kernel `magma_interpt_3d_kernel` as run by the thread row `ty` of block `blockIdx_x`:
the content of `dV` afterwards. -/
def magma_interpt_3d_kernel {R : Type} [CommRing R] (H : Helpers R) (NCOMP P Q nthreads : Nat)
    (dT dU : Nat → R) (estrdU cstrdU : Nat) (dV : Nat → R) (estrdV cstrdV nelem : Nat)
    (blockIdx_x blockDim_y ty : Nat) (sTmp : Nat → R) : Nat → R :=
  if elemId blockIdx_x blockDim_y ty ≥ nelem then dV
  else
    H.writeV_3d P NCOMP dV (elemId blockIdx_x blockDim_y ty * estrdV) cstrdV
      (interptRegs H NCOMP P Q nthreads dT dU estrdU cstrdU dV estrdV cstrdV
        (elemId blockIdx_x blockDim_y ty) sTmp)

end Magma

namespace T564

/-- Body of the loop
`for (k = 0; k < num_entries; ++k)
   assembled_values[rows[k] * num_comp * num_dofs + cols[k]] += assembled_array[k];`. -/
def assembleStep {R : Type} [Add R] (num_comp num_dofs : Nat) (rows cols : Nat → Nat)
    (assembled_array : Nat → R) (assembled_values : Nat → R) (k : Nat) : Nat → R :=
  Function.update assembled_values (rows k * num_comp * num_dofs + cols k)
    (assembled_values (rows k * num_comp * num_dofs + cols k) + assembled_array k)

/-- The accumulation of the assembled entries, processing the entries in the given order. -/
def assembleIn {R : Type} [Add R] (num_comp num_dofs : Nat) (rows cols : Nat → Nat)
    (assembled_array : Nat → R) (order : List Nat) (assembled_values : Nat → R) : Nat → R :=
  order.foldl (assembleStep num_comp num_dofs rows cols assembled_array) assembled_values

/-- The accumulation loop of `main`: the entries `k = 0, ..., num_entries - 1` in this order. -/
def assembleLoop {R : Type} [Add R] (num_comp num_dofs num_entries : Nat) (rows cols : Nat → Nat)
    (assembled_array : Nat → R) (assembled_values : Nat → R) : Nat → R :=
  assembleIn num_comp num_dofs rows cols assembled_array (List.range num_entries)
    assembled_values

/-- The indices of `assembled_values` written by the accumulation loop, in order. -/
def assembleWrites (num_comp num_dofs num_entries : Nat) (rows cols : Nat → Nat) : List Nat :=
  (List.range num_entries).map (fun k => rows k * num_comp * num_dofs + cols k)

/-- The array `ind_x` while the restriction loop runs: its content and the positions written so
far, most recent last. -/
structure IndState where
  ind_x : Nat → Nat
  written : List Nat

/-- Statement `ind_x[p * (p * i + k) + j] = offset + k * (n_x * 2 + 1) + j;`. -/
def indWrite (p n_x i offset j : Nat) (s : IndState) (k : Nat) : IndState :=
  { ind_x := Function.update s.ind_x (p * (p * i + k) + j) (offset + k * (n_x * 2 + 1) + j)
    written := s.written ++ [p * (p * i + k) + j] }

/-- Body of the loop over the elements: `col = i % n_x; row = i / n_x;
offset = col * (p - 1) + row * (n_x * 2 + 1) * (p - 1);` followed by the loops over `j` and
`k`. -/
def indElem (p n_x : Nat) (s : IndState) (i : Nat) : IndState :=
  (List.range p).foldl
    (fun s j => (List.range p).foldl
      (indWrite p n_x i ((i % n_x) * (p - 1) + (i / n_x) * (n_x * 2 + 1) * (p - 1)) j) s) s

/-- The loop `for (CeedInt i = 0; i < num_elem; i++)` that fills `ind_x`, with
`num_elem = n_x * n_y`. -/
def indLoop (p n_x n_y : Nat) (s : IndState) : IndState :=
  (List.range (n_x * n_y)).foldl (indElem p n_x) s

/-- The state of the manual assembly loop: the vector `u`, the variable `old_index`, the array
`assembled_true`, the vectors handed to `CeedOperatorApply` so far and the indices used on
`u_array` so far (both most recent last). -/
structure ProbeState (R : Type) where
  u : Nat → R
  old_index : Int
  assembled_true : Nat → R
  applied : List (Nat → R)
  indexed : List Int

/-- Body of the loop `for (CeedInt j = 0; j < num_dofs * num_comp; j++)`.  `apply` stands for
`CeedOperatorApply(op_mass, u, v, ...)`: it maps the content of `u` to the content of `v`. -/
def probeStep {R : Type} [Zero R] [One R] (num_dofs num_comp : Nat)
    (apply : (Nat → R) → (Nat → R)) (s : ProbeState R) (j : Nat) : ProbeState R :=
  let ind : Int := j
  let u1 := Function.update s.u ind.toNat 1
  let u2 := if ind > 0 then Function.update u1 s.old_index.toNat 0 else u1
  let v_array := apply u2
  { u := u2
    old_index := ind
    assembled_true := (List.range (num_dofs * num_comp)).foldl
      (fun t k => Function.update t (j * num_dofs * num_comp + k) (v_array k)) s.assembled_true
    applied := s.applied ++ [u2]
    indexed := s.indexed ++ (if ind > 0 then [ind, s.old_index] else [ind]) }

/-- The manual assembly: `old_index = -1`, `CeedVectorSetValue(u, 0.0)`, then the loop.
`assembled_true` has been zeroed before. -/
def probeLoop {R : Type} [Zero R] [One R] (num_dofs num_comp : Nat)
    (apply : (Nat → R) → (Nat → R)) : ProbeState R :=
  (List.range (num_dofs * num_comp)).foldl (probeStep num_dofs num_comp apply)
    { u := fun _ => 0
      old_index := -1
      assembled_true := fun _ => 0
      applied := []
      indexed := [] }

/-- The output check: the pairs `(i, j)` for which the error message is printed, in order.
`eps` stands for `CEED_EPSILON`. -/
def checkOutput {R : Type} [LinearOrderedRing R] (num_comp num_dofs : Nat) (eps : R)
    (assembled_values assembled_true : Nat → R) : List (Nat × Nat) :=
  (List.range (num_comp * num_dofs)).flatMap (fun i =>
    (List.range (num_comp * num_dofs)).flatMap (fun j =>
      if |assembled_values (j * num_dofs * num_comp + i)
          - assembled_true (j * num_dofs * num_comp + i)| > 100 * eps
      then [(i, j)] else []))

/-- The `j`-th unit vector. -/
def unitVec {R : Type} [Zero R] [One R] (j : Nat) : Nat → R := fun i => if i = j then 1 else 0

/-- The part of `main` from the assembly to the check: accumulate the assembled entries, assemble
manually by probing, compare.  `rows`, `cols`, `num_entries` stand for the result of
`CeedOperatorLinearAssembleSymbolic`, `assembled_array` for that of
`CeedOperatorLinearAssemble`, `apply` for `CeedOperatorApply`. -/
def assemblyCheck {R : Type} [LinearOrderedRing R] (num_comp num_dofs : Nat) (eps : R)
    (num_entries : Nat) (rows cols : Nat → Nat) (assembled_array : Nat → R)
    (apply : (Nat → R) → (Nat → R)) : List (Nat × Nat) :=
  checkOutput num_comp num_dofs eps
    (assembleLoop num_comp num_dofs num_entries rows cols assembled_array (fun _ => 0))
    (probeLoop num_dofs num_comp apply).assembled_true

/-- The assembled matrix: `Asm[r][c]` is the sum of the assembled values at `(row r, col c)` as
accumulated in `assembled_values[r * N + c]`, `N = num_comp * num_dofs`. -/
def Asm {R : Type} [Add R] [Zero R] (num_comp num_dofs num_entries : Nat) (rows cols : Nat → Nat)
    (assembled_array : Nat → R) (r c : Nat) : R :=
  assembleLoop num_comp num_dofs num_entries rows cols assembled_array (fun _ => 0)
    (r * (num_comp * num_dofs) + c)

/-- The probed matrix: `Prb[r][c]` is entry `r` of `Apply(e_c)`. -/
def Prb {R : Type} [Zero R] [One R] (apply : (Nat → R) → (Nat → R)) (r c : Nat) : R :=
  apply (unitVec c) r

/-- Loop invariant of the restriction loop for `p = 3`: the positions of `ind_x` that have been
written when the loops stand at element `i`, outer index `j`, inner index `k`. -/
def indDone (i j k pos : Nat) : Prop :=
  pos < 9 * i ∨ (pos / 9 = i ∧ (pos % 3 < j ∨ (pos % 3 = j ∧ pos % 9 / 3 < k)))

/-- The value the restriction loop stores at position `pos = 3 * (3 * i + k) + j` for `p = 3`:
`offset + k * (n_x * 2 + 1) + j` with the offset of element `i = pos / 9`. -/
def indVal (n_x pos : Nat) : Nat :=
  ((pos / 9) % n_x) * (3 - 1) + ((pos / 9) / n_x) * (n_x * 2 + 1) * (3 - 1)
    + (pos % 9 / 3) * (n_x * 2 + 1) + pos % 3

/-- Invariant of the restriction loop: no position written twice, exactly the positions of
`indDone` written, each holding its value. -/
def IndInv (n_x i j k : Nat) (s : IndState) : Prop :=
  s.written.Nodup ∧ (∀ pos, pos ∈ s.written ↔ indDone i j k pos) ∧
    ∀ pos, indDone i j k pos → s.ind_x pos = indVal n_x pos

end T564

namespace OperatorModel

/-- Modelled from the spec: `CeedOperatorApply`, `CeedOperatorLinearAssembleSymbolic` and
`CeedOperatorLinearAssemble` are called by `tests/t564-operator.c` but their code is not among
the sources.  An Operator with one active input and one active output field (§3, §4.5 of the
specification): `num_elem` elements; an E-vector block of `elem_size` entries per element (local
nodes times components); `num_qdata` values per element at the quadrature points; the index
maps of the input and output ElemRestriction (element, local index) to global index; the dense
interpolation matrices of the input and output Basis (local index, quadrature index); and the
QFunction, which for each element maps the array of quadrature-point inputs to the array of
quadrature-point outputs. -/
structure Operator (R : Type) where
  num_elem : Nat
  elem_size : Nat
  num_qdata : Nat
  offsets_in : Nat → Nat → Nat
  offsets_out : Nat → Nat → Nat
  interp_in : Nat → Nat → R
  interp_out : Nat → Nat → R
  qf : Nat → (Nat → R) → (Nat → R)

/-- Modelled from the spec: §4.2 Gather, "copies, duplicating shared nodes into every incident
element's block": the block of element `e` of the E-vector of the L-vector `u`. -/
def gather {R : Type} (op : Operator R) (u : Nat → R) (e : Nat) : Nat → R :=
  fun l => u (op.offsets_in e l)

/-- Modelled from the spec: §4.3 Interpolate as the dense matrix action on one element block,
from the `elem_size` nodal values to the quadrature-point values. -/
def interpolate {R : Type} [CommRing R] (op : Operator R) (x : Nat → R) : Nat → R :=
  fun q => ∑ l in Finset.range op.elem_size, x l * op.interp_in l q

/-- Modelled from the spec: §4.3 transpose of Interpolate, "integrate quadrature contributions
back to nodal E-vector". -/
def interpolateT {R : Type} [CommRing R] (op : Operator R) (y : Nat → R) : Nat → R :=
  fun l => ∑ q in Finset.range op.num_qdata, y q * op.interp_out l q

/-- Modelled from the spec: §4.5 steps 2 to 4 on one element, "the Apply pipeline restricted to
that element": Basis, QFunction, Basis transpose. -/
def localApply {R : Type} [CommRing R] (op : Operator R) (e : Nat) (x : Nat → R) : Nat → R :=
  interpolateT op (op.qf e (interpolate op x))

/-- Modelled from the spec: §4.5 Apply: gather, local pipeline, then §4.2 Scatter-add, "which
sums contributions at shared nodes", into the output L-vector. -/
def apply {R : Type} [CommRing R] (op : Operator R) (u : Nat → R) : Nat → R :=
  fun i => ∑ e in Finset.range op.num_elem, ∑ l in Finset.range op.elem_size,
    if op.offsets_out e l = i then localApply op e (gather op u e) l else 0

/-- Modelled from the spec: the enumeration order shared by AssembleSymbolic and
AssembleNumeric: element by element, "the Cartesian product of local node indices within each
element" as (element, local row, local column). -/
def enumeration {R : Type} (op : Operator R) : List (Nat × Nat × Nat) :=
  (List.range op.num_elem).flatMap (fun e =>
    (List.range op.elem_size).flatMap (fun lo =>
      (List.range op.elem_size).map (fun li => (e, lo, li))))

/-- Modelled from the spec: §4.5 AssembleSymbolic: every (row, column) pair, the local indices
"mapped through the output and input ElemRestrictions", unsorted, duplicates kept. -/
def assembleSymbolic {R : Type} (op : Operator R) : List (Nat × Nat) :=
  (enumeration op).map (fun a => (op.offsets_out a.1 a.2.1, op.offsets_in a.1 a.2.2))

/-- Modelled from the spec: §4.5 AssembleNumeric: per element the small dense local operator
obtained "by probing the Apply pipeline column-by-column (unit inputs) restricted to that
element", one value per symbolic entry in the same enumeration order. -/
def assembleNumeric {R : Type} [CommRing R] (op : Operator R) : List R :=
  (enumeration op).map (fun a => localApply op a.1 (T564.unitVec a.2.2) a.2.1)

/-- Modelled from the spec: "the matrix implied by zipping AssembleSymbolic/AssembleNumeric",
duplicates summed: entry `(r, c)`. -/
def assembledMatrix {R : Type} [CommRing R] (op : Operator R) (r c : Nat) : R :=
  (((assembleSymbolic op).zip (assembleNumeric op)).map
    (fun t => if t.1 = (r, c) then t.2 else 0)).sum

/-- Product of a matrix with `n` columns and a vector: entry `r`. -/
def matVec {R : Type} [CommRing R] (n : Nat) (M : Nat → Nat → R) (x : Nat → R) (r : Nat) : R :=
  ∑ c in Finset.range n, M r c * x c

/-- Modelled from the spec: a QFunction "linear in its active input": additive and
homogeneous as a map between quadrature-point arrays. -/
def LinearQF {R : Type} [CommRing R] (f : (Nat → R) → (Nat → R)) : Prop :=
  (∀ y z, f (fun q => y q + z q) = fun q => f y q + f z q) ∧
  (∀ (a : R) y, f (fun q => a * y q) = fun q => a * f y q)

/-- A small mass-like instance for the assembly/apply equivalence: two elements with two local
nodes each on three global nodes (node 1 is shared), two quadrature points per element, and a
QFunction that multiplies the value at quadrature point `q` of element `e` by the weight
`q + e + 1`. -/
def massExample : Operator Int where
  num_elem := 2
  elem_size := 2
  num_qdata := 2
  offsets_in := fun e l => e + l
  offsets_out := fun e l => e + l
  interp_in := fun l q => if l = q then 2 else 1
  interp_out := fun l q => if l = q then 2 else 1
  qf := fun e y q => ((q + e + 1 : Nat) : Int) * y q

end OperatorModel

namespace Magma

/-- The input registers `a * U1 + b * U2`, register by register. -/
def linComb {R : Type} [CommRing R] (a b : R) (U1 U2 : Nat → Nat → Nat → R) :
    Nat → Nat → Nat → R :=
  fun t c i => a * U1 t c i + b * U2 t c i

/-- The helpers use the global arrays only from the pointer they are given onwards (the kernels
hand them `dU + elem_id * estrdU` and `dV + elem_id * estrdV`): what `readU_3d` and `readV_3d`
return depends only on the cells at `base + k`, and `writeV_3d` leaves the cells below `base`
as they are. -/
def Helpers.PointerRelative {R : Type} (H : Helpers R) : Prop :=
  (∀ (L N : Nat) (d d2 : Nat → R) (base cs : Nat) (sTmp : Nat → R),
    (∀ k, d (base + k) = d2 (base + k)) →
      H.readU_3d L N d base cs sTmp = H.readU_3d L N d2 base cs sTmp) ∧
  (∀ (L N : Nat) (d d2 : Nat → R) (base cs : Nat),
    (∀ k, d (base + k) = d2 (base + k)) → H.readV_3d L N d base cs = H.readV_3d L N d2 base cs) ∧
  (∀ (L N : Nat) (d : Nat → R) (base cs : Nat) (rV : Nat → Nat → Nat → R) (k : Nat),
    k < base → H.writeV_3d L N d base cs rV k = d k)

/-- A concrete set of helpers over the integers, used to instantiate statements about the
kernels: the matrix is copied, thread `tx` reads `rU[0][c][i]` from
`dU[base + c * cstrd + tx * L + i]` and `rV[0][c][j]` from `dV[base + c * cstrd + j * L * L + tx]`,
and the write puts register `rV[0][0][0]` of thread `k - base` into cell `k >= base`. -/
def exampleHelpers : Helpers Int where
  dread_T_gm2sm := fun _ _ _ dT => dT
  readU_3d := fun L _ d base cs sTmp => (fun tx c i => d (base + (c * cs + (tx * L + i))), sTmp)
  readV_3d := fun L _ d base cs => fun tx c j => d (base + (c * cs + (j * L * L + tx)))
  writeV_3d := fun _ _ d base _ rV => fun k => if k < base then d k else rV (k - base) 0 0

end Magma

namespace T564

/-- Modelled from the spec: the strided ElemRestriction of §3 ("strided (affine, collocated
quadrature data, one-to-one)"); `CeedElemRestrictionCreateStrided` is called by the test but
its code is not among the sources.  With strides `(node, component, element)` the L-vector
index of node `n`, component `c` of element `e` is the affine expression
`n * strides[0] + c * strides[1] + e * strides[2]`. -/
def stridedIndex (strides : Nat × Nat × Nat) (e c n : Nat) : Nat :=
  n * strides.1 + c * strides.2.1 + e * strides.2.2

/-- Declaration `CeedInt strides_q_data[3] = {1, q * q, q * q};`. -/
def strides_q_data (q : Nat) : Nat × Nat × Nat := (1, q * q, q * q)

/-- Declaration `num_qpts = num_elem * q * q`. -/
def num_qpts (num_elem q : Nat) : Nat := num_elem * q * q

end T564

namespace NavierStokes

/-- The constants of `ceed.h` and of the PETSc headers that the driver uses and that are
defined outside the sources: the two values of `CeedMemType` and the names behind the macros
`VECSTANDARD`, `VECCUDA`, `VECKOKKOS`, `MATAIJ`, `MATAIJCUSPARSE`, `MATAIJKOKKOS`. -/
structure Constants where
  CEED_MEM_HOST : Int
  CEED_MEM_DEVICE : Int
  VECSTANDARD : String
  VECCUDA : String
  VECKOKKOS : String
  MATAIJ : String
  MATAIJCUSPARSE : String
  MATAIJKOKKOS : String

/-- Whether the characters `needle` stand at the start of `hay`. -/
def startsWith : List Char → List Char → Bool
  | _, [] => true
  | [], _ :: _ => false
  | h :: hs, n :: ns => h == n && startsWith hs ns

/-- Whether the characters `needle` occur somewhere in `hay`. -/
def occursIn (needle : List Char) : List Char → Bool
  | [] => startsWith [] needle
  | h :: hs => startsWith (h :: hs) needle || occursIn needle hs

/-- The C library call `strstr(haystack, needle)` as the driver uses it: `true` when the result
is not `NULL`, that is when `needle` occurs in `haystack`. -/
def strstr (haystack needle : String) : Bool := occursIn needle.toList haystack.toList

/-- The `switch (mem_type_backend)` of `main`, started with `vec_type = NULL` (`none`): there is
no `default` label, so a value that is neither label leaves `vec_type` at `NULL`.  `resolved` is
the string that `CeedGetResource` returns. -/
def select_vec_type (K : Constants) (mem_type_backend : Int) (resolved : String) :
    Option String :=
  if mem_type_backend = K.CEED_MEM_HOST then some K.VECSTANDARD
  else if mem_type_backend = K.CEED_MEM_DEVICE then
    (if strstr resolved "/gpu/cuda" then some K.VECCUDA
     else if strstr resolved "/gpu/hip" then some K.VECKOKKOS
     else some K.VECSTANDARD)
  else none

/-- The statements `if (strstr(vec_type, VECCUDA)) mat_type = MATAIJCUSPARSE; else if
(strstr(vec_type, VECKOKKOS)) mat_type = MATAIJKOKKOS; else mat_type = MATAIJ;`.  With
`vec_type = NULL` the call of `strstr` is undefined: no result. -/
def select_mat_type (K : Constants) (vec_type : Option String) : Option String :=
  match vec_type with
  | none => none
  | some v =>
    if strstr v K.VECCUDA then some K.MATAIJCUSPARSE
    else if strstr v K.VECKOKKOS then some K.MATAIJKOKKOS
    else some K.MATAIJ

/-- The values of the constants in `ceed.h` and in PETSc. -/
def petscConstants : Constants where
  CEED_MEM_HOST := 0
  CEED_MEM_DEVICE := 1
  VECSTANDARD := "standard"
  VECCUDA := "cuda"
  VECKOKKOS := "kokkos"
  MATAIJ := "aij"
  MATAIJCUSPARSE := "aijcusparse"
  MATAIJKOKKOS := "aijkokkos"

end NavierStokes

/-! Theorems. -/

/-- Loop rule: an invariant that holds before a `for` loop over `0, ..., n - 1` and is
preserved by every iteration holds after the loop. -/
theorem foldl_range_inv {σ : Type} (f : σ → Nat → σ) (I : Nat → σ → Prop) (n : Nat) (s0 : σ)
    (h0 : I 0 s0) (hs : ∀ k s, k < n → I k s → I (k + 1) (f s k)) :
    I n ((List.range n).foldl f s0) := by
  induction n with
  | zero => simpa using h0
  | succ n ih =>
    rw [List.range_succ, List.foldl_append]
    simp only [List.foldl_cons, List.foldl_nil]
    exact hs n _ (Nat.lt_succ_self n) (ih (fun k s hk => hs k s (Nat.lt_succ_of_lt hk)))

namespace Magma

/-- Inner loop of stage 1. -/
theorem stage1_inner_spec {R : Type} [CommRing R] (P_ : Nat) (sT : Nat → R) (rU : Nat → Nat → Nat → R)
    (tx icomp j n : Nat) (s : State R) :
    let s1 := (List.range n).foldl (stage1Madd P_ sT rU tx icomp j) s
    s1.swork = s.swork ∧ s1.rV = s.rV ∧ s1.madds = s.madds + n ∧
      ∀ t k, s1.rTmp t k = if t = tx ∧ k = 0 then
          s.rTmp tx 0 + ∑ i in Finset.range n, rU tx icomp i * sT (sTidx P_ i j)
        else s.rTmp t k := by
  intro s1
  refine foldl_range_inv (stage1Madd P_ sT rU tx icomp j)
    (fun n s1 => s1.swork = s.swork ∧ s1.rV = s.rV ∧ s1.madds = s.madds + n ∧
      ∀ t k, s1.rTmp t k = if t = tx ∧ k = 0 then
          s.rTmp tx 0 + ∑ i in Finset.range n, rU tx icomp i * sT (sTidx P_ i j)
        else s.rTmp t k) n s ?_ ?_
  · refine ⟨rfl, rfl, rfl, ?_⟩
    intro t k
    split_ifs with h
    · obtain ⟨rfl, rfl⟩ := h; simp
    · rfl
  · rintro k s2 - ⟨h1, h2, h3, h4⟩
    refine ⟨h1, h2, by simp [stage1Madd, h3, Nat.add_assoc], ?_⟩
    intro t k2
    simp only [stage1Madd, Function.update_apply]
    by_cases ht : t = tx
    · subst ht
      by_cases hk : k2 = 0
      · subst hk
        simp [h4, Finset.sum_range_succ, add_assoc]
      · simp [hk, h4]
    · simp [ht, h4]

/-- Inner loop of stage 2. -/
theorem stage2_inner_spec {R : Type} [CommRing R] (P_ Q_ : Nat) (sT : Nat → R)
    (tx j n : Nat) (s : State R) :
    let s1 := (List.range n).foldl (stage2Madd P_ Q_ sT tx j) s
    s1.swork = s.swork ∧ s1.rV = s.rV ∧ s1.madds = s.madds + n ∧
      ∀ t k, s1.rTmp t k = if t = tx ∧ k = j then
          s.rTmp tx j + ∑ i in Finset.range n,
            s.swork (sTmpidx (tx / Q_ * (Q_ * P_)) (tx % Q_) i Q_) * sT (sTidx P_ i j)
        else s.rTmp t k := by
  intro s1
  refine foldl_range_inv (stage2Madd P_ Q_ sT tx j)
    (fun n s1 => s1.swork = s.swork ∧ s1.rV = s.rV ∧ s1.madds = s.madds + n ∧
      ∀ t k, s1.rTmp t k = if t = tx ∧ k = j then
          s.rTmp tx j + ∑ i in Finset.range n,
            s.swork (sTmpidx (tx / Q_ * (Q_ * P_)) (tx % Q_) i Q_) * sT (sTidx P_ i j)
        else s.rTmp t k) n s ?_ ?_
  · refine ⟨rfl, rfl, rfl, ?_⟩
    intro t k
    split_ifs with h
    · obtain ⟨rfl, rfl⟩ := h; simp
    · rfl
  · rintro k s2 - ⟨h1, h2, h3, h4⟩
    refine ⟨h1, h2, by simp [stage2Madd, h3, Nat.add_assoc], ?_⟩
    intro t k2
    simp only [stage2Madd, Function.update_apply]
    by_cases ht : t = tx
    · subst ht
      by_cases hk : k2 = j
      · subst hk
        simp [h4, h1, Finset.sum_range_succ, add_assoc]
      · simp [hk, h4]
    · simp [ht, h4]

/-- Inner loop of stage 3. -/
theorem stage3_inner_spec {R : Type} [CommRing R] (P_ Q_ : Nat) (sT : Nat → R)
    (tx j n : Nat) (s : State R) :
    let s1 := (List.range n).foldl (stage3Madd P_ Q_ sT tx j) s
    s1.swork = s.swork ∧ s1.rV = s.rV ∧ s1.madds = s.madds + n ∧
      ∀ t k, s1.rTmp t k = if t = tx ∧ k = 0 then
          s.rTmp tx 0 + ∑ i in Finset.range n,
            s.swork (sTmpidx 0 tx i (Q_ * Q_)) * sT (sTidx P_ i j)
        else s.rTmp t k := by
  intro s1
  refine foldl_range_inv (stage3Madd P_ Q_ sT tx j)
    (fun n s1 => s1.swork = s.swork ∧ s1.rV = s.rV ∧ s1.madds = s.madds + n ∧
      ∀ t k, s1.rTmp t k = if t = tx ∧ k = 0 then
          s.rTmp tx 0 + ∑ i in Finset.range n,
            s.swork (sTmpidx 0 tx i (Q_ * Q_)) * sT (sTidx P_ i j)
        else s.rTmp t k) n s ?_ ?_
  · refine ⟨rfl, rfl, rfl, ?_⟩
    intro t k
    split_ifs with h
    · obtain ⟨rfl, rfl⟩ := h; simp
    · rfl
  · rintro k s2 - ⟨h1, h2, h3, h4⟩
    refine ⟨h1, h2, by simp [stage3Madd, h3, Nat.add_assoc], ?_⟩
    intro t k2
    simp only [stage3Madd, Function.update_apply]
    by_cases ht : t = tx
    · subst ht
      by_cases hk : k2 = 0
      · subst hk
        simp [h4, h1, Finset.sum_range_succ, add_assoc]
      · simp [hk, h4]
    · simp [ht, h4]

/-- The value thread `tx` stores in stage 1 for output index `j`. -/
theorem stage1_body_spec {R : Type} [CommRing R] (P_ Q_ : Nat) (sT : Nat → R) (rU : Nat → Nat → Nat → R)
    (tx icomp j : Nat) (s : State R) :
    let s1 := stage1Body P_ Q_ sT rU tx icomp s j
    s1.rV = s.rV ∧ s1.madds = s.madds + P_ ∧
      ∀ idx, s1.swork idx = if idx = tx * Q_ + j then
          ∑ i in Finset.range P_, rU tx icomp i * sT (sTidx P_ i j)
        else s.swork idx := by
  intro s1
  obtain ⟨h1, h2, h3, h4⟩ := stage1_inner_spec P_ sT rU tx icomp j P_ (zeroTmp tx 0 s)
  refine ⟨?_, ?_, ?_⟩
  · simpa [s1, stage1Body, stage1Store, zeroTmp] using h2
  · simpa [s1, stage1Body, stage1Store, zeroTmp] using h3
  · intro idx
    simp only [s1, stage1Body, stage1Store, Function.update_apply, sTmpidx]
    have e : tx * (1 * Q_) + (j * 1 + 0) = tx * Q_ + j := by simp
    rw [e, h4 tx 0, h1]
    simp [zeroTmp]

/-- Stage 1 of one thread. -/
theorem stage1_thread_spec {R : Type} [CommRing R] (P_ Q_ : Nat) (sT : Nat → R) (rU : Nat → Nat → Nat → R)
    (tx icomp : Nat) (s : State R) :
    let s1 := stage1Thread P_ Q_ sT rU icomp s tx
    s1.rV = s.rV ∧ s1.madds = s.madds + (if tx < P_ * P_ then Q_ * P_ else 0) ∧
      ∀ idx, s1.swork idx = if tx < P_ * P_ ∧ tx * Q_ ≤ idx ∧ idx < tx * Q_ + Q_ then
          ∑ i in Finset.range P_, rU tx icomp i * sT (sTidx P_ i (idx - tx * Q_))
        else s.swork idx := by
  intro s1
  by_cases htx : tx < P_ * P_
  · have key := foldl_range_inv (stage1Body P_ Q_ sT rU tx icomp)
      (fun n s1 => s1.rV = s.rV ∧ s1.madds = s.madds + n * P_ ∧
        ∀ idx, s1.swork idx = if tx * Q_ ≤ idx ∧ idx < tx * Q_ + n then
            ∑ i in Finset.range P_, rU tx icomp i * sT (sTidx P_ i (idx - tx * Q_))
          else s.swork idx) Q_ s ?_ ?_
    · simp only [s1, stage1Thread, htx, if_true, true_and]
      exact key
    · refine ⟨rfl, by simp, ?_⟩
      intro idx
      rw [if_neg]; omega
    · rintro k s2 - ⟨h1, h2, h3⟩
      obtain ⟨b1, b2, b3⟩ := stage1_body_spec P_ Q_ sT rU tx icomp k s2
      refine ⟨b1.trans h1, ?_, ?_⟩
      · rw [b2, h2, Nat.succ_mul, Nat.add_assoc]
      · intro idx
        rw [b3 idx, h3 idx]
        by_cases e : idx = tx * Q_ + k
        · subst e
          simp
        · simp only [e, if_false]
          by_cases c : tx * Q_ ≤ idx ∧ idx < tx * Q_ + k
          · rw [if_pos c, if_pos]; omega
          · rw [if_neg c, if_neg]; omega
  · simp [s1, stage1Thread, htx]

/-- Stage 1 of the block: thread `b < P_ * P_` has left its `Q_` results in
`swork[b * Q_ .. b * Q_ + Q_)`. -/
theorem stage1_spec {R : Type} [CommRing R] (P_ Q_ nthreads : Nat) (sT : Nat → R) (rU : Nat → Nat → Nat → R)
    (icomp : Nat) (s : State R) :
    let s1 := runStage nthreads (stage1Thread P_ Q_ sT rU icomp) s
    s1.rV = s.rV ∧ s1.madds = s.madds + min nthreads (P_ * P_) * (Q_ * P_) ∧
      ∀ b j, b < nthreads → b < P_ * P_ → j < Q_ →
        s1.swork (b * Q_ + j) = ∑ i in Finset.range P_, rU b icomp i * sT (sTidx P_ i j) := by
  intro s1
  refine foldl_range_inv (stage1Thread P_ Q_ sT rU icomp)
    (fun n s1 => s1.rV = s.rV ∧ s1.madds = s.madds + min n (P_ * P_) * (Q_ * P_) ∧
      ∀ b j, b < n → b < P_ * P_ → j < Q_ →
        s1.swork (b * Q_ + j) = ∑ i in Finset.range P_, rU b icomp i * sT (sTidx P_ i j))
    nthreads s ?_ ?_
  · exact ⟨rfl, by simp, fun b j hb => absurd hb (Nat.not_lt_zero b)⟩
  · rintro n s2 - ⟨h1, h2, h3⟩
    obtain ⟨t1, t2, t3⟩ := stage1_thread_spec P_ Q_ sT rU n icomp s2
    refine ⟨t1.trans h1, ?_, ?_⟩
    · rw [t2, h2]
      by_cases hn : n < P_ * P_
      · rw [if_pos hn, Nat.min_eq_left (Nat.le_of_lt hn), Nat.min_eq_left hn, Nat.succ_mul,
          Nat.add_assoc]
      · rw [if_neg hn, Nat.min_eq_right (Nat.le_of_not_lt hn),
          Nat.min_eq_right (Nat.le_succ_of_le (Nat.le_of_not_lt hn))]
        rfl
    · intro b j hb hbP hj
      rw [t3]
      by_cases e : b = n
      · subst e
        rw [if_pos ⟨hbP, by omega, by omega⟩]
        congr 1
        simp
      · have hlt : b < n := by omega
        have hmul : (b + 1) * Q_ ≤ n * Q_ := Nat.mul_le_mul_right Q_ hlt
        rw [Nat.succ_mul] at hmul
        rw [if_neg (by omega)]
        exact h3 b j hlt hbP hj

theorem stage2_body_spec {R : Type} [CommRing R] (P_ Q_ : Nat) (sT : Nat → R) (tx j : Nat) (s : State R) :
    let s1 := stage2Body P_ Q_ sT tx s j
    s1.swork = s.swork ∧ s1.rV = s.rV ∧ s1.madds = s.madds + P_ ∧
      ∀ t k, s1.rTmp t k = if t = tx ∧ k = j then
          ∑ i in Finset.range P_,
            s.swork (sTmpidx (tx / Q_ * (Q_ * P_)) (tx % Q_) i Q_) * sT (sTidx P_ i j)
        else s.rTmp t k := by
  intro s1
  obtain ⟨h1, h2, h3, h4⟩ := stage2_inner_spec P_ Q_ sT tx j P_ (zeroTmp tx j s)
  refine ⟨h1, h2, h3, ?_⟩
  intro t k
  simp only [s1, stage2Body]
  rw [h4 t k]
  by_cases c : t = tx ∧ k = j
  · obtain ⟨rfl, rfl⟩ := c
    simp [zeroTmp]
  · rw [if_neg c, if_neg c]
    simp only [zeroTmp, Function.update_apply]
    by_cases ht : t = tx
    · subst ht
      have hk : k ≠ j := fun h => c ⟨rfl, h⟩
      simp [hk]
    · simp [ht]

/-- Stage 2 of one thread. -/
theorem stage2_thread_spec {R : Type} [CommRing R] (P_ Q_ : Nat) (sT : Nat → R) (tx : Nat) (s : State R) :
    let s1 := stage2Thread P_ Q_ sT s tx
    s1.swork = s.swork ∧ s1.rV = s.rV ∧
      s1.madds = s.madds + (if tx < P_ * Q_ then Q_ * P_ else 0) ∧
      ∀ t k, s1.rTmp t k = if tx < P_ * Q_ ∧ t = tx ∧ k < Q_ then
          ∑ i in Finset.range P_,
            s.swork (sTmpidx (tx / Q_ * (Q_ * P_)) (tx % Q_) i Q_) * sT (sTidx P_ i k)
        else s.rTmp t k := by
  intro s1
  by_cases htx : tx < P_ * Q_
  · have key := foldl_range_inv (stage2Body P_ Q_ sT tx)
      (fun n s1 => s1.swork = s.swork ∧ s1.rV = s.rV ∧ s1.madds = s.madds + n * P_ ∧
        ∀ t k, s1.rTmp t k = if t = tx ∧ k < n then
            ∑ i in Finset.range P_,
              s.swork (sTmpidx (tx / Q_ * (Q_ * P_)) (tx % Q_) i Q_) * sT (sTidx P_ i k)
          else s.rTmp t k) Q_ s ?_ ?_
    · simp only [s1, stage2Thread, htx, if_true, true_and]
      exact key
    · refine ⟨rfl, rfl, by simp, ?_⟩
      intro t k
      rw [if_neg]; omega
    · rintro n s2 - ⟨h1, h2, h3, h4⟩
      obtain ⟨b1, b2, b3, b4⟩ := stage2_body_spec P_ Q_ sT tx n s2
      refine ⟨b1.trans h1, b2.trans h2, ?_, ?_⟩
      · rw [b3, h3, Nat.succ_mul, Nat.add_assoc]
      · intro t k
        rw [b4 t k, h4 t k, h1]
        by_cases e : t = tx ∧ k = n
        · obtain ⟨rfl, rfl⟩ := e
          simp
        · rw [if_neg e]
          by_cases c : t = tx ∧ k < n
          · rw [if_pos c, if_pos]; omega
          · rw [if_neg c, if_neg]; omega
  · simp [s1, stage2Thread, htx]

/-- Stage 2 of the block: thread `t < P_ * Q_` holds in `rTmp[k]` the contraction of its row of
`swork` with column `k` of the matrix. -/
theorem stage2_spec {R : Type} [CommRing R] (P_ Q_ nthreads : Nat) (sT : Nat → R) (s : State R) :
    let s1 := runStage nthreads (stage2Thread P_ Q_ sT) s
    s1.swork = s.swork ∧ s1.rV = s.rV ∧
      s1.madds = s.madds + min nthreads (P_ * Q_) * (Q_ * P_) ∧
      ∀ t k, s1.rTmp t k = if t < nthreads ∧ t < P_ * Q_ ∧ k < Q_ then
          ∑ i in Finset.range P_,
            s.swork (sTmpidx (t / Q_ * (Q_ * P_)) (t % Q_) i Q_) * sT (sTidx P_ i k)
        else s.rTmp t k := by
  intro s1
  refine foldl_range_inv (stage2Thread P_ Q_ sT)
    (fun n s1 => s1.swork = s.swork ∧ s1.rV = s.rV ∧
      s1.madds = s.madds + min n (P_ * Q_) * (Q_ * P_) ∧
      ∀ t k, s1.rTmp t k = if t < n ∧ t < P_ * Q_ ∧ k < Q_ then
          ∑ i in Finset.range P_,
            s.swork (sTmpidx (t / Q_ * (Q_ * P_)) (t % Q_) i Q_) * sT (sTidx P_ i k)
        else s.rTmp t k) nthreads s ?_ ?_
  · refine ⟨rfl, rfl, by simp, ?_⟩
    intro t k
    rw [if_neg]; omega
  · rintro n s2 - ⟨h1, h2, h3, h4⟩
    obtain ⟨t1, t2, t3, t4⟩ := stage2_thread_spec P_ Q_ sT n s2
    refine ⟨t1.trans h1, t2.trans h2, ?_, ?_⟩
    · rw [t3, h3]
      by_cases hn : n < P_ * Q_
      · rw [if_pos hn, Nat.min_eq_left (Nat.le_of_lt hn), Nat.min_eq_left hn, Nat.succ_mul,
          Nat.add_assoc]
      · rw [if_neg hn, Nat.min_eq_right (Nat.le_of_not_lt hn),
          Nat.min_eq_right (Nat.le_succ_of_le (Nat.le_of_not_lt hn))]
        rfl
    · intro t k
      rw [t4 t k, h4 t k, h1]
      by_cases e : n < P_ * Q_ ∧ t = n ∧ k < Q_
      · obtain ⟨e1, rfl, e3⟩ := e
        rw [if_pos ⟨e1, rfl, e3⟩, if_pos ⟨Nat.lt_succ_self _, e1, e3⟩]
      · rw [if_neg e]
        by_cases c : t < n ∧ t < P_ * Q_ ∧ k < Q_
        · rw [if_pos c, if_pos]; omega
        · rw [if_neg c, if_neg]; omega

/-- Index written by thread `tx` in the write-back for `j`. -/
theorem writeBack_idx (Q_ tx j : Nat) :
    sTmpidx (tx / Q_ * (Q_ * Q_)) (tx % Q_) j Q_ = (tx / Q_ * Q_ + j) * Q_ + tx % Q_ := by
  simp only [sTmpidx]
  ring

/-- The write-back index determines the thread and the register. -/
theorem writeBack_idx_inj (Q_ tx j tx2 j2 : Nat) (hj : j < Q_) (hj2 : j2 < Q_)
    (h : sTmpidx (tx / Q_ * (Q_ * Q_)) (tx % Q_) j Q_
      = sTmpidx (tx2 / Q_ * (Q_ * Q_)) (tx2 % Q_) j2 Q_) : tx = tx2 ∧ j = j2 := by
  have hQ : 0 < Q_ := by omega
  rw [writeBack_idx, writeBack_idx] at h
  have hm : tx % Q_ = tx2 % Q_ := by
    have := congrArg (fun x => x % Q_) h
    simpa [Nat.add_mod, Nat.mul_mod_left, Nat.mod_mod] using this
  have hd : tx / Q_ * Q_ + j = tx2 / Q_ * Q_ + j2 := by
    rw [hm] at h
    exact Nat.eq_of_mul_eq_mul_right hQ (Nat.add_right_cancel h)
  have hj' : j = j2 := by
    have := congrArg (fun x => x % Q_) hd
    simpa [Nat.add_mod, Nat.mul_mod_left, Nat.mod_eq_of_lt hj, Nat.mod_eq_of_lt hj2] using this
  have hq : tx / Q_ = tx2 / Q_ := by
    rw [hj'] at hd
    exact Nat.eq_of_mul_eq_mul_right hQ (Nat.add_right_cancel hd)
  refine ⟨?_, hj'⟩
  rw [← Nat.div_add_mod tx Q_, ← Nat.div_add_mod tx2 Q_, hm, hq]

/-- Write-back of one thread. -/
theorem writeBack_thread_spec {R : Type} [CommRing R] (P_ Q_ : Nat) (tx : Nat) (s : State R) :
    let s1 := writeBackThread P_ Q_ s tx
    s1.rTmp = s.rTmp ∧ s1.rV = s.rV ∧ s1.madds = s.madds ∧
      (tx < P_ * Q_ → ∀ j, j < Q_ →
        s1.swork (sTmpidx (tx / Q_ * (Q_ * Q_)) (tx % Q_) j Q_) = s.rTmp tx j) ∧
      ∀ idx, (∀ j, j < Q_ → idx ≠ sTmpidx (tx / Q_ * (Q_ * Q_)) (tx % Q_) j Q_) →
        s1.swork idx = s.swork idx := by
  intro s1
  by_cases htx : tx < P_ * Q_
  · have key := foldl_range_inv (writeBackStore Q_ tx)
      (fun n s1 => n ≤ Q_ → (s1.rTmp = s.rTmp ∧ s1.rV = s.rV ∧ s1.madds = s.madds ∧
        (∀ j, j < n →
          s1.swork (sTmpidx (tx / Q_ * (Q_ * Q_)) (tx % Q_) j Q_) = s.rTmp tx j) ∧
        ∀ idx, (∀ j, j < Q_ → idx ≠ sTmpidx (tx / Q_ * (Q_ * Q_)) (tx % Q_) j Q_) →
          s1.swork idx = s.swork idx)) Q_ s ?_ ?_ (Nat.le_refl _)
    · simp only [s1, writeBackThread, htx, if_true]
      exact ⟨key.1, key.2.1, key.2.2.1, fun _ => key.2.2.2.1, key.2.2.2.2⟩
    · intro _
      exact ⟨rfl, rfl, rfl, fun j hj => absurd hj (Nat.not_lt_zero j), fun _ _ => rfl⟩
    · rintro n s2 hn ih hle
      obtain ⟨h1, h2, h3, h4, h5⟩ := ih (Nat.le_of_lt hn)
      refine ⟨h1, h2, h3, ?_, ?_⟩
      · intro j hj
        simp only [writeBackStore, Function.update_apply]
        by_cases e : j = n
        · subst e
          simp [h1]
        · have hjn : j < n := by omega
          have hne : sTmpidx (tx / Q_ * (Q_ * Q_)) (tx % Q_) j Q_
              ≠ sTmpidx (tx / Q_ * (Q_ * Q_)) (tx % Q_) n Q_ := by
            intro h
            exact e (writeBack_idx_inj Q_ tx j tx n (by omega) hn h).2
          rw [if_neg hne]
          exact h4 j hjn
      · intro idx hidx
        simp only [writeBackStore, Function.update_apply]
        rw [if_neg (hidx n hn)]
        exact h5 idx hidx
  · simp [s1, writeBackThread, htx]

/-- Write-back of the block: what thread `t < P_ * Q_` held in `rTmp[j]` is now in `swork`. -/
theorem writeBack_spec {R : Type} [CommRing R] (P_ Q_ nthreads : Nat) (s : State R) :
    let s1 := runStage nthreads (writeBackThread P_ Q_) s
    s1.rTmp = s.rTmp ∧ s1.rV = s.rV ∧ s1.madds = s.madds ∧
      ∀ t j, t < nthreads → t < P_ * Q_ → j < Q_ →
        s1.swork (sTmpidx (t / Q_ * (Q_ * Q_)) (t % Q_) j Q_) = s.rTmp t j := by
  intro s1
  refine foldl_range_inv (writeBackThread P_ Q_)
    (fun n s1 => s1.rTmp = s.rTmp ∧ s1.rV = s.rV ∧ s1.madds = s.madds ∧
      ∀ t j, t < n → t < P_ * Q_ → j < Q_ →
        s1.swork (sTmpidx (t / Q_ * (Q_ * Q_)) (t % Q_) j Q_) = s.rTmp t j) nthreads s ?_ ?_
  · exact ⟨rfl, rfl, rfl, fun t j ht => absurd ht (Nat.not_lt_zero t)⟩
  · rintro n s2 - ⟨h1, h2, h3, h4⟩
    obtain ⟨t1, t2, t3, t4, t5⟩ := writeBack_thread_spec P_ Q_ n s2
    refine ⟨t1.trans h1, t2.trans h2, t3.trans h3, ?_⟩
    intro t j ht htP hj
    by_cases e : t = n
    · subst e
      rw [t4 htP j hj, h1]
    · rw [t5, h4 t j (by omega) htP hj]
      intro j2 hj2 h
      exact e (writeBack_idx_inj Q_ t j n j2 hj hj2 h).1

theorem stage3_body_spec {R : Type} [CommRing R] (P_ Q_ : Nat) (sT : Nat → R) (tx icomp j : Nat) (s : State R) :
    let s1 := stage3Body P_ Q_ sT tx icomp s j
    s1.swork = s.swork ∧ s1.madds = s.madds + P_ ∧
      ∀ t c k, s1.rV t c k = if t = tx ∧ c = icomp ∧ k = j then
          s.rV tx icomp j + ∑ i in Finset.range P_,
            s.swork (sTmpidx 0 tx i (Q_ * Q_)) * sT (sTidx P_ i j)
        else s.rV t c k := by
  intro s1
  obtain ⟨h1, h2, h3, h4⟩ := stage3_inner_spec P_ Q_ sT tx j P_ (zeroTmp tx 0 s)
  refine ⟨?_, ?_, ?_⟩
  · simpa [s1, stage3Body, stage3Acc, zeroTmp] using h1
  · simpa [s1, stage3Body, stage3Acc, zeroTmp] using h3
  · intro t c k
    simp only [s1, stage3Body, stage3Acc, Function.update_apply]
    rw [h4 tx 0, h2]
    by_cases ht : t = tx
    · subst ht
      by_cases hc : c = icomp
      · subst hc
        by_cases hk : k = j
        · subst hk
          simp [zeroTmp]
        · simp [hk, zeroTmp]
      · simp [hc, zeroTmp]
    · simp [ht, zeroTmp]

/-- Stage 3 of one thread. -/
theorem stage3_thread_spec {R : Type} [CommRing R] (P_ Q_ : Nat) (sT : Nat → R) (tx icomp : Nat) (s : State R) :
    let s1 := stage3Thread P_ Q_ sT icomp s tx
    s1.swork = s.swork ∧ s1.madds = s.madds + (if tx < Q_ * Q_ then Q_ * P_ else 0) ∧
      ∀ t c k, s1.rV t c k = if tx < Q_ * Q_ ∧ t = tx ∧ c = icomp ∧ k < Q_ then
          s.rV tx icomp k + ∑ i in Finset.range P_,
            s.swork (sTmpidx 0 tx i (Q_ * Q_)) * sT (sTidx P_ i k)
        else s.rV t c k := by
  intro s1
  by_cases htx : tx < Q_ * Q_
  · have key := foldl_range_inv (stage3Body P_ Q_ sT tx icomp)
      (fun n s1 => s1.swork = s.swork ∧ s1.madds = s.madds + n * P_ ∧
        ∀ t c k, s1.rV t c k = if t = tx ∧ c = icomp ∧ k < n then
            s.rV tx icomp k + ∑ i in Finset.range P_,
              s.swork (sTmpidx 0 tx i (Q_ * Q_)) * sT (sTidx P_ i k)
          else s.rV t c k) Q_ s ?_ ?_
    · simp only [s1, stage3Thread, htx, if_true, true_and]
      exact key
    · refine ⟨rfl, by simp, ?_⟩
      intro t c k
      rw [if_neg]; omega
    · rintro n s2 - ⟨h1, h2, h3⟩
      obtain ⟨b1, b2, b3⟩ := stage3_body_spec P_ Q_ sT tx icomp n s2
      refine ⟨b1.trans h1, ?_, ?_⟩
      · rw [b2, h2, Nat.succ_mul, Nat.add_assoc]
      · intro t c k
        rw [b3 t c k, h3 t c k, h1]
        by_cases e : t = tx ∧ c = icomp ∧ k = n
        · obtain ⟨rfl, rfl, rfl⟩ := e
          rw [if_pos ⟨rfl, rfl, rfl⟩, if_pos ⟨rfl, rfl, Nat.lt_succ_self _⟩, h3, if_neg]
          omega
        · rw [if_neg e]
          by_cases c2 : t = tx ∧ c = icomp ∧ k < n
          · rw [if_pos c2, if_pos]; omega
          · rw [if_neg c2, if_neg]; omega
  · simp [s1, stage3Thread, htx]

/-- Stage 3 of the block: thread `t < Q_ * Q_` adds to `rV[0][icomp][k]` the contraction of its
row of `swork` with column `k` of the matrix. -/
theorem stage3_spec {R : Type} [CommRing R] (P_ Q_ nthreads : Nat) (sT : Nat → R) (icomp : Nat) (s : State R) :
    let s1 := runStage nthreads (stage3Thread P_ Q_ sT icomp) s
    s1.swork = s.swork ∧ s1.madds = s.madds + min nthreads (Q_ * Q_) * (Q_ * P_) ∧
      ∀ t c k, s1.rV t c k = if t < nthreads ∧ t < Q_ * Q_ ∧ c = icomp ∧ k < Q_ then
          s.rV t icomp k + ∑ i in Finset.range P_,
            s.swork (sTmpidx 0 t i (Q_ * Q_)) * sT (sTidx P_ i k)
        else s.rV t c k := by
  intro s1
  refine foldl_range_inv (stage3Thread P_ Q_ sT icomp)
    (fun n s1 => s1.swork = s.swork ∧ s1.madds = s.madds + min n (Q_ * Q_) * (Q_ * P_) ∧
      ∀ t c k, s1.rV t c k = if t < n ∧ t < Q_ * Q_ ∧ c = icomp ∧ k < Q_ then
          s.rV t icomp k + ∑ i in Finset.range P_,
            s.swork (sTmpidx 0 t i (Q_ * Q_)) * sT (sTidx P_ i k)
        else s.rV t c k) nthreads s ?_ ?_
  · refine ⟨rfl, by simp, ?_⟩
    intro t c k
    rw [if_neg]; omega
  · rintro n s2 - ⟨h1, h2, h3⟩
    obtain ⟨t1, t2, t3⟩ := stage3_thread_spec P_ Q_ sT n icomp s2
    refine ⟨t1.trans h1, ?_, ?_⟩
    · rw [t2, h2]
      by_cases hn : n < Q_ * Q_
      · rw [if_pos hn, Nat.min_eq_left (Nat.le_of_lt hn), Nat.min_eq_left hn, Nat.succ_mul,
          Nat.add_assoc]
      · rw [if_neg hn, Nat.min_eq_right (Nat.le_of_not_lt hn),
          Nat.min_eq_right (Nat.le_succ_of_le (Nat.le_of_not_lt hn))]
        rfl
    · intro t c k
      rw [t3 t c k, h3 t c k, h1]
      by_cases e : n < Q_ * Q_ ∧ t = n ∧ c = icomp ∧ k < Q_
      · obtain ⟨e1, rfl, rfl, e3⟩ := e
        rw [if_pos ⟨e1, rfl, rfl, e3⟩, if_pos ⟨Nat.lt_succ_self _, e1, rfl, e3⟩, h3, if_neg]
        omega
      · rw [if_neg e]
        by_cases c2 : t < n ∧ t < Q_ * Q_ ∧ c = icomp ∧ k < Q_
        · rw [if_pos c2, if_pos]; omega
        · rw [if_neg c2, if_neg]; omega

/-- One pass of the component loop: `rV[0][icomp][k]` of every thread `t < Q_ * Q_` has received
the contraction, nothing else of `rV` has changed, and the pass has executed
`P_^3 Q_ + P_^2 Q_^2 + P_ Q_^3` multiply-adds. -/
theorem compBody_spec {R : Type} [CommRing R] (P_ Q_ nthreads : Nat) (sT : Nat → R) (rU : Nat → Nat → Nat → R)
    (icomp : Nat) (s : State R)
    (h1 : P_ * P_ ≤ nthreads) (h2 : P_ * Q_ ≤ nthreads) (h3 : Q_ * Q_ ≤ nthreads) :
    let s1 := compBody P_ Q_ nthreads sT rU s icomp
    s1.madds = s.madds + (P_ * P_ * (Q_ * P_) + P_ * Q_ * (Q_ * P_) + Q_ * Q_ * (Q_ * P_)) ∧
      ∀ t c k, s1.rV t c k = if t < Q_ * Q_ ∧ c = icomp ∧ k < Q_ then
          s.rV t icomp k + contraction P_ Q_ sT rU t icomp k
        else s.rV t c k := by
  intro s1
  obtain ⟨a1, a2, a3⟩ := stage1_spec P_ Q_ nthreads sT rU icomp s
  obtain ⟨b1, b2, b3, b4⟩ := stage2_spec P_ Q_ nthreads sT
    (runStage nthreads (stage1Thread P_ Q_ sT rU icomp) s)
  obtain ⟨c1, c2, c3, c4⟩ := writeBack_spec P_ Q_ nthreads
    (runStage nthreads (stage2Thread P_ Q_ sT)
      (runStage nthreads (stage1Thread P_ Q_ sT rU icomp) s))
  obtain ⟨d1, d2, d3⟩ := stage3_spec P_ Q_ nthreads sT icomp
    (runStage nthreads (writeBackThread P_ Q_)
      (runStage nthreads (stage2Thread P_ Q_ sT)
        (runStage nthreads (stage1Thread P_ Q_ sT rU icomp) s)))
  refine ⟨?_, ?_⟩
  · show (compBody P_ Q_ nthreads sT rU s icomp).madds = _
    unfold compBody
    rw [d2, c3, b3, a2, Nat.min_eq_right h1, Nat.min_eq_right h2, Nat.min_eq_right h3]
    simp only [Nat.add_assoc]
  · intro t c k
    show (compBody P_ Q_ nthreads sT rU s icomp).rV t c k = _
    unfold compBody
    rw [d3 t c k, c2, b2, a1]
    by_cases hc : t < Q_ * Q_ ∧ c = icomp ∧ k < Q_
    · obtain ⟨ht, rfl, hk⟩ := hc
      rw [if_pos ⟨Nat.lt_of_lt_of_le ht h3, ht, rfl, hk⟩, if_pos ⟨ht, rfl, hk⟩]
      congr 1
      unfold contraction
      refine Finset.sum_congr rfl (fun i2 hi2 => ?_)
      rw [Finset.mem_range] at hi2
      congr 1
      have hQ : 0 < Q_ := by
        rcases Nat.eq_zero_or_pos Q_ with h | h
        · subst h; simp at ht
        · exact h
      have hr : t % Q_ < Q_ := Nat.mod_lt _ hQ
      have hq : t / Q_ < Q_ := Nat.div_lt_of_lt_mul ht
      have ht2div : (i2 * Q_ + t % Q_) / Q_ = i2 := by
        rw [Nat.add_comm, Nat.add_mul_div_right _ _ hQ, Nat.div_eq_of_lt hr, Nat.zero_add]
      have ht2mod : (i2 * Q_ + t % Q_) % Q_ = t % Q_ := by
        rw [Nat.add_comm, Nat.add_mul_mod_self_right, Nat.mod_mod]
      have ht2lt : i2 * Q_ + t % Q_ < P_ * Q_ := by
        have : (i2 + 1) * Q_ ≤ P_ * Q_ := Nat.mul_le_mul_right Q_ hi2
        rw [Nat.succ_mul] at this
        omega
      have hidx : sTmpidx 0 t i2 (Q_ * Q_)
          = sTmpidx ((i2 * Q_ + t % Q_) / Q_ * (Q_ * Q_)) ((i2 * Q_ + t % Q_) % Q_) (t / Q_) Q_ := by
        rw [ht2div, ht2mod]
        simp only [sTmpidx]
        have := Nat.div_add_mod t Q_
        rw [Nat.mul_comm] at this
        omega
      rw [hidx, c4 (i2 * Q_ + t % Q_) (t / Q_) (Nat.lt_of_lt_of_le ht2lt h2) ht2lt hq,
        b4 (i2 * Q_ + t % Q_) (t / Q_),
        if_pos ⟨Nat.lt_of_lt_of_le ht2lt h2, ht2lt, hq⟩]
      refine Finset.sum_congr rfl (fun i1 hi1 => ?_)
      rw [Finset.mem_range] at hi1
      congr 1
      have hblt : i1 + P_ * i2 < P_ * P_ := by
        have : P_ * (i2 + 1) ≤ P_ * P_ := Nat.mul_le_mul_left P_ hi2
        rw [Nat.mul_succ] at this
        omega
      have hidx2 : sTmpidx ((i2 * Q_ + t % Q_) / Q_ * (Q_ * P_)) ((i2 * Q_ + t % Q_) % Q_) i1 Q_
          = (i1 + P_ * i2) * Q_ + t % Q_ := by
        rw [ht2div, ht2mod]
        simp only [sTmpidx]
        ring
      rw [hidx2, a3 (i1 + P_ * i2) (t % Q_) (Nat.lt_of_lt_of_le hblt h1) hblt hr]
    · rw [if_neg hc, if_neg]
      intro h
      exact hc ⟨h.2.1, h.2.2.1, h.2.2.2⟩

/-- The whole routine: every `rV[0][c][k]` with `c < NCOMP_`, `k < Q_` of a thread
`t < Q_ * Q_` has received the contraction exactly once; every other register of `rV` is
untouched; `NCOMP_ * (P_^3 Q_ + P_^2 Q_^2 + P_ Q_^3)` multiply-adds were executed. -/
theorem device_spec {R : Type} [CommRing R] (NCOMP_ P_ Q_ nthreads : Nat) (sT : Nat → R) (rU : Nat → Nat → Nat → R)
    (s : State R)
    (h1 : P_ * P_ ≤ nthreads) (h2 : P_ * Q_ ≤ nthreads) (h3 : Q_ * Q_ ≤ nthreads) :
    let s1 := magma_interp_3d_device NCOMP_ P_ Q_ nthreads sT rU s
    s1.madds = s.madds
        + NCOMP_ * (P_ * P_ * (Q_ * P_) + P_ * Q_ * (Q_ * P_) + Q_ * Q_ * (Q_ * P_)) ∧
      ∀ t c k, s1.rV t c k = if t < Q_ * Q_ ∧ c < NCOMP_ ∧ k < Q_ then
          s.rV t c k + contraction P_ Q_ sT rU t c k
        else s.rV t c k := by
  intro s1
  refine foldl_range_inv (compBody P_ Q_ nthreads sT rU)
    (fun n s1 => s1.madds = s.madds
        + n * (P_ * P_ * (Q_ * P_) + P_ * Q_ * (Q_ * P_) + Q_ * Q_ * (Q_ * P_)) ∧
      ∀ t c k, s1.rV t c k = if t < Q_ * Q_ ∧ c < n ∧ k < Q_ then
          s.rV t c k + contraction P_ Q_ sT rU t c k
        else s.rV t c k) NCOMP_ s ?_ ?_
  · refine ⟨by simp, ?_⟩
    intro t c k
    rw [if_neg]; omega
  · rintro n s2 - ⟨m, v⟩
    obtain ⟨m2, v2⟩ := compBody_spec P_ Q_ nthreads sT rU n s2 h1 h2 h3
    refine ⟨?_, ?_⟩
    · rw [m2, m, Nat.succ_mul, Nat.add_assoc]
    · intro t c k
      rw [v2 t c k]
      by_cases e : t < Q_ * Q_ ∧ c = n ∧ k < Q_
      · obtain ⟨e1, rfl, e3⟩ := e
        rw [if_pos ⟨e1, rfl, e3⟩, if_pos ⟨e1, Nat.lt_succ_self _, e3⟩, v, if_neg]
        omega
      · rw [if_neg e, v t c k]
        by_cases c2 : t < Q_ * Q_ ∧ c < n ∧ k < Q_
        · rw [if_pos c2, if_pos]; omega
        · rw [if_neg c2, if_neg]; omega

/-- The thread-count assumption of the routine, `max(P_, Q_)^2` threads, covers all three
guards. -/
theorem guards_of_max (P_ Q_ nthreads : Nat) (h : max P_ Q_ ^ 2 ≤ nthreads) :
    P_ * P_ ≤ nthreads ∧ P_ * Q_ ≤ nthreads ∧ Q_ * Q_ ≤ nthreads := by
  have hP : P_ ≤ max P_ Q_ := le_max_left _ _
  have hQ : Q_ ≤ max P_ Q_ := le_max_right _ _
  rw [pow_two] at h
  exact ⟨le_trans (Nat.mul_le_mul hP hP) h, le_trans (Nat.mul_le_mul hP hQ) h,
    le_trans (Nat.mul_le_mul hQ hQ) h⟩

theorem sum_range_mul_eq {M : Type} [AddCommMonoid M] (m n : Nat) (f : Nat → M) :
    ∑ p in Finset.range (m * n), f p
      = ∑ a in Finset.range m, ∑ b in Finset.range n, f (a * n + b) := by
  induction m with
  | zero => simp
  | succ m ih =>
    rw [Nat.succ_mul, Finset.sum_range_add, ih, Finset.sum_range_succ]

/-- With the register layout of the routine, the contraction is the triple sum over the
nodes. -/
theorem contraction_eq {R : Type} [CommRing R] (P_ Q_ : Nat) (sT : Nat → R) (rU : Nat → Nat → Nat → R)
    (u : Nat → Nat → Nat → R) (c : Nat)
    (hU : ∀ i0 i1 i2, i0 < P_ → i1 < P_ → i2 < P_ → rU (i1 + P_ * i2) c i0 = u i0 i1 i2)
    (j0 j1 j2 : Nat) (hj0 : j0 < Q_) :
    contraction P_ Q_ sT rU (j0 + Q_ * j1) c j2 = tensorSum P_ sT u j0 j1 j2 := by
  have hQ : 0 < Q_ := by omega
  have hm : (j0 + Q_ * j1) % Q_ = j0 := by
    rw [Nat.add_mul_mod_self_left, Nat.mod_eq_of_lt hj0]
  have hd : (j0 + Q_ * j1) / Q_ = j1 := by
    rw [Nat.add_mul_div_left _ _ hQ, Nat.div_eq_of_lt hj0, Nat.zero_add]
  unfold contraction tensorSum Tmat
  rw [hm, hd]
  have e1 : ∀ i2 ∈ Finset.range P_, (∑ i1 in Finset.range P_,
      (∑ i0 in Finset.range P_, rU (i1 + P_ * i2) c i0 * sT (sTidx P_ i0 j0))
        * sT (sTidx P_ i1 j1)) * sT (sTidx P_ i2 j2)
      = ∑ i1 in Finset.range P_, ∑ i0 in Finset.range P_,
        u i0 i1 i2 * sT (sTidx P_ i0 j0) * sT (sTidx P_ i1 j1) * sT (sTidx P_ i2 j2) := by
    intro i2 hi2
    rw [Finset.sum_mul]
    refine Finset.sum_congr rfl (fun i1 hi1 => ?_)
    rw [Finset.sum_mul, Finset.sum_mul]
    refine Finset.sum_congr rfl (fun i0 hi0 => ?_)
    rw [hU i0 i1 i2 (Finset.mem_range.1 hi0) (Finset.mem_range.1 hi1) (Finset.mem_range.1 hi2)]
  rw [Finset.sum_congr rfl e1]
  rw [Finset.sum_comm]
  refine Eq.trans (Finset.sum_congr rfl (fun i1 _ => Finset.sum_comm)) ?_
  exact Finset.sum_comm

/-- The triple sum over the nodes is the action of the dense Kronecker matrix. -/
theorem tensorSum_eq_dense {R : Type} [CommRing R] (P_ Q_ : Nat) (sT : Nat → R) (u : Nat → Nat → Nat → R)
    (j0 j1 j2 : Nat) (hj0 : j0 < Q_) (hj1 : j1 < Q_) :
    tensorSum P_ sT u j0 j1 j2
      = denseApply (P_ ^ 3) (kron3 P_ Q_ sT) (flatten3 P_ u) (j0 + Q_ * j1 + Q_ * Q_ * j2) := by
  have hQ : 0 < Q_ := by omega
  have q0 : (j0 + Q_ * j1 + Q_ * Q_ * j2) % Q_ = j0 := by
    rw [Nat.mul_assoc, Nat.add_assoc, ← Nat.mul_add, Nat.add_mul_mod_self_left,
      Nat.mod_eq_of_lt hj0]
  have q1 : (j0 + Q_ * j1 + Q_ * Q_ * j2) / Q_ % Q_ = j1 := by
    rw [Nat.mul_assoc, Nat.add_assoc, ← Nat.mul_add, Nat.add_mul_div_left _ _ hQ,
      Nat.div_eq_of_lt hj0, Nat.zero_add, Nat.add_mul_mod_self_left, Nat.mod_eq_of_lt hj1]
  have q2 : (j0 + Q_ * j1 + Q_ * Q_ * j2) / (Q_ * Q_) = j2 := by
    have hlt : j0 + Q_ * j1 < Q_ * Q_ := by
      have : Q_ * (j1 + 1) ≤ Q_ * Q_ := Nat.mul_le_mul_left Q_ hj1
      rw [Nat.mul_succ] at this
      omega
    rw [Nat.add_mul_div_left _ _ (Nat.mul_pos hQ hQ), Nat.div_eq_of_lt hlt, Nat.zero_add]
  unfold denseApply kron3 flatten3
  rw [q0, q1, q2]
  have e3 : P_ ^ 3 = P_ * P_ * P_ := by ring
  rw [e3, sum_range_mul_eq (P_ * P_) P_, sum_range_mul_eq P_ P_]
  unfold tensorSum
  rw [Finset.sum_comm]
  refine (Finset.sum_congr rfl (fun i1 _ => Finset.sum_comm)).trans ?_
  rw [Finset.sum_comm]
  refine Finset.sum_congr rfl (fun i2 hi2 => ?_)
  refine Finset.sum_congr rfl (fun i1 hi1 => ?_)
  refine Finset.sum_congr rfl (fun i0 hi0 => ?_)
  rw [Finset.mem_range] at hi0 hi1 hi2
  have hP : 0 < P_ := by omega
  have p0 : ((i2 * P_ + i1) * P_ + i0) % P_ = i0 := by
    rw [Nat.add_comm, Nat.add_mul_mod_self_right, Nat.mod_eq_of_lt hi0]
  have p1' : ((i2 * P_ + i1) * P_ + i0) / P_ = i2 * P_ + i1 := by
    rw [Nat.add_comm, Nat.add_mul_div_right _ _ hP, Nat.div_eq_of_lt hi0, Nat.zero_add]
  have p1 : ((i2 * P_ + i1) * P_ + i0) / P_ % P_ = i1 := by
    rw [p1', Nat.add_comm, Nat.add_mul_mod_self_right, Nat.mod_eq_of_lt hi1]
  have p2 : ((i2 * P_ + i1) * P_ + i0) / (P_ * P_) = i2 := by
    rw [← Nat.div_div_eq_div_mul, p1', Nat.add_comm, Nat.add_mul_div_right _ _ hP,
      Nat.div_eq_of_lt hi1, Nat.zero_add]
  rw [p0, p1, p2]
  ring

theorem loadU_layout {R : Type} (n : Nat) (x : Nat → Nat → Nat → Nat → R) (c i0 i1 i2 : Nat)
    (h1 : i1 < n) : loadU n x (i1 + n * i2) c i0 = x c i0 i1 i2 := by
  have hn : 0 < n := by omega
  unfold loadU
  rw [Nat.add_mul_mod_self_left, Nat.mod_eq_of_lt h1, Nat.add_mul_div_left _ _ hn,
    Nat.div_eq_of_lt h1, Nat.zero_add]

/-- From a zero `rV`, the routine computes the triple sum at every output point. -/
theorem runInterp_eq {R : Type} [CommRing R] (NCOMP_ P_ Q_ nthreads : Nat) (sT : Nat → R)
    (x : Nat → Nat → Nat → Nat → R) (s : State R)
    (hn : max P_ Q_ ^ 2 ≤ nthreads) (hV : ∀ t c k, s.rV t c k = 0)
    (c j0 j1 j2 : Nat) (hc : c < NCOMP_) (hj0 : j0 < Q_) (hj1 : j1 < Q_) (hj2 : j2 < Q_) :
    runInterp NCOMP_ P_ Q_ nthreads sT x s c j0 j1 j2 = tensorSum P_ sT (x c) j0 j1 j2 := by
  obtain ⟨g1, g2, g3⟩ := guards_of_max P_ Q_ nthreads hn
  have hlt : j0 + Q_ * j1 < Q_ * Q_ := by
    have : Q_ * (j1 + 1) ≤ Q_ * Q_ := Nat.mul_le_mul_left Q_ hj1
    rw [Nat.mul_succ] at this
    omega
  unfold runInterp
  rw [(device_spec NCOMP_ P_ Q_ nthreads sT (loadU P_ x) s g1 g2 g3).2 (j0 + Q_ * j1) c j2,
    if_pos ⟨hlt, hc, hj2⟩, hV, zero_add]
  exact contraction_eq P_ Q_ sT (loadU P_ x) (x c) c
    (fun i0 i1 i2 _ h1 _ => loadU_layout P_ x c i0 i1 i2 h1) j0 j1 j2 hj0

theorem Tmat_transposeT {R : Type} (P Q : Nat) (sT : Nat → R) (i j : Nat) (hj : j < Q) :
    Tmat Q (transposeT P Q sT) j i = Tmat P sT i j := by
  have hQ : 0 < Q := by omega
  unfold Tmat transposeT
  simp only [sTidx]
  rw [Nat.add_comm (i * Q) j, Nat.add_mul_div_right _ _ hQ, Nat.div_eq_of_lt hj, Nat.zero_add,
    Nat.add_mul_mod_self_right, Nat.mod_eq_of_lt hj]

theorem sum3_eq_sum_product {M : Type} [AddCommMonoid M] (n : Nat) (f : Nat → Nat → Nat → M) :
    ∑ a in Finset.range n, ∑ b in Finset.range n, ∑ c in Finset.range n, f a b c
      = ∑ x in Finset.range n ×ˢ (Finset.range n ×ˢ Finset.range n), f x.1 x.2.1 x.2.2 := by
  rw [Finset.sum_product]
  refine Finset.sum_congr rfl (fun a _ => ?_)
  rw [Finset.sum_product]

/-- Adjointness of the triple sums: contracting with `T` on the node side and with its
transpose on the quadrature side are dual. -/
theorem tensorSum_adjoint {R : Type} [CommRing R] (P Q : Nat) (sT : Nat → R) (u : Nat → Nat → Nat → R)
    (w y : Nat → Nat → Nat → R) :
    ∑ j0 in Finset.range Q, ∑ j1 in Finset.range Q, ∑ j2 in Finset.range Q,
        w j0 j1 j2 * tensorSum P sT u j0 j1 j2 * y j0 j1 j2
      = ∑ i0 in Finset.range P, ∑ i1 in Finset.range P, ∑ i2 in Finset.range P,
        u i0 i1 i2 * tensorSum Q (transposeT P Q sT) (fun j0 j1 j2 => w j0 j1 j2 * y j0 j1 j2)
          i0 i1 i2 := by
  unfold tensorSum
  rw [sum3_eq_sum_product Q, sum3_eq_sum_product P]
  have hL : ∀ x ∈ Finset.range Q ×ˢ (Finset.range Q ×ˢ Finset.range Q),
      w x.1 x.2.1 x.2.2 * (∑ i0 in Finset.range P, ∑ i1 in Finset.range P,
          ∑ i2 in Finset.range P,
            u i0 i1 i2 * Tmat P sT i0 x.1 * Tmat P sT i1 x.2.1 * Tmat P sT i2 x.2.2)
        * y x.1 x.2.1 x.2.2
      = ∑ z in Finset.range P ×ˢ (Finset.range P ×ˢ Finset.range P),
          u z.1 z.2.1 z.2.2 * (w x.1 x.2.1 x.2.2 * y x.1 x.2.1 x.2.2
            * Tmat P sT z.1 x.1 * Tmat P sT z.2.1 x.2.1 * Tmat P sT z.2.2 x.2.2) := by
    intro x _
    rw [sum3_eq_sum_product P, Finset.mul_sum, Finset.sum_mul]
    refine Finset.sum_congr rfl (fun z _ => ?_)
    ring
  have hR : ∀ z ∈ Finset.range P ×ˢ (Finset.range P ×ˢ Finset.range P),
      u z.1 z.2.1 z.2.2 * (∑ j0 in Finset.range Q, ∑ j1 in Finset.range Q,
          ∑ j2 in Finset.range Q,
            w j0 j1 j2 * y j0 j1 j2 * Tmat Q (transposeT P Q sT) j0 z.1
              * Tmat Q (transposeT P Q sT) j1 z.2.1 * Tmat Q (transposeT P Q sT) j2 z.2.2)
      = ∑ x in Finset.range Q ×ˢ (Finset.range Q ×ˢ Finset.range Q),
          u z.1 z.2.1 z.2.2 * (w x.1 x.2.1 x.2.2 * y x.1 x.2.1 x.2.2
            * Tmat P sT z.1 x.1 * Tmat P sT z.2.1 x.2.1 * Tmat P sT z.2.2 x.2.2) := by
    intro z _
    rw [sum3_eq_sum_product Q, Finset.mul_sum]
    refine Finset.sum_congr rfl (fun x hx => ?_)
    simp only [Finset.mem_product, Finset.mem_range] at hx
    rw [Tmat_transposeT P Q sT z.1 x.1 hx.1, Tmat_transposeT P Q sT z.2.1 x.2.1 hx.2.1,
      Tmat_transposeT P Q sT z.2.2 x.2.2 hx.2.2]
  rw [Finset.sum_congr rfl hL, Finset.sum_congr rfl hR]
  exact Finset.sum_comm

theorem idx_lt_mul (a b n m : Nat) (ha : a < n) (hb : b < m) : a * m + b < n * m := by
  have h : (a + 1) * m ≤ n * m := Nat.mul_le_mul_right m ha
  rw [Nat.succ_mul] at h
  omega

theorem sTidx_lt (P_ Q_ i j : Nat) (hi : i < P_) (hj : j < Q_) : sTidx P_ i j < P_ * Q_ := by
  unfold sTidx
  rw [Nat.mul_comm P_ Q_]
  exact idx_lt_mul j i Q_ P_ hj hi

theorem workspace_ge_left (P_ Q_ MAXPQ : Nat) (hM : MAXPQ = max P_ Q_) :
    P_ * P_ * Q_ ≤ workspaceSize P_ Q_ MAXPQ := by
  unfold workspaceSize
  subst hM
  exact le_trans (Nat.mul_le_mul_left _ (le_max_right P_ Q_)) (le_max_left _ _)

theorem workspace_ge_right (P_ Q_ MAXPQ : Nat) :
    P_ * Q_ * Q_ ≤ workspaceSize P_ Q_ MAXPQ := le_max_right _ _

/-- Stage 1 write index. -/
theorem stage1_idx_lt (P_ Q_ tx j : Nat) (htx : tx < P_ * P_) (hj : j < Q_) :
    sTmpidx (tx * (1 * Q_)) 0 j 1 < P_ * P_ * Q_ := by
  have e : sTmpidx (tx * (1 * Q_)) 0 j 1 = tx * Q_ + j := by simp [sTmpidx]
  rw [e]
  exact idx_lt_mul tx j (P_ * P_) Q_ htx hj

/-- Stage 2 read index. -/
theorem stage2_idx_lt (P_ Q_ tx i : Nat) (htx : tx < P_ * Q_) (hi : i < P_) :
    sTmpidx (tx / Q_ * (Q_ * P_)) (tx % Q_) i Q_ < P_ * P_ * Q_ := by
  have hQ : 0 < Q_ := by
    rcases Nat.eq_zero_or_pos Q_ with h | h
    · subst h; simp at htx
    · exact h
  have ha : tx / Q_ < P_ := Nat.div_lt_of_lt_mul (by rw [Nat.mul_comm]; exact htx)
  have hr : tx % Q_ < Q_ := Nat.mod_lt _ hQ
  have h1 : i * Q_ + tx % Q_ < P_ * Q_ := idx_lt_mul i _ P_ Q_ hi hr
  have h2 := idx_lt_mul (tx / Q_) (i * Q_ + tx % Q_) P_ (Q_ * P_) ha
    (by rw [Nat.mul_comm Q_ P_]; exact h1)
  have e : P_ * (Q_ * P_) = P_ * P_ * Q_ := by ring
  unfold sTmpidx
  omega

/-- Write-back index. -/
theorem writeBack_idx_lt (P_ Q_ tx j : Nat) (htx : tx < P_ * Q_) (hj : j < Q_) :
    sTmpidx (tx / Q_ * (Q_ * Q_)) (tx % Q_) j Q_ < P_ * Q_ * Q_ := by
  have hQ : 0 < Q_ := by omega
  have ha : tx / Q_ < P_ := Nat.div_lt_of_lt_mul (by rw [Nat.mul_comm]; exact htx)
  have hr : tx % Q_ < Q_ := Nat.mod_lt _ hQ
  have h1 : j * Q_ + tx % Q_ < Q_ * Q_ := idx_lt_mul j _ Q_ Q_ hj hr
  have h2 := idx_lt_mul (tx / Q_) (j * Q_ + tx % Q_) P_ (Q_ * Q_) ha h1
  have e : P_ * (Q_ * Q_) = P_ * Q_ * Q_ := by ring
  unfold sTmpidx
  omega

/-- Stage 3 read index. -/
theorem stage3_idx_lt (P_ Q_ tx i : Nat) (htx : tx < Q_ * Q_) (hi : i < P_) :
    sTmpidx 0 tx i (Q_ * Q_) < P_ * Q_ * Q_ := by
  have h2 := idx_lt_mul i tx P_ (Q_ * Q_) hi htx
  have e : P_ * (Q_ * Q_) = P_ * Q_ * Q_ := by ring
  unfold sTmpidx
  omega

theorem traceOK_append {R : Type} (NCOMP_ P_ Q_ W : Nat) (s s1 : State R) (l : List Access)
    (h : s1.trace = s.trace ++ l) (hs : TraceOK NCOMP_ P_ Q_ W s)
    (hl : ∀ a ∈ l, Access.inBounds NCOMP_ P_ Q_ W a = true) : TraceOK NCOMP_ P_ Q_ W s1 := by
  intro a ha
  rw [h, List.mem_append] at ha
  rcases ha with ha | ha
  · exact hs a ha
  · exact hl a ha

theorem traceOK_zeroTmp {R : Type} [CommRing R] (NCOMP_ P_ Q_ W tx k : Nat) (s : State R) (hk : k < Q_)
    (hs : TraceOK NCOMP_ P_ Q_ W s) : TraceOK NCOMP_ P_ Q_ W (zeroTmp tx k s) := by
  refine traceOK_append NCOMP_ P_ Q_ W s _ _ rfl hs ?_
  intro a ha
  simp only [List.mem_singleton] at ha
  subst ha
  simpa [Access.inBounds] using hk

theorem traceOK_stage1Body {R : Type} [CommRing R] (NCOMP_ P_ Q_ MAXPQ : Nat) (sT : Nat → R) (rU : Nat → Nat → Nat → R)
    (tx icomp j : Nat) (s : State R) (hM : MAXPQ = max P_ Q_) (hc : icomp < NCOMP_)
    (htx : tx < P_ * P_) (hj : j < Q_)
    (hs : TraceOK NCOMP_ P_ Q_ (workspaceSize P_ Q_ MAXPQ) s) :
    TraceOK NCOMP_ P_ Q_ (workspaceSize P_ Q_ MAXPQ) (stage1Body P_ Q_ sT rU tx icomp s j) := by
  have hQ : 0 < Q_ := by omega
  unfold stage1Body
  refine traceOK_append NCOMP_ P_ Q_ _ _ _ _ rfl ?_ ?_
  · refine foldl_range_inv (stage1Madd P_ sT rU tx icomp j)
      (fun _ s1 => TraceOK NCOMP_ P_ Q_ (workspaceSize P_ Q_ MAXPQ) s1) P_ _
      (traceOK_zeroTmp NCOMP_ P_ Q_ _ tx 0 s hQ hs) ?_
    intro i s2 hi h2
    refine traceOK_append NCOMP_ P_ Q_ _ s2 _ _ rfl h2 ?_
    intro a ha
    simp only [List.mem_cons, List.mem_singleton, List.not_mem_nil, or_false] at ha
    rcases ha with rfl | rfl | rfl
    · simpa [Access.inBounds] using ⟨hc, hi⟩
    · simpa [Access.inBounds] using sTidx_lt P_ Q_ i j hi hj
    · simpa [Access.inBounds] using hQ
  · intro a ha
    simp only [List.mem_cons, List.mem_singleton, List.not_mem_nil, or_false] at ha
    rcases ha with rfl | rfl
    · simpa [Access.inBounds] using hQ
    · simpa [Access.inBounds] using
        Nat.lt_of_lt_of_le (stage1_idx_lt P_ Q_ tx j htx hj) (workspace_ge_left P_ Q_ MAXPQ hM)

theorem traceOK_stage2Body {R : Type} [CommRing R] (NCOMP_ P_ Q_ MAXPQ : Nat) (sT : Nat → R)
    (tx j : Nat) (s : State R) (hM : MAXPQ = max P_ Q_)
    (htx : tx < P_ * Q_) (hj : j < Q_)
    (hs : TraceOK NCOMP_ P_ Q_ (workspaceSize P_ Q_ MAXPQ) s) :
    TraceOK NCOMP_ P_ Q_ (workspaceSize P_ Q_ MAXPQ) (stage2Body P_ Q_ sT tx s j) := by
  unfold stage2Body
  refine foldl_range_inv (stage2Madd P_ Q_ sT tx j)
    (fun _ s1 => TraceOK NCOMP_ P_ Q_ (workspaceSize P_ Q_ MAXPQ) s1) P_ _
    (traceOK_zeroTmp NCOMP_ P_ Q_ _ tx j s hj hs) ?_
  intro i s2 hi h2
  refine traceOK_append NCOMP_ P_ Q_ _ s2 _ _ rfl h2 ?_
  intro a ha
  simp only [List.mem_cons, List.mem_singleton, List.not_mem_nil, or_false] at ha
  rcases ha with rfl | rfl | rfl
  · simpa [Access.inBounds] using
      Nat.lt_of_lt_of_le (stage2_idx_lt P_ Q_ tx i htx hi) (workspace_ge_left P_ Q_ MAXPQ hM)
  · simpa [Access.inBounds] using sTidx_lt P_ Q_ i j hi hj
  · simpa [Access.inBounds] using hj

theorem traceOK_writeBackStore {R : Type} [CommRing R] (NCOMP_ P_ Q_ MAXPQ : Nat)
    (tx j : Nat) (s : State R) (htx : tx < P_ * Q_) (hj : j < Q_)
    (hs : TraceOK NCOMP_ P_ Q_ (workspaceSize P_ Q_ MAXPQ) s) :
    TraceOK NCOMP_ P_ Q_ (workspaceSize P_ Q_ MAXPQ) (writeBackStore Q_ tx s j) := by
  refine traceOK_append NCOMP_ P_ Q_ _ s _ _ rfl hs ?_
  intro a ha
  simp only [List.mem_cons, List.mem_singleton, List.not_mem_nil, or_false] at ha
  rcases ha with rfl | rfl
  · simpa [Access.inBounds] using hj
  · simpa [Access.inBounds] using
      Nat.lt_of_lt_of_le (writeBack_idx_lt P_ Q_ tx j htx hj) (workspace_ge_right P_ Q_ MAXPQ)

theorem traceOK_stage3Body {R : Type} [CommRing R] (NCOMP_ P_ Q_ MAXPQ : Nat) (sT : Nat → R)
    (tx icomp j : Nat) (s : State R) (hc : icomp < NCOMP_)
    (htx : tx < Q_ * Q_) (hj : j < Q_)
    (hs : TraceOK NCOMP_ P_ Q_ (workspaceSize P_ Q_ MAXPQ) s) :
    TraceOK NCOMP_ P_ Q_ (workspaceSize P_ Q_ MAXPQ) (stage3Body P_ Q_ sT tx icomp s j) := by
  have hQ : 0 < Q_ := by omega
  unfold stage3Body
  refine traceOK_append NCOMP_ P_ Q_ _ _ _ _ rfl ?_ ?_
  · refine foldl_range_inv (stage3Madd P_ Q_ sT tx j)
      (fun _ s1 => TraceOK NCOMP_ P_ Q_ (workspaceSize P_ Q_ MAXPQ) s1) P_ _
      (traceOK_zeroTmp NCOMP_ P_ Q_ _ tx 0 s hQ hs) ?_
    intro i s2 hi h2
    refine traceOK_append NCOMP_ P_ Q_ _ s2 _ _ rfl h2 ?_
    intro a ha
    simp only [List.mem_cons, List.mem_singleton, List.not_mem_nil, or_false] at ha
    rcases ha with rfl | rfl | rfl
    · simpa [Access.inBounds] using
        Nat.lt_of_lt_of_le (stage3_idx_lt P_ Q_ tx i htx hi) (workspace_ge_right P_ Q_ MAXPQ)
    · simpa [Access.inBounds] using sTidx_lt P_ Q_ i j hi hj
    · simpa [Access.inBounds] using hQ
  · intro a ha
    simp only [List.mem_cons, List.mem_singleton, List.not_mem_nil, or_false] at ha
    rcases ha with rfl | rfl
    · simpa [Access.inBounds] using hQ
    · simpa [Access.inBounds] using ⟨hc, hj⟩

/-- One pass of the component loop keeps every access in bounds, for any number of threads. -/
theorem traceOK_compBody {R : Type} [CommRing R] (NCOMP_ P_ Q_ MAXPQ nthreads : Nat) (sT : Nat → R)
    (rU : Nat → Nat → Nat → R) (icomp : Nat) (s : State R) (hM : MAXPQ = max P_ Q_)
    (hc : icomp < NCOMP_) (hs : TraceOK NCOMP_ P_ Q_ (workspaceSize P_ Q_ MAXPQ) s) :
    TraceOK NCOMP_ P_ Q_ (workspaceSize P_ Q_ MAXPQ) (compBody P_ Q_ nthreads sT rU s icomp) := by
  unfold compBody runStage
  refine foldl_range_inv _ (fun _ s1 => TraceOK NCOMP_ P_ Q_ (workspaceSize P_ Q_ MAXPQ) s1)
    nthreads _ ?_ ?_
  · refine foldl_range_inv _ (fun _ s1 => TraceOK NCOMP_ P_ Q_ (workspaceSize P_ Q_ MAXPQ) s1)
      nthreads _ ?_ ?_
    · refine foldl_range_inv _ (fun _ s1 => TraceOK NCOMP_ P_ Q_ (workspaceSize P_ Q_ MAXPQ) s1)
        nthreads _ ?_ ?_
      · refine foldl_range_inv _
          (fun _ s1 => TraceOK NCOMP_ P_ Q_ (workspaceSize P_ Q_ MAXPQ) s1) nthreads _ hs ?_
        intro tx s2 _ h2
        unfold stage1Thread
        split_ifs with htx
        · exact foldl_range_inv _
            (fun _ s1 => TraceOK NCOMP_ P_ Q_ (workspaceSize P_ Q_ MAXPQ) s1) Q_ _ h2
            (fun j s3 hj h3 => traceOK_stage1Body NCOMP_ P_ Q_ MAXPQ sT rU tx icomp j s3 hM hc
              htx hj h3)
        · exact h2
      · intro tx s2 _ h2
        unfold stage2Thread
        split_ifs with htx
        · exact foldl_range_inv _
            (fun _ s1 => TraceOK NCOMP_ P_ Q_ (workspaceSize P_ Q_ MAXPQ) s1) Q_ _ h2
            (fun j s3 hj h3 => traceOK_stage2Body NCOMP_ P_ Q_ MAXPQ sT tx j s3 hM htx hj h3)
        · exact h2
    · intro tx s2 _ h2
      unfold writeBackThread
      split_ifs with htx
      · exact foldl_range_inv _
          (fun _ s1 => TraceOK NCOMP_ P_ Q_ (workspaceSize P_ Q_ MAXPQ) s1) Q_ _ h2
          (fun j s3 hj h3 => traceOK_writeBackStore NCOMP_ P_ Q_ MAXPQ tx j s3 htx hj h3)
      · exact h2
  · intro tx s2 _ h2
    unfold stage3Thread
    split_ifs with htx
    · exact foldl_range_inv _
        (fun _ s1 => TraceOK NCOMP_ P_ Q_ (workspaceSize P_ Q_ MAXPQ) s1) Q_ _ h2
        (fun j s3 hj h3 => traceOK_stage3Body NCOMP_ P_ Q_ MAXPQ sT tx icomp j s3 hc htx hj h3)
    · exact h2

/-- The whole routine keeps every access in bounds, for any number of threads. -/
theorem traceOK_device {R : Type} [CommRing R] (NCOMP_ P_ Q_ MAXPQ nthreads : Nat) (sT : Nat → R)
    (rU : Nat → Nat → Nat → R) (s : State R) (hM : MAXPQ = max P_ Q_)
    (hs : TraceOK NCOMP_ P_ Q_ (workspaceSize P_ Q_ MAXPQ) s) :
    TraceOK NCOMP_ P_ Q_ (workspaceSize P_ Q_ MAXPQ)
      (magma_interp_3d_device NCOMP_ P_ Q_ nthreads sT rU s) := by
  unfold magma_interp_3d_device
  exact foldl_range_inv _
    (fun _ s1 => TraceOK NCOMP_ P_ Q_ (workspaceSize P_ Q_ MAXPQ) s1) NCOMP_ s hs
    (fun icomp s2 hc h2 => traceOK_compBody NCOMP_ P_ Q_ MAXPQ nthreads sT rU icomp s2 hM hc h2)

/-- Claim C1: sum-factored 3-D interpolation equals the dense tensor-product matrix action.
When thread `i1 + P_ * i2` holds `rU[0][c][i0] = u c i0 i1 i2`, the block has at least
`max(P_, Q_)^2` threads and `rV` starts at zero, `magma_interp_3d_device` leaves thread
`j0 + Q_ * j1` with `rV[0][c][j2]` equal to the triple sum of
`u c i0 i1 i2 * T(i0, j0) * T(i1, j1) * T(i2, j2)` over the nodes, which is entry
`j0 + Q_ j1 + Q_^2 j2` of the product of the flattened nodal vector with the dense
`P_^3 x Q_^3` Kronecker matrix `T ⊗ T ⊗ T`. -/
theorem interp_3d_eq_dense {R : Type} [CommRing R] (NCOMP_ P_ Q_ nthreads : Nat)
    (sT : Nat → R) (u : Nat → Nat → Nat → Nat → R) (rU : Nat → Nat → Nat → R) (s : State R)
    (hn : max P_ Q_ ^ 2 ≤ nthreads)
    (hU : ∀ c i0 i1 i2, i0 < P_ → i1 < P_ → i2 < P_ → rU (i1 + P_ * i2) c i0 = u c i0 i1 i2)
    (hV : ∀ t c k, s.rV t c k = 0) :
    ∀ c j0 j1 j2, c < NCOMP_ → j0 < Q_ → j1 < Q_ → j2 < Q_ →
      (magma_interp_3d_device NCOMP_ P_ Q_ nthreads sT rU s).rV (j0 + Q_ * j1) c j2
          = ∑ i0 in Finset.range P_, ∑ i1 in Finset.range P_, ∑ i2 in Finset.range P_,
              u c i0 i1 i2 * Tmat P_ sT i0 j0 * Tmat P_ sT i1 j1 * Tmat P_ sT i2 j2 ∧
      (magma_interp_3d_device NCOMP_ P_ Q_ nthreads sT rU s).rV (j0 + Q_ * j1) c j2
          = denseApply (P_ ^ 3) (kron3 P_ Q_ sT) (flatten3 P_ (u c))
              (j0 + Q_ * j1 + Q_ * Q_ * j2) := by
  intro c j0 j1 j2 hc hj0 hj1 hj2
  obtain ⟨g1, g2, g3⟩ := guards_of_max P_ Q_ nthreads hn
  have hlt : j0 + Q_ * j1 < Q_ * Q_ := by
    have : Q_ * (j1 + 1) ≤ Q_ * Q_ := Nat.mul_le_mul_left Q_ hj1
    rw [Nat.mul_succ] at this
    omega
  have key : (magma_interp_3d_device NCOMP_ P_ Q_ nthreads sT rU s).rV (j0 + Q_ * j1) c j2
      = tensorSum P_ sT (u c) j0 j1 j2 := by
    rw [(device_spec NCOMP_ P_ Q_ nthreads sT rU s g1 g2 g3).2 (j0 + Q_ * j1) c j2,
      if_pos ⟨hlt, hc, hj2⟩, hV, zero_add]
    exact contraction_eq P_ Q_ sT rU (u c) c (hU c) j0 j1 j2 hj0
  refine ⟨key, ?_⟩
  rw [key]
  exact tensorSum_eq_dense P_ Q_ sT (u c) j0 j1 j2 hj0 hj1

/-- Witness for C1: one component, `P_ = 2`, `Q_ = 2`, four threads, integer data. -/
theorem interp_3d_eq_dense_witness :
    (max 2 2 ^ 2 ≤ 4 ∧
      (∀ c i0 i1 i2 : Nat, i0 < 2 → i1 < 2 → i2 < 2 →
        (fun b _ i => ((i + 2 * b + 1 : Nat) : Int)) (i1 + 2 * i2) c i0
          = (fun _ i0 i1 i2 => ((i0 + 2 * (i1 + 2 * i2) + 1 : Nat) : Int)) c i0 i1 i2) ∧
      (∀ t c k : Nat, (State.mk (fun _ => (0 : Int)) (fun _ _ => 0) (fun _ _ _ => 0) 0 []).rV t c k
          = 0)) ∧
    (magma_interp_3d_device 1 2 2 4 (fun k => ((k + 1 : Nat) : Int))
        (fun b _ i => ((i + 2 * b + 1 : Nat) : Int))
        (State.mk (fun _ => (0 : Int)) (fun _ _ => 0) (fun _ _ _ => 0) 0 [])).rV (1 + 2 * 0) 0 1
      = denseApply (2 ^ 3) (kron3 2 2 (fun k => ((k + 1 : Nat) : Int)))
          (flatten3 2 ((fun _ i0 i1 i2 => ((i0 + 2 * (i1 + 2 * i2) + 1 : Nat) : Int)) 0))
          (1 + 2 * 0 + 2 * 2 * 1) ∧
    (magma_interp_3d_device 1 2 2 4 (fun k => ((k + 1 : Nat) : Int))
        (fun b _ i => ((i + 2 * b + 1 : Nat) : Int))
        (State.mk (fun _ => (0 : Int)) (fun _ _ => 0) (fun _ _ _ => 0) 0 [])).rV (1 + 2 * 0) 0 1
      = 763 :=
  ⟨⟨by decide, fun _ _ _ _ _ _ _ => rfl, fun _ _ _ => rfl⟩,
    (interp_3d_eq_dense 1 2 2 4 (fun k => ((k + 1 : Nat) : Int))
      (fun _ i0 i1 i2 => ((i0 + 2 * (i1 + 2 * i2) + 1 : Nat) : Int))
      (fun b _ i => ((i + 2 * b + 1 : Nat) : Int))
      (State.mk (fun _ => (0 : Int)) (fun _ _ => 0) (fun _ _ _ => 0) 0 [])
      (by decide) (fun _ _ _ _ _ _ _ => rfl) (fun _ _ _ => rfl) 0 1 0 1
      (by decide) (by decide) (by decide) (by decide)).2,
    by decide⟩

/-- Claim C2: basis transpose identity for the 3-D interpolation kernels, over exact
arithmetic.  With `I = magma_interp_3d_device` instantiated with `(P_, Q_) = (P, Q)` and the
matrix `T`, and `It` the same routine instantiated with `(P_, Q_) = (Q, P)` and the transpose of
`T`, each started from zero output registers (`s1` for `I`, `s3` for `It`): the weighted inner product of `I(u)` and `I(v)` over
the quadrature points equals the inner product over the nodes of `u` with
`It(w ⊙ I(v))`. -/
theorem interp_3d_transpose_identity {R : Type} [CommRing R] (NCOMP P Q nthreads : Nat)
    (sT : Nat → R) (u v : Nat → Nat → Nat → Nat → R) (w : Nat → Nat → Nat → R)
    (s1 s3 : State R) (hn : max P Q ^ 2 ≤ nthreads)
    (h1 : ∀ t c k, s1.rV t c k = 0) (h3 : ∀ t c k, s3.rV t c k = 0) :
    ∀ c, c < NCOMP →
      ∑ j0 in Finset.range Q, ∑ j1 in Finset.range Q, ∑ j2 in Finset.range Q,
          w j0 j1 j2 * runInterp NCOMP P Q nthreads sT u s1 c j0 j1 j2
            * runInterp NCOMP P Q nthreads sT v s1 c j0 j1 j2
        = ∑ i0 in Finset.range P, ∑ i1 in Finset.range P, ∑ i2 in Finset.range P,
          u c i0 i1 i2 * runInterp NCOMP Q P nthreads (transposeT P Q sT)
            (fun c j0 j1 j2 => w j0 j1 j2 * runInterp NCOMP P Q nthreads sT v s1 c j0 j1 j2)
            s3 c i0 i1 i2 := by
  intro c hc
  have hn2 : max Q P ^ 2 ≤ nthreads := by rw [max_comm]; exact hn
  have hL : ∀ j0 ∈ Finset.range Q, ∀ j1 ∈ Finset.range Q, ∀ j2 ∈ Finset.range Q,
      w j0 j1 j2 * runInterp NCOMP P Q nthreads sT u s1 c j0 j1 j2
            * runInterp NCOMP P Q nthreads sT v s1 c j0 j1 j2
        = w j0 j1 j2 * tensorSum P sT (u c) j0 j1 j2
            * runInterp NCOMP P Q nthreads sT v s1 c j0 j1 j2 := by
    intro j0 hj0 j1 hj1 j2 hj2
    rw [runInterp_eq NCOMP P Q nthreads sT u s1 hn h1 c j0 j1 j2 hc (Finset.mem_range.1 hj0)
      (Finset.mem_range.1 hj1) (Finset.mem_range.1 hj2)]
  have hR : ∀ i0 ∈ Finset.range P, ∀ i1 ∈ Finset.range P, ∀ i2 ∈ Finset.range P,
      u c i0 i1 i2 * runInterp NCOMP Q P nthreads (transposeT P Q sT)
            (fun c j0 j1 j2 => w j0 j1 j2 * runInterp NCOMP P Q nthreads sT v s1 c j0 j1 j2)
            s3 c i0 i1 i2
        = u c i0 i1 i2 * tensorSum Q (transposeT P Q sT)
            (fun j0 j1 j2 => w j0 j1 j2 * runInterp NCOMP P Q nthreads sT v s1 c j0 j1 j2)
            i0 i1 i2 := by
    intro i0 hi0 i1 hi1 i2 hi2
    rw [runInterp_eq NCOMP Q P nthreads (transposeT P Q sT) _ s3 hn2 h3 c i0 i1 i2 hc
      (Finset.mem_range.1 hi0) (Finset.mem_range.1 hi1) (Finset.mem_range.1 hi2)]
  rw [Finset.sum_congr rfl (fun j0 hj0 => Finset.sum_congr rfl (fun j1 hj1 =>
      Finset.sum_congr rfl (fun j2 hj2 => hL j0 hj0 j1 hj1 j2 hj2))),
    Finset.sum_congr rfl (fun i0 hi0 => Finset.sum_congr rfl (fun i1 hi1 =>
      Finset.sum_congr rfl (fun i2 hi2 => hR i0 hi0 i1 hi1 i2 hi2)))]
  exact tensorSum_adjoint P Q sT (u c) w
    (fun j0 j1 j2 => runInterp NCOMP P Q nthreads sT v s1 c j0 j1 j2)

/-- Witness for C2: one component, `P = 1`, `Q = 2`, four threads, integer data. -/
theorem interp_3d_transpose_identity_witness :
    (max 1 2 ^ 2 ≤ 4 ∧
      ∀ t c k : Nat, (State.mk (fun _ => (0 : Int)) (fun _ _ => 0) (fun _ _ _ => 0) 0 []).rV t c k
        = 0) ∧
    ∑ j0 in Finset.range 2, ∑ j1 in Finset.range 2, ∑ j2 in Finset.range 2,
        (fun a b c => ((a + 2 * b + 3 * c + 1 : Nat) : Int)) j0 j1 j2
          * runInterp 1 1 2 4 (fun k => ((k + 2 : Nat) : Int)) (fun _ _ _ _ => 3)
              (State.mk (fun _ => (0 : Int)) (fun _ _ => 0) (fun _ _ _ => 0) 0 []) 0 j0 j1 j2
          * runInterp 1 1 2 4 (fun k => ((k + 2 : Nat) : Int)) (fun _ _ _ _ => 5)
              (State.mk (fun _ => (0 : Int)) (fun _ _ => 0) (fun _ _ _ => 0) 0 []) 0 j0 j1 j2
      = ∑ i0 in Finset.range 1, ∑ i1 in Finset.range 1, ∑ i2 in Finset.range 1,
        (fun _ _ _ _ => (3 : Int)) 0 i0 i1 i2
          * runInterp 1 2 1 4 (transposeT 1 2 (fun k => ((k + 2 : Nat) : Int)))
            (fun c j0 j1 j2 => (fun a b c => ((a + 2 * b + 3 * c + 1 : Nat) : Int)) j0 j1 j2
              * runInterp 1 1 2 4 (fun k => ((k + 2 : Nat) : Int)) (fun _ _ _ _ => 5)
                (State.mk (fun _ => (0 : Int)) (fun _ _ => 0) (fun _ _ _ => 0) 0 []) c j0 j1 j2)
            (State.mk (fun _ => (0 : Int)) (fun _ _ => 0) (fun _ _ _ => 0) 0 []) 0 i0 i1 i2 :=
  ⟨⟨by decide, fun _ _ _ => rfl⟩,
    interp_3d_transpose_identity 1 1 2 4 (fun k => ((k + 2 : Nat) : Int)) (fun _ _ _ _ => 3)
      (fun _ _ _ _ => 5) (fun a b c => ((a + 2 * b + 3 * c + 1 : Nat) : Int))
      (State.mk (fun _ => (0 : Int)) (fun _ _ => 0) (fun _ _ _ => 0) 0 [])
      (State.mk (fun _ => (0 : Int)) (fun _ _ => 0) (fun _ _ _ => 0) 0 [])
      (by decide) (fun _ _ _ => rfl) (fun _ _ _ => rfl) 0 (by decide)⟩

/-- Claim C5: cost of the sum-factored contraction.  With at least `max(P_, Q_)^2` threads the
three stages of one pass of the component loop execute `P_^2 * (Q_ * P_)`,
`(P_ * Q_) * (Q_ * P_)` and `Q_^2 * (Q_ * P_)` multiply-adds over all threads (the write-back
executes none), in total `P_^3 Q_ + P_^2 Q_^2 + P_ Q_^3` per component, the whole routine
`NCOMP_` times as many, and this number is at most `3 * P_ * Q_ * max(P_, Q_)^2`.  No dense
`P_^3 x Q_^3` matrix is formed: started with an empty trace, the only matrix entries the routine
reads are those of `sT` below `P_ * Q_`, and its only scratch is `swork` below
`max(P_ * P_ * max(P_, Q_), P_ * Q_ * Q_)`. -/
theorem interp_3d_cost {R : Type} [CommRing R] (NCOMP_ P_ Q_ nthreads : Nat) (sT : Nat → R)
    (rU : Nat → Nat → Nat → R) (hn : max P_ Q_ ^ 2 ≤ nthreads) :
    (∀ (s : State R) (icomp : Nat),
      (runStage nthreads (stage1Thread P_ Q_ sT rU icomp) s).madds
          = s.madds + P_ ^ 2 * (Q_ * P_) ∧
      (runStage nthreads (stage2Thread P_ Q_ sT) s).madds = s.madds + P_ * Q_ * (Q_ * P_) ∧
      (runStage nthreads (writeBackThread P_ Q_) s).madds = s.madds ∧
      (runStage nthreads (stage3Thread P_ Q_ sT icomp) s).madds
          = s.madds + Q_ ^ 2 * (Q_ * P_) ∧
      (compBody P_ Q_ nthreads sT rU s icomp).madds
          = s.madds + (P_ ^ 3 * Q_ + P_ ^ 2 * Q_ ^ 2 + P_ * Q_ ^ 3)) ∧
    (∀ s : State R, (magma_interp_3d_device NCOMP_ P_ Q_ nthreads sT rU s).madds
          = s.madds + NCOMP_ * (P_ ^ 3 * Q_ + P_ ^ 2 * Q_ ^ 2 + P_ * Q_ ^ 3)) ∧
    P_ ^ 3 * Q_ + P_ ^ 2 * Q_ ^ 2 + P_ * Q_ ^ 3 ≤ 3 * P_ * Q_ * max P_ Q_ ^ 2 ∧
    (∀ s : State R, s.trace = [] →
      ∀ a ∈ (magma_interp_3d_device NCOMP_ P_ Q_ nthreads sT rU s).trace,
        Access.inBounds NCOMP_ P_ Q_ (workspaceSize P_ Q_ (max P_ Q_)) a = true) := by
  obtain ⟨g1, g2, g3⟩ := guards_of_max P_ Q_ nthreads hn
  have e : P_ * P_ * (Q_ * P_) + P_ * Q_ * (Q_ * P_) + Q_ * Q_ * (Q_ * P_)
      = P_ ^ 3 * Q_ + P_ ^ 2 * Q_ ^ 2 + P_ * Q_ ^ 3 := by ring
  refine ⟨?_, ?_, ?_, ?_⟩
  · intro s icomp
    refine ⟨?_, ?_, ?_, ?_, ?_⟩
    · rw [(stage1_spec P_ Q_ nthreads sT rU icomp s).2.1, Nat.min_eq_right g1, pow_two]
    · rw [(stage2_spec P_ Q_ nthreads sT s).2.2.1, Nat.min_eq_right g2]
    · exact (writeBack_spec P_ Q_ nthreads s).2.2.1
    · rw [(stage3_spec P_ Q_ nthreads sT icomp s).2.1, Nat.min_eq_right g3, pow_two]
    · rw [(compBody_spec P_ Q_ nthreads sT rU icomp s g1 g2 g3).1, e]
  · intro s
    rw [(device_spec NCOMP_ P_ Q_ nthreads sT rU s g1 g2 g3).1, e]
  · have hP : P_ ≤ max P_ Q_ := le_max_left _ _
    have hQ : Q_ ≤ max P_ Q_ := le_max_right _ _
    have a1 : P_ ^ 3 * Q_ ≤ P_ * Q_ * max P_ Q_ ^ 2 := by
      have : P_ ^ 3 * Q_ = P_ * Q_ * (P_ * P_) := by ring
      rw [this, pow_two]
      exact Nat.mul_le_mul_left _ (Nat.mul_le_mul hP hP)
    have a2 : P_ ^ 2 * Q_ ^ 2 ≤ P_ * Q_ * max P_ Q_ ^ 2 := by
      have : P_ ^ 2 * Q_ ^ 2 = P_ * Q_ * (P_ * Q_) := by ring
      rw [this, pow_two]
      exact Nat.mul_le_mul_left _ (Nat.mul_le_mul hP hQ)
    have a3 : P_ * Q_ ^ 3 ≤ P_ * Q_ * max P_ Q_ ^ 2 := by
      have : P_ * Q_ ^ 3 = P_ * Q_ * (Q_ * Q_) := by ring
      rw [this, pow_two]
      exact Nat.mul_le_mul_left _ (Nat.mul_le_mul hQ hQ)
    have e3 : 3 * P_ * Q_ * max P_ Q_ ^ 2 = P_ * Q_ * max P_ Q_ ^ 2
        + P_ * Q_ * max P_ Q_ ^ 2 + P_ * Q_ * max P_ Q_ ^ 2 := by ring
    rw [e3]
    exact Nat.add_le_add (Nat.add_le_add a1 a2) a3
  · intro s hs
    refine traceOK_device NCOMP_ P_ Q_ (max P_ Q_) nthreads sT rU s rfl ?_
    intro a ha
    rw [hs] at ha
    exact absurd ha (List.not_mem_nil a)

/-- Witness for C5: `P_ = 2`, `Q_ = 1`, one component, four threads: 14 multiply-adds. -/
theorem interp_3d_cost_witness :
    max 2 1 ^ 2 ≤ 4 ∧
    (magma_interp_3d_device 1 2 1 4 (fun k => ((k + 1 : Nat) : Int))
        (fun b c i => ((b + c + i : Nat) : Int))
        (State.mk (fun _ => (0 : Int)) (fun _ _ => 0) (fun _ _ _ => 0) 0 [])).madds
      = 0 + 1 * (2 ^ 3 * 1 + 2 ^ 2 * 1 ^ 2 + 2 * 1 ^ 3) ∧
    (magma_interp_3d_device 1 2 1 4 (fun k => ((k + 1 : Nat) : Int))
        (fun b c i => ((b + c + i : Nat) : Int))
        (State.mk (fun _ => (0 : Int)) (fun _ _ => 0) (fun _ _ _ => 0) 0 [])).madds = 14 :=
  ⟨by decide,
    (interp_3d_cost 1 2 1 4 (fun k => ((k + 1 : Nat) : Int))
      (fun b c i => ((b + c + i : Nat) : Int)) (by decide)).2.1
      (State.mk (fun _ => (0 : Int)) (fun _ _ => 0) (fun _ _ _ => 0) 0 []),
    by decide⟩

/-- Claim C9: the interpolation routine accumulates into its output.  For every initial content
of `rV` (and of the scratch and `rTmp`), `magma_interp_3d_device` leaves
`rV[0][c][j] = (initial rV[0][c][j]) + (contraction of rU with T)` for every thread
`t < Q_^2`, component `c < NCOMP_` and `j < Q_`, and leaves every other register of `rV` as it
was.  Hence the registers which `magma_interpn_3d_kernel` hands to `writeV_3d` are the pure
contraction and do not depend on `dV`, while those which `magma_interpt_3d_kernel` hands to
`writeV_3d` are what `readV_3d` loaded from `dV` plus the contraction with the matrix read in
transposed mode. -/
theorem interp_3d_accumulates {R : Type} [CommRing R] (NCOMP P Q nthreads : Nat)
    (hn : max P Q ^ 2 ≤ nthreads) :
    (∀ (sT : Nat → R) (rU : Nat → Nat → Nat → R) (s : State R) (t c j : Nat),
      (t < Q * Q → c < NCOMP → j < Q →
        (magma_interp_3d_device NCOMP P Q nthreads sT rU s).rV t c j
          = s.rV t c j + contraction P Q sT rU t c j) ∧
      (¬(t < Q * Q ∧ c < NCOMP ∧ j < Q) →
        (magma_interp_3d_device NCOMP P Q nthreads sT rU s).rV t c j = s.rV t c j)) ∧
    (∀ (H : Helpers R) (dT dU : Nat → R) (estrdU cstrdU : Nat) (dV : Nat → R)
        (estrdV cstrdV nelem blockIdx_x blockDim_y ty : Nat) (sTmp : Nat → R),
      elemId blockIdx_x blockDim_y ty < nelem →
      magma_interpn_3d_kernel H NCOMP P Q nthreads dT dU estrdU cstrdU dV estrdV cstrdV nelem
          blockIdx_x blockDim_y ty sTmp
        = H.writeV_3d Q NCOMP dV (elemId blockIdx_x blockDim_y ty * estrdV) cstrdV
            (interpnRegs H NCOMP P Q nthreads dT dU estrdU cstrdU
              (elemId blockIdx_x blockDim_y ty) sTmp) ∧
      ∀ t c j, t < Q * Q → c < NCOMP → j < Q →
        interpnRegs H NCOMP P Q nthreads dT dU estrdU cstrdU
            (elemId blockIdx_x blockDim_y ty) sTmp t c j
          = contraction P Q (H.dread_T_gm2sm P Q false dT)
              (H.readU_3d P NCOMP dU (elemId blockIdx_x blockDim_y ty * estrdU) cstrdU sTmp).1
              t c j) ∧
    (∀ (H : Helpers R) (dT dU : Nat → R) (estrdU cstrdU : Nat) (dV : Nat → R)
        (estrdV cstrdV nelem blockIdx_x blockDim_y ty : Nat) (sTmp : Nat → R),
      elemId blockIdx_x blockDim_y ty < nelem →
      magma_interpt_3d_kernel H NCOMP P Q nthreads dT dU estrdU cstrdU dV estrdV cstrdV nelem
          blockIdx_x blockDim_y ty sTmp
        = H.writeV_3d P NCOMP dV (elemId blockIdx_x blockDim_y ty * estrdV) cstrdV
            (interptRegs H NCOMP P Q nthreads dT dU estrdU cstrdU dV estrdV cstrdV
              (elemId blockIdx_x blockDim_y ty) sTmp) ∧
      ∀ t c j, t < P * P → c < NCOMP → j < P →
        interptRegs H NCOMP P Q nthreads dT dU estrdU cstrdU dV estrdV cstrdV
            (elemId blockIdx_x blockDim_y ty) sTmp t c j
          = H.readV_3d P NCOMP dV (elemId blockIdx_x blockDim_y ty * estrdV) cstrdV t c j
            + contraction Q P (H.dread_T_gm2sm Q P true dT)
              (H.readU_3d Q NCOMP dU (elemId blockIdx_x blockDim_y ty * estrdU) cstrdU sTmp).1
              t c j) := by
  obtain ⟨g1, g2, g3⟩ := guards_of_max P Q nthreads hn
  refine ⟨?_, ?_, ?_⟩
  · intro sT rU s t c j
    have key := (device_spec NCOMP P Q nthreads sT rU s g1 g2 g3).2 t c j
    refine ⟨fun ht hc hj => ?_, fun hneg => ?_⟩
    · rw [key, if_pos ⟨ht, hc, hj⟩]
    · rw [key, if_neg hneg]
  · intro H dT dU estrdU cstrdU dV estrdV cstrdV nelem bx bdy ty sTmp hel
    refine ⟨?_, ?_⟩
    · unfold magma_interpn_3d_kernel
      rw [if_neg (Nat.not_le_of_lt hel)]
    · intro t c j ht hc hj
      unfold interpnRegs
      rw [(device_spec NCOMP P Q nthreads _ _ _ g1 g2 g3).2 t c j, if_pos ⟨ht, hc, hj⟩]
      simp
  · intro H dT dU estrdU cstrdU dV estrdV cstrdV nelem bx bdy ty sTmp hel
    refine ⟨?_, ?_⟩
    · unfold magma_interpt_3d_kernel
      rw [if_neg (Nat.not_le_of_lt hel)]
    · intro t c j ht hc hj
      unfold interptRegs
      rw [(device_spec NCOMP Q P nthreads _ _ _ g3 (by rw [Nat.mul_comm]; exact g2) g1).2 t c j,
        if_pos ⟨ht, hc, hj⟩]

/-- Witness for C9: `P = 1`, `Q = 2`, one component, four threads, started with `rV = 10`. -/
theorem interp_3d_accumulates_witness :
    max 1 2 ^ 2 ≤ 4 ∧
    (magma_interp_3d_device 1 1 2 4 (fun k => ((k + 2 : Nat) : Int)) (fun _ _ _ => 1)
        (State.mk (fun _ => (0 : Int)) (fun _ _ => 0) (fun _ _ _ => 10) 0 [])).rV 3 0 1
      = (State.mk (fun _ => (0 : Int)) (fun _ _ => 0) (fun _ _ _ => 10) 0 []).rV 3 0 1
        + contraction 1 2 (fun k => ((k + 2 : Nat) : Int)) (fun _ _ _ => 1) 3 0 1 ∧
    (magma_interp_3d_device 1 1 2 4 (fun k => ((k + 2 : Nat) : Int)) (fun _ _ _ => 1)
        (State.mk (fun _ => (0 : Int)) (fun _ _ => 0) (fun _ _ _ => 10) 0 [])).rV 3 0 1 = 37 :=
  ⟨by decide,
    ((interp_3d_accumulates 1 1 2 4 (by decide)).1 (fun k => ((k + 2 : Nat) : Int))
      (fun _ _ _ => 1) (State.mk (fun _ => (0 : Int)) (fun _ _ => 0) (fun _ _ _ => 10) 0 [])
      3 0 1).1 (by decide) (by decide) (by decide),
    by decide⟩

/-- Claim C10: all scratch accesses stay inside the per-element workspace.  For any number of
threads, every access that `magma_interp_3d_device` makes is in bounds: `swork` below
`max(P_ * P_ * MAXPQ, P_ * Q_ * Q_)` with `MAXPQ = max(P_, Q_)`, `rTmp` below `Q_`,
`rU[0][c]` below `P_`, `rV[0][c]` below `Q_` (with `c < NCOMP_`), and `sT` below `P_ * Q_`.
The second part restates the four `swork` index expressions under their guards. -/
theorem interp_3d_in_bounds {R : Type} [CommRing R] (NCOMP_ P_ Q_ MAXPQ nthreads : Nat)
    (sT : Nat → R) (rU : Nat → Nat → Nat → R) (s : State R) (hM : MAXPQ = max P_ Q_)
    (hs : ∀ a ∈ s.trace, Access.inBounds NCOMP_ P_ Q_ (workspaceSize P_ Q_ MAXPQ) a = true) :
    (∀ a ∈ (magma_interp_3d_device NCOMP_ P_ Q_ nthreads sT rU s).trace,
      Access.inBounds NCOMP_ P_ Q_ (workspaceSize P_ Q_ MAXPQ) a = true) ∧
    ∀ tx i j, i < P_ → j < Q_ →
      (tx < P_ * P_ → sTmpidx (tx * (1 * Q_)) 0 j 1 = tx * Q_ + j ∧
        tx * Q_ + j < workspaceSize P_ Q_ MAXPQ) ∧
      (tx < P_ * Q_ →
        sTmpidx (tx / Q_ * (Q_ * P_)) (tx % Q_) i Q_ = tx / Q_ * Q_ * P_ + i * Q_ + tx % Q_ ∧
        tx / Q_ * Q_ * P_ + i * Q_ + tx % Q_ < workspaceSize P_ Q_ MAXPQ ∧
        sTmpidx (tx / Q_ * (Q_ * Q_)) (tx % Q_) j Q_ = tx / Q_ * Q_ * Q_ + j * Q_ + tx % Q_ ∧
        tx / Q_ * Q_ * Q_ + j * Q_ + tx % Q_ < workspaceSize P_ Q_ MAXPQ) ∧
      (tx < Q_ * Q_ → sTmpidx 0 tx i (Q_ * Q_) = i * Q_ * Q_ + tx ∧
        i * Q_ * Q_ + tx < workspaceSize P_ Q_ MAXPQ) := by
  refine ⟨?_, ?_⟩
  · exact traceOK_device NCOMP_ P_ Q_ MAXPQ nthreads sT rU s hM hs
  · intro tx i j hi hj
    have wl := workspace_ge_left P_ Q_ MAXPQ hM
    have wr := workspace_ge_right P_ Q_ MAXPQ
    refine ⟨fun htx => ?_, fun htx => ?_, fun htx => ?_⟩
    · have e : sTmpidx (tx * (1 * Q_)) 0 j 1 = tx * Q_ + j := by simp [sTmpidx]
      have := stage1_idx_lt P_ Q_ tx j htx hj
      rw [e] at this
      exact ⟨e, Nat.lt_of_lt_of_le this wl⟩
    · have e1 : sTmpidx (tx / Q_ * (Q_ * P_)) (tx % Q_) i Q_
          = tx / Q_ * Q_ * P_ + i * Q_ + tx % Q_ := by
        simp only [sTmpidx]; ring
      have e2 : sTmpidx (tx / Q_ * (Q_ * Q_)) (tx % Q_) j Q_
          = tx / Q_ * Q_ * Q_ + j * Q_ + tx % Q_ := by
        simp only [sTmpidx]; ring
      have b1 := stage2_idx_lt P_ Q_ tx i htx hi
      have b2 := writeBack_idx_lt P_ Q_ tx j htx hj
      rw [e1] at b1
      rw [e2] at b2
      exact ⟨e1, Nat.lt_of_lt_of_le b1 wl, e2, Nat.lt_of_lt_of_le b2 wr⟩
    · have e : sTmpidx 0 tx i (Q_ * Q_) = i * Q_ * Q_ + tx := by
        simp only [sTmpidx]; ring
      have b := stage3_idx_lt P_ Q_ tx i htx hi
      rw [e] at b
      exact ⟨e, Nat.lt_of_lt_of_le b wr⟩

/-- Witness for C10: `P_ = 2`, `Q_ = 1`, one component, four threads, empty initial trace; the
run records 63 accesses. -/
theorem interp_3d_in_bounds_witness :
    (2 = max 2 1 ∧
      ∀ a ∈ (State.mk (fun _ => (0 : Int)) (fun _ _ => 0) (fun _ _ _ => 0) 0 []).trace,
        Access.inBounds 1 2 1 (workspaceSize 2 1 2) a = true) ∧
    (∀ a ∈ (magma_interp_3d_device 1 2 1 4 (fun k => ((k + 1 : Nat) : Int))
          (fun b c i => ((b + c + i : Nat) : Int))
          (State.mk (fun _ => (0 : Int)) (fun _ _ => 0) (fun _ _ _ => 0) 0 [])).trace,
        Access.inBounds 1 2 1 (workspaceSize 2 1 2) a = true) ∧
    (magma_interp_3d_device 1 2 1 4 (fun k => ((k + 1 : Nat) : Int))
          (fun b c i => ((b + c + i : Nat) : Int))
          (State.mk (fun _ => (0 : Int)) (fun _ _ => 0) (fun _ _ _ => 0) 0 [])).trace.length
      = 63 :=
  ⟨⟨by decide, fun a ha => absurd ha (List.not_mem_nil a)⟩,
    (interp_3d_in_bounds 1 2 1 2 4 (fun k => ((k + 1 : Nat) : Int))
      (fun b c i => ((b + c + i : Nat) : Int))
      (State.mk (fun _ => (0 : Int)) (fun _ _ => 0) (fun _ _ _ => 0) 0 []) (by decide)
      (fun a ha => absurd ha (List.not_mem_nil a))).1,
    by decide⟩

end Magma

namespace T564

/-- Closed form of the accumulation in any order: each cell receives the sum of the values of
the entries that name it. -/
theorem assembleIn_apply {R : Type} [AddCommMonoid R] (num_comp num_dofs : Nat)
    (rows cols : Nat → Nat) (vals : Nat → R) (order : List Nat) (init : Nat → R) (idx : Nat) :
    assembleIn num_comp num_dofs rows cols vals order init idx
      = init idx + (order.map (fun k =>
          if rows k * num_comp * num_dofs + cols k = idx then vals k else 0)).sum := by
  induction order generalizing init with
  | nil => simp [assembleIn]
  | cons k l ih =>
    have ih2 := ih (assembleStep num_comp num_dofs rows cols vals init k)
    unfold assembleIn at ih2 ⊢
    rw [List.foldl_cons, ih2, List.map_cons, List.sum_cons]
    unfold assembleStep
    rw [Function.update_apply]
    by_cases h : rows k * num_comp * num_dofs + cols k = idx
    · rw [if_pos h.symm, if_pos h, h, add_assoc]
    · rw [if_neg (fun e => h e.symm), if_neg h, zero_add]

theorem list_range_map_sum {R : Type} [AddCommMonoid R] (n : Nat) (f : Nat → R) :
    ((List.range n).map f).sum = ∑ k in Finset.range n, f k := by
  induction n with
  | zero => simp
  | succ n ih => rw [List.range_succ, List.map_append, List.sum_append, ih,
      Finset.sum_range_succ]; simp

/-- The flat index `r * N + c` determines `r` and `c` when `c < N`. -/
theorem flat_index_inj (N r c r2 c2 : Nat) (hc : c < N) (hc2 : c2 < N)
    (h : r * N + c = r2 * N + c2) : r = r2 ∧ c = c2 := by
  have hN : 0 < N := by omega
  have h1 : (r * N + c) / N = r := by
    rw [Nat.add_comm, Nat.add_mul_div_right _ _ hN, Nat.div_eq_of_lt hc, Nat.zero_add]
  have h2 : (r2 * N + c2) / N = r2 := by
    rw [Nat.add_comm, Nat.add_mul_div_right _ _ hN, Nat.div_eq_of_lt hc2, Nat.zero_add]
  have hr : r = r2 := by rw [← h1, ← h2, h]
  subst hr
  exact ⟨rfl, Nat.add_left_cancel h⟩

theorem flat_index_lt (N r c : Nat) (hr : r < N) (hc : c < N) : r * N + c < N * N := by
  have h : (r + 1) * N ≤ N * N := Nat.mul_le_mul_right N hr
  rw [Nat.succ_mul] at h
  omega

/-- Claim C4: duplicate assembly entries are summed.  With `N = num_comp * num_dofs` and all
`rows[k]`, `cols[k]` below `N`, the accumulation loop started from the zero array leaves in
`assembled_values[r * N + c]` the sum of `values[k]` over exactly the `k` with `rows[k] = r` and
`cols[k] = c`; every index written is below `N * N` and no cell from `N * N` on changes; and
processing the entries in any other order gives the same array. -/
theorem assemble_sums_duplicates {R : Type} [AddCommMonoid R]
    (num_comp num_dofs num_entries : Nat) (rows cols : Nat → Nat) (vals : Nat → R)
    (hr : ∀ k, k < num_entries → rows k < num_comp * num_dofs)
    (hc : ∀ k, k < num_entries → cols k < num_comp * num_dofs) :
    (∀ r c, r < num_comp * num_dofs → c < num_comp * num_dofs →
      assembleLoop num_comp num_dofs num_entries rows cols vals (fun _ => 0)
          (r * (num_comp * num_dofs) + c)
        = ∑ k in (Finset.range num_entries).filter (fun k => rows k = r ∧ cols k = c), vals k) ∧
    (∀ idx ∈ assembleWrites num_comp num_dofs num_entries rows cols,
      idx < num_comp * num_dofs * (num_comp * num_dofs)) ∧
    (∀ idx, num_comp * num_dofs * (num_comp * num_dofs) ≤ idx →
      assembleLoop num_comp num_dofs num_entries rows cols vals (fun _ => 0) idx = 0) ∧
    (∀ order : List Nat, order.Perm (List.range num_entries) →
      assembleIn num_comp num_dofs rows cols vals order (fun _ => 0)
        = assembleLoop num_comp num_dofs num_entries rows cols vals (fun _ => 0)) := by
  have hidx : ∀ k, rows k * num_comp * num_dofs + cols k
      = rows k * (num_comp * num_dofs) + cols k := fun k => by rw [Nat.mul_assoc]
  refine ⟨?_, ?_, ?_, ?_⟩
  · intro r c _ hcN
    unfold assembleLoop
    rw [assembleIn_apply, zero_add, list_range_map_sum, Finset.sum_filter]
    refine Finset.sum_congr rfl (fun k hk => ?_)
    rw [Finset.mem_range] at hk
    by_cases h : rows k = r ∧ cols k = c
    · rw [if_pos h, if_pos]
      rw [hidx, h.1, h.2]
    · rw [if_neg h, if_neg]
      intro e
      rw [hidx] at e
      exact h (flat_index_inj _ _ _ _ _ (hc k hk) hcN e)
  · intro idx hmem
    unfold assembleWrites at hmem
    rw [List.mem_map] at hmem
    obtain ⟨k, hk, rfl⟩ := hmem
    rw [List.mem_range] at hk
    rw [hidx]
    exact flat_index_lt _ _ _ (hr k hk) (hc k hk)
  · intro idx hge
    unfold assembleLoop
    rw [assembleIn_apply, zero_add, list_range_map_sum]
    refine Finset.sum_eq_zero (fun k hk => ?_)
    rw [Finset.mem_range] at hk
    rw [if_neg]
    intro e
    have := flat_index_lt _ _ _ (hr k hk) (hc k hk)
    rw [hidx] at e
    omega
  · intro order hperm
    funext idx
    unfold assembleLoop
    rw [assembleIn_apply, assembleIn_apply]
    congr 1
    exact (hperm.map _).sum_eq

/-- Witness for C4: `N = 2 * 1`, three entries, two of them on cell `(1, 0)`. -/
theorem assemble_sums_duplicates_witness :
    ((∀ k, k < 3 → (fun k => if k = 1 then 0 else 1) k < 2 * 1) ∧
      (∀ k, k < 3 → (fun _ => 0) k < 2 * 1)) ∧
    assembleLoop 2 1 3 (fun k => if k = 1 then 0 else 1) (fun _ => 0)
        (fun k => ((k + 5 : Nat) : Int)) (fun _ => 0) (1 * (2 * 1) + 0)
      = ∑ k in (Finset.range 3).filter
          (fun k => (fun k => if k = 1 then 0 else 1) k = 1 ∧ (fun _ => 0) k = 0),
          (fun k => ((k + 5 : Nat) : Int)) k ∧
    assembleLoop 2 1 3 (fun k => if k = 1 then 0 else 1) (fun _ => 0)
        (fun k => ((k + 5 : Nat) : Int)) (fun _ => 0) (1 * (2 * 1) + 0) = 12 :=
  ⟨⟨by decide, by decide⟩,
    (assemble_sums_duplicates 2 1 3 (fun k => if k = 1 then 0 else 1) (fun _ => 0)
      (fun k => ((k + 5 : Nat) : Int)) (by decide) (by decide)).1 1 0 (by decide) (by decide),
    by decide⟩

/-- The loop `for (k = 0; k < m; k++) assembled_true[base + k] = v_array[k];`. -/
theorem record_apply {R : Type} (base m : Nat) (v : Nat → R) (t : Nat → R) (idx : Nat) :
    (List.range m).foldl (fun t k => Function.update t (base + k) (v k)) t idx
      = if base ≤ idx ∧ idx < base + m then v (idx - base) else t idx := by
  refine foldl_range_inv (fun t k => Function.update t (base + k) (v k))
    (fun n t1 => t1 idx = if base ≤ idx ∧ idx < base + n then v (idx - base) else t idx)
    m t ?_ ?_
  · show t idx = _
    rw [if_neg]; omega
  · intro k t1 _ h
    show Function.update t1 (base + k) (v k) idx = _
    rw [Function.update_apply, h]
    by_cases e : idx = base + k
    · subst e
      rw [if_pos rfl, if_pos (by omega)]
      congr 1
      omega
    · rw [if_neg e]
      by_cases c : base ≤ idx ∧ idx < base + k
      · rw [if_pos c, if_pos]; omega
      · rw [if_neg c, if_neg]; omega

/-- Invariant of the manual assembly loop after `n` iterations. -/
theorem probe_inv {R : Type} [Zero R] [One R] (num_dofs num_comp : Nat)
    (apply : (Nat → R) → (Nat → R)) (n : Nat) :
    let s := (List.range n).foldl (probeStep num_dofs num_comp apply)
      { u := fun _ => 0, old_index := -1, assembled_true := fun _ => 0, applied := [],
        indexed := [] }
    s.applied = (List.range n).map unitVec ∧
      (∀ i, s.u i = if n = 0 then 0 else unitVec (n - 1) i) ∧
      s.old_index = (n : Int) - 1 ∧
      (∀ x ∈ s.indexed, 0 ≤ x ∧ x < (n : Int)) ∧
      ∀ c r, c < n → r < num_dofs * num_comp →
        s.assembled_true (c * num_dofs * num_comp + r) = apply (unitVec c) r := by
  intro s
  refine foldl_range_inv (probeStep num_dofs num_comp apply)
    (fun n s => s.applied = (List.range n).map unitVec ∧
      (∀ i, s.u i = if n = 0 then 0 else unitVec (n - 1) i) ∧
      s.old_index = (n : Int) - 1 ∧
      (∀ x ∈ s.indexed, 0 ≤ x ∧ x < (n : Int)) ∧
      ∀ c r, c < n → r < num_dofs * num_comp →
        s.assembled_true (c * num_dofs * num_comp + r) = apply (unitVec c) r) n _ ?_ ?_
  · refine ⟨rfl, fun i => rfl, by simp, ?_, ?_⟩
    · intro x hx
      exact absurd hx (List.not_mem_nil x)
    · intro c r hc
      exact absurd hc (Nat.not_lt_zero c)
  · rintro j s2 - ⟨h1, h2, h3, h4, h5⟩
    have hu : (if (j : Int) > 0 then
          Function.update (Function.update s2.u (j : Int).toNat 1) s2.old_index.toNat 0
        else Function.update s2.u (j : Int).toNat 1) = unitVec j := by
      funext i
      by_cases hj : j = 0
      · subst hj
        simp only [Nat.cast_zero, gt_iff_lt, lt_self_iff_false, if_false, Int.toNat_zero,
          Function.update_apply, unitVec]
        rw [h2 i]
        simp
      · have hpos : (j : Int) > 0 := by omega
        rw [if_pos hpos, h3]
        have e1 : ((j : Int) - 1).toNat = j - 1 := by omega
        have e2 : (j : Int).toNat = j := by omega
        rw [e1, e2]
        simp only [Function.update_apply, unitVec]
        rw [h2 i, if_neg hj]
        by_cases a : i = j - 1
        · rw [if_pos a, if_neg (by omega)]
        · rw [if_neg a]
          by_cases b : i = j
          · rw [if_pos b, if_pos b]
          · rw [if_neg b, if_neg b]
            simp only [unitVec, if_neg a]
    have hu2 : (probeStep num_dofs num_comp apply s2 j).u = unitVec j := hu
    have happ : (probeStep num_dofs num_comp apply s2 j).applied
        = s2.applied ++ [(probeStep num_dofs num_comp apply s2 j).u] := rfl
    have hind : (probeStep num_dofs num_comp apply s2 j).indexed
        = s2.indexed ++ (if (j : Int) > 0 then [(j : Int), s2.old_index] else [(j : Int)]) := rfl
    have htrue : (probeStep num_dofs num_comp apply s2 j).assembled_true
        = (List.range (num_dofs * num_comp)).foldl
            (fun t k => Function.update t (j * num_dofs * num_comp + k)
              (apply (probeStep num_dofs num_comp apply s2 j).u k)) s2.assembled_true := rfl
    have hold : (probeStep num_dofs num_comp apply s2 j).old_index = (j : Int) := rfl
    refine ⟨?_, ?_, ?_, ?_, ?_⟩
    · rw [happ, hu2, h1, List.range_succ, List.map_append]
      rfl
    · intro i
      rw [hu2, if_neg (Nat.succ_ne_zero j)]
      rfl
    · rw [hold]
      omega
    · intro x hx
      rw [hind, List.mem_append] at hx
      rcases hx with hx2 | hx2
      · have := h4 x hx2
        omega
      · by_cases hj : (j : Int) > 0
        · rw [if_pos hj] at hx2
          simp only [List.mem_cons, List.mem_singleton, List.not_mem_nil, or_false] at hx2
          rcases hx2 with rfl | rfl
          · omega
          · omega
        · rw [if_neg hj] at hx2
          simp only [List.mem_singleton] at hx2
          omega
    · intro c r hc hr
      rw [htrue, record_apply, hu2]
      by_cases e : c = j
      · subst e
        rw [if_pos ⟨Nat.le_add_right _ _, by omega⟩]
        congr 1
        omega
      · have hlt : c < j := by omega
        have hmul : (c + 1) * (num_dofs * num_comp) ≤ j * (num_dofs * num_comp) :=
          Nat.mul_le_mul_right _ hlt
        rw [Nat.succ_mul, ← Nat.mul_assoc, ← Nat.mul_assoc] at hmul
        rw [if_neg (by omega)]
        exact h5 c r hlt hr

/-- Claim C8: unit-probe loop invariant.  In the manual assembly loop of `main`, started from
`u = 0` and `old_index = -1`, the vector handed to `CeedOperatorApply` in iteration `j` is the
`j`-th unit vector, for every `j` below `N = num_dofs * num_comp`; there are `N` calls; and
every index used on `u_array` lies in `[0, N)`, so `u_array` is never indexed at `-1`. -/
theorem probe_unit_vectors {R : Type} [Zero R] [One R] (num_dofs num_comp : Nat)
    (apply : (Nat → R) → (Nat → R)) :
    (probeLoop num_dofs num_comp apply).applied
        = (List.range (num_dofs * num_comp)).map unitVec ∧
    (probeLoop num_dofs num_comp apply).applied.length = num_dofs * num_comp ∧
    (∀ j, j < num_dofs * num_comp →
      (probeLoop num_dofs num_comp apply).applied.get? j
        = some (fun i => if i = j then 1 else 0)) ∧
    ∀ x ∈ (probeLoop num_dofs num_comp apply).indexed,
      x ≠ -1 ∧ 0 ≤ x ∧ x < ((num_dofs * num_comp : Nat) : Int) := by
  obtain ⟨h1, -, -, h4, -⟩ := probe_inv num_dofs num_comp apply (num_dofs * num_comp)
  refine ⟨h1, ?_, ?_, ?_⟩
  · unfold probeLoop
    rw [h1, List.length_map, List.length_range]
  · intro j hj
    unfold probeLoop
    rw [h1, List.get?_eq_getElem?, List.getElem?_map, List.getElem?_range hj]
    rfl
  · intro x hx
    have := h4 x hx
    omega

/-- Witness for C8: `num_dofs = 2`, `num_comp = 2`, the identity as operator: four calls, the
indices used on `u_array` are `0, 1, 0, 2, 1, 3, 2`. -/
theorem probe_unit_vectors_witness :
    (probeLoop 2 2 (fun (u : Nat → Int) => u)).applied
        = (List.range (2 * 2)).map unitVec ∧
    (probeLoop 2 2 (fun (u : Nat → Int) => u)).indexed = [0, 1, 0, 2, 1, 3, 2] :=
  ⟨(probe_unit_vectors 2 2 (fun (u : Nat → Int) => u)).1, by decide⟩

/-- The check prints nothing exactly when every compared pair of cells is within the
tolerance. -/
theorem checkOutput_nil_iff {R : Type} [LinearOrderedRing R] (num_comp num_dofs : Nat) (eps : R)
    (av at_ : Nat → R) :
    checkOutput num_comp num_dofs eps av at_ = [] ↔
      ∀ i j, i < num_comp * num_dofs → j < num_comp * num_dofs →
        |av (j * num_dofs * num_comp + i) - at_ (j * num_dofs * num_comp + i)| ≤ 100 * eps := by
  unfold checkOutput
  simp only [List.flatMap_eq_nil_iff, List.mem_range]
  constructor
  · intro h i j hi hj
    have := h i hi j hj
    by_contra hgt
    rw [if_pos (lt_of_not_ge hgt)] at this
    exact List.cons_ne_nil _ _ this
  · intro h i hi j hj
    rw [if_neg (not_lt_of_ge (h i j hi hj))]

/-- The probing loop records entry `r` of `Apply(e_c)` in `assembled_true[c * N + r]`. -/
theorem probeLoop_records {R : Type} [Zero R] [One R] (num_dofs num_comp : Nat)
    (apply : (Nat → R) → (Nat → R)) (r c : Nat)
    (hr : r < num_dofs * num_comp) (hc : c < num_dofs * num_comp) :
    (probeLoop num_dofs num_comp apply).assembled_true (c * num_dofs * num_comp + r)
      = Prb apply r c :=
  (probe_inv num_dofs num_comp apply (num_dofs * num_comp)).2.2.2.2 c r hc hr

/-- Claim C7, as the code has it: the check of `main` reports no error if and only if
`|Asm[r][c] - Prb[c][r]| <= 100 * CEED_EPSILON` for all `r, c < N`: the probing loop stores
`Apply(e_j)` as row `j` of `assembled_true`, so the assembled matrix is compared with the
transpose of the probed matrix.  When the probed matrix is symmetric this is the comparison
entry by entry. -/
theorem check_compares_with_transpose {R : Type} [LinearOrderedRing R]
    (num_comp num_dofs : Nat) (eps : R) (num_entries : Nat) (rows cols : Nat → Nat)
    (assembled_array : Nat → R) (apply : (Nat → R) → (Nat → R)) :
    (assemblyCheck num_comp num_dofs eps num_entries rows cols assembled_array apply = [] ↔
      ∀ r c, r < num_comp * num_dofs → c < num_comp * num_dofs →
        |Asm num_comp num_dofs num_entries rows cols assembled_array r c - Prb apply c r|
          ≤ 100 * eps) ∧
    ((∀ r c, r < num_comp * num_dofs → c < num_comp * num_dofs →
        Prb apply r c = Prb apply c r) →
      (assemblyCheck num_comp num_dofs eps num_entries rows cols assembled_array apply = [] ↔
        ∀ r c, r < num_comp * num_dofs → c < num_comp * num_dofs →
          |Asm num_comp num_dofs num_entries rows cols assembled_array r c - Prb apply r c|
            ≤ 100 * eps)) := by
  have key : assemblyCheck num_comp num_dofs eps num_entries rows cols assembled_array apply = []
      ↔ ∀ r c, r < num_comp * num_dofs → c < num_comp * num_dofs →
        |Asm num_comp num_dofs num_entries rows cols assembled_array r c - Prb apply c r|
          ≤ 100 * eps := by
    unfold assemblyCheck
    rw [checkOutput_nil_iff]
    have e : ∀ i j, i < num_comp * num_dofs → j < num_comp * num_dofs →
        |assembleLoop num_comp num_dofs num_entries rows cols assembled_array (fun _ => 0)
              (j * num_dofs * num_comp + i)
            - (probeLoop num_dofs num_comp apply).assembled_true (j * num_dofs * num_comp + i)|
          = |Asm num_comp num_dofs num_entries rows cols assembled_array j i
              - Prb apply i j| := by
      intro i j hi hj
      rw [probeLoop_records num_dofs num_comp apply i j (by rw [Nat.mul_comm]; exact hi)
        (by rw [Nat.mul_comm]; exact hj)]
      unfold Asm
      rw [Nat.mul_assoc j num_dofs num_comp, Nat.mul_comm num_dofs num_comp]
    constructor
    · intro h r c hr hc
      rw [← e c r hc hr]
      exact h c r hc hr
    · intro h i j hi hj
      rw [e i j hi hj]
      exact h j i hj hi
  refine ⟨key, fun hsym => ?_⟩
  rw [key]
  constructor
  · intro h r c hr hc
    rw [hsym r c hr hc]
    exact h r c hr hc
  · intro h r c hr hc
    rw [← hsym r c hr hc]
    exact h r c hr hc

/-- Claim C7 as stated fails for a non-symmetric operator.  Take `N = 2 * 1`, the operator with
the single entry `1000` at `(row 0, col 1)`, assembled correctly as the one entry
`(0, 1, 1000)`, and `CEED_EPSILON = 1`: then `Asm[r][c] = Prb[r][c]` for all `r, c`, but the
check reports errors. -/
theorem check_entrywise_counterexample :
    ¬ (assemblyCheck 2 1 (1 : Int) 1 (fun _ => 0) (fun _ => 1) (fun _ => 1000)
          (fun u k => if k = 0 then 1000 * u 1 else 0) = [] ↔
        ∀ r c, r < 2 * 1 → c < 2 * 1 →
          |Asm 2 1 1 (fun _ => 0) (fun _ => 1) (fun _ => (1000 : Int)) r c
            - Prb (fun u k => if k = 0 then 1000 * u 1 else 0) r c| ≤ 100 * 1) := by
  intro h
  have hR : ∀ r c, r < 2 * 1 → c < 2 * 1 →
      |Asm 2 1 1 (fun _ => 0) (fun _ => 1) (fun _ => (1000 : Int)) r c
        - Prb (fun u k => if k = 0 then 1000 * u 1 else 0) r c| ≤ 100 * 1 := by
    intro r c hr hc
    interval_cases r <;> interval_cases c <;> decide
  have hL := h.2 hR
  revert hL
  decide

theorem indInv_write (n_x i j k : Nat) (s : IndState) (hj : j < 3) (hk : k < 3)
    (h : IndInv n_x i j k s) :
    IndInv n_x i j (k + 1) (indWrite 3 n_x i
      ((i % n_x) * (3 - 1) + (i / n_x) * (n_x * 2 + 1) * (3 - 1)) j s k) := by
  obtain ⟨h1, h2, h3⟩ := h
  have hnew : ¬ indDone i j k (3 * (3 * i + k) + j) := by
    unfold indDone
    omega
  have hstep : ∀ pos, indDone i j (k + 1) pos ↔ indDone i j k pos ∨ pos = 3 * (3 * i + k) + j := by
    intro pos
    unfold indDone
    omega
  refine ⟨?_, ?_, ?_⟩
  · show (s.written ++ [3 * (3 * i + k) + j]).Nodup
    rw [List.nodup_append]
    refine ⟨h1, List.nodup_singleton _, ?_⟩
    intro a ha hb
    rw [List.mem_singleton] at hb
    subst hb
    exact hnew ((h2 _).1 ha)
  · intro pos
    show pos ∈ s.written ++ [3 * (3 * i + k) + j] ↔ _
    rw [List.mem_append, List.mem_singleton, hstep, h2]
  · intro pos hpos
    show Function.update s.ind_x (3 * (3 * i + k) + j) _ pos = _
    rw [Function.update_apply]
    by_cases e : pos = 3 * (3 * i + k) + j
    · rw [if_pos e]
      unfold indVal
      have e1 : pos / 9 = i := by omega
      have e2 : pos % 9 / 3 = k := by omega
      have e3 : pos % 3 = j := by omega
      rw [e1, e2, e3]
    · rw [if_neg e]
      exact h3 pos (((hstep pos).1 hpos).resolve_right e)

theorem indInv_elem (n_x i : Nat) (s : IndState) (h : IndInv n_x i 0 0 s) :
    IndInv n_x (i + 1) 0 0 (indElem 3 n_x s i) := by
  have key : IndInv n_x i 3 0 (indElem 3 n_x s i) := by
    unfold indElem
    refine foldl_range_inv _ (fun j s1 => IndInv n_x i j 0 s1) 3 s h ?_
    intro j s1 hj h1
    have inner : IndInv n_x i j 3 ((List.range 3).foldl (indWrite 3 n_x i
        ((i % n_x) * (3 - 1) + (i / n_x) * (n_x * 2 + 1) * (3 - 1)) j) s1) :=
      foldl_range_inv _ (fun k s2 => IndInv n_x i j k s2) 3 s1 h1
        (fun k s2 hk h2 => indInv_write n_x i j k s2 hj hk h2)
    have e : ∀ pos, indDone i (j + 1) 0 pos ↔ indDone i j 3 pos := by
      intro pos
      unfold indDone
      omega
    obtain ⟨a1, a2, a3⟩ := inner
    exact ⟨a1, fun pos => (a2 pos).trans (e pos).symm, fun pos hp => a3 pos ((e pos).1 hp)⟩
  have e : ∀ pos, indDone (i + 1) 0 0 pos ↔ indDone i 3 0 pos := by
    intro pos
    unfold indDone
    omega
  obtain ⟨a1, a2, a3⟩ := key
  exact ⟨a1, fun pos => (a2 pos).trans (e pos).symm, fun pos hp => a3 pos ((e pos).1 hp)⟩

/-- After the restriction loop over `num_elem = n_x * n_y` elements, started with nothing
written. -/
theorem indInv_loop (n_x n_y : Nat) (init : Nat → Nat) :
    IndInv n_x (n_x * n_y) 0 0 (indLoop 3 n_x n_y ⟨init, []⟩) := by
  unfold indLoop
  refine foldl_range_inv _ (fun i s1 => IndInv n_x i 0 0 s1) (n_x * n_y) _ ?_
    (fun i s1 _ h1 => indInv_elem n_x i s1 h1)
  refine ⟨List.nodup_nil, ?_, ?_⟩
  · intro pos
    unfold indDone
    simp
  · intro pos hpos
    unfold indDone at hpos
    omega

/-- Every stored value is a node number. -/
theorem indVal_lt (n_x n_y pos : Nat) (hpos : pos < n_x * n_y * 3 * 3) :
    indVal n_x pos < (n_x * 2 + 1) * (n_y * 2 + 1) := by
  have he : pos / 9 < n_x * n_y := by omega
  have hx : 0 < n_x := by
    rcases Nat.eq_zero_or_pos n_x with h | h
    · subst h; simp at he
    · exact h
  have hcol : (pos / 9) % n_x < n_x := Nat.mod_lt _ hx
  have hrow : (pos / 9) / n_x < n_y := Nat.div_lt_of_lt_mul he
  have hk : pos % 9 / 3 < 3 := by omega
  have hj : pos % 3 < 3 := Nat.mod_lt _ (by decide)
  have hb : ((pos / 9) / n_x * 2 + pos % 9 / 3 + 1) * (n_x * 2 + 1)
      ≤ (n_y * 2 + 1) * (n_x * 2 + 1) := Nat.mul_le_mul_right _ (by omega)
  have e : indVal n_x pos = ((pos / 9) / n_x * 2 + pos % 9 / 3) * (n_x * 2 + 1)
      + ((pos / 9) % n_x * 2 + pos % 3) := by
    unfold indVal
    ring
  rw [e, Nat.mul_comm (n_x * 2 + 1) (n_y * 2 + 1)]
  rw [Nat.succ_mul] at hb
  omega

/-- Every node number is stored somewhere. -/
theorem indVal_surj (n_x n_y d : Nat) (hx : 1 ≤ n_x) (hy : 1 ≤ n_y)
    (hd : d < (n_x * 2 + 1) * (n_y * 2 + 1)) :
    ∃ pos, pos < n_x * n_y * 3 * 3 ∧ indVal n_x pos = d := by
  have hW : 0 < n_x * 2 + 1 := by omega
  have hxlt : d % (n_x * 2 + 1) < n_x * 2 + 1 := Nat.mod_lt _ hW
  have hylt : d / (n_x * 2 + 1) < n_y * 2 + 1 := Nat.div_lt_of_lt_mul hd
  have hdm := Nat.div_add_mod d (n_x * 2 + 1)
  obtain ⟨col, j, hcol, hj, hxe⟩ : ∃ col j, col < n_x ∧ j < 3 ∧
      d % (n_x * 2 + 1) = col * 2 + j := by
    by_cases h : d % (n_x * 2 + 1) / 2 < n_x
    · exact ⟨d % (n_x * 2 + 1) / 2, d % (n_x * 2 + 1) % 2, h, by omega, by omega⟩
    · exact ⟨n_x - 1, 2, by omega, by omega, by omega⟩
  obtain ⟨row, k, hrow, hk, hye⟩ : ∃ row k, row < n_y ∧ k < 3 ∧
      d / (n_x * 2 + 1) = row * 2 + k := by
    by_cases h : d / (n_x * 2 + 1) / 2 < n_y
    · exact ⟨d / (n_x * 2 + 1) / 2, d / (n_x * 2 + 1) % 2, h, by omega, by omega⟩
    · exact ⟨n_y - 1, 2, by omega, by omega, by omega⟩
  have hx0 : 0 < n_x := hx
  have he : row * n_x + col < n_x * n_y := by
    have := Nat.mul_le_mul_right n_x (Nat.succ_le_of_lt hrow)
    rw [Nat.succ_mul, Nat.mul_comm n_y n_x] at this
    omega
  have hmod : (row * n_x + col) % n_x = col := by
    rw [Nat.add_comm, Nat.add_mul_mod_self_right, Nat.mod_eq_of_lt hcol]
  have hdiv : (row * n_x + col) / n_x = row := by
    rw [Nat.add_comm, Nat.add_mul_div_right _ _ hx0, Nat.div_eq_of_lt hcol, Nat.zero_add]
  refine ⟨3 * (3 * (row * n_x + col) + k) + j, by omega, ?_⟩
  unfold indVal
  have e1 : (3 * (3 * (row * n_x + col) + k) + j) / 9 = row * n_x + col := by omega
  have e2 : (3 * (3 * (row * n_x + col) + k) + j) % 9 / 3 = k := by omega
  have e3 : (3 * (3 * (row * n_x + col) + k) + j) % 3 = j := by omega
  rw [e1, e2, e3, hmod, hdiv]
  have e4 : col * (3 - 1) + row * (n_x * 2 + 1) * (3 - 1) + k * (n_x * 2 + 1) + j
      = (n_x * 2 + 1) * (row * 2 + k) + (col * 2 + j) := by
    have : (3 : Nat) - 1 = 2 := rfl
    rw [this]
    ring
  rw [e4, ← hye, ← hxe]
  exact hdm

/-- Claim C6: the element index map built by `main` is a valid restriction onto the whole node
range.  With `p = 3` and `n_x, n_y >= 1`, the loop writes every slot of `ind_x` (the positions
below `num_elem * p * p`) exactly once; slot `p * (p * i + k) + j` holds
`offset_i + k * (n_x * 2 + 1) + j`; every stored value is below
`num_dofs = (n_x * 2 + 1) * (n_y * 2 + 1)`; every node below `num_dofs` is stored in some slot;
and for every component `c < num_comp` the index `ind_x[..] + c * num_dofs` is below
`num_comp * num_dofs`. -/
theorem ind_x_valid_restriction (n_x n_y : Nat) (hx : 1 ≤ n_x) (hy : 1 ≤ n_y)
    (init : Nat → Nat) :
    (indLoop 3 n_x n_y ⟨init, []⟩).written.Perm (List.range (n_x * n_y * 3 * 3)) ∧
    (∀ i j k, i < n_x * n_y → j < 3 → k < 3 →
      (indLoop 3 n_x n_y ⟨init, []⟩).ind_x (3 * (3 * i + k) + j)
        = (i % n_x) * (3 - 1) + (i / n_x) * (n_x * 2 + 1) * (3 - 1) + k * (n_x * 2 + 1) + j) ∧
    (∀ pos, pos < n_x * n_y * 3 * 3 →
      (indLoop 3 n_x n_y ⟨init, []⟩).ind_x pos < (n_x * 2 + 1) * (n_y * 2 + 1)) ∧
    (∀ d, d < (n_x * 2 + 1) * (n_y * 2 + 1) →
      ∃ pos, pos < n_x * n_y * 3 * 3 ∧ (indLoop 3 n_x n_y ⟨init, []⟩).ind_x pos = d) ∧
    (∀ num_comp c pos, c < num_comp → pos < n_x * n_y * 3 * 3 →
      (indLoop 3 n_x n_y ⟨init, []⟩).ind_x pos + c * ((n_x * 2 + 1) * (n_y * 2 + 1))
        < num_comp * ((n_x * 2 + 1) * (n_y * 2 + 1))) := by
  obtain ⟨h1, h2, h3⟩ := indInv_loop n_x n_y init
  have hdone : ∀ pos, indDone (n_x * n_y) 0 0 pos ↔ pos < n_x * n_y * 3 * 3 := by
    intro pos
    unfold indDone
    omega
  have hval : ∀ pos, pos < n_x * n_y * 3 * 3 →
      (indLoop 3 n_x n_y ⟨init, []⟩).ind_x pos = indVal n_x pos :=
    fun pos hpos => h3 pos ((hdone pos).2 hpos)
  have hlt : ∀ pos, pos < n_x * n_y * 3 * 3 →
      (indLoop 3 n_x n_y ⟨init, []⟩).ind_x pos < (n_x * 2 + 1) * (n_y * 2 + 1) := by
    intro pos hpos
    rw [hval pos hpos]
    exact indVal_lt n_x n_y pos hpos
  refine ⟨?_, ?_, hlt, ?_, ?_⟩
  · refine (List.perm_ext_iff_of_nodup h1 (List.nodup_range _)).2 (fun pos => ?_)
    rw [h2, List.mem_range, hdone]
  · intro i j k hi hj hk
    rw [hval _ (by omega)]
    unfold indVal
    have e1 : (3 * (3 * i + k) + j) / 9 = i := by omega
    have e2 : (3 * (3 * i + k) + j) % 9 / 3 = k := by omega
    have e3 : (3 * (3 * i + k) + j) % 3 = j := by omega
    rw [e1, e2, e3]
  · intro d hd
    obtain ⟨pos, hpos, hv⟩ := indVal_surj n_x n_y d hx hy hd
    exact ⟨pos, hpos, by rw [hval pos hpos, hv]⟩
  · intro num_comp c pos hc hpos
    have := hlt pos hpos
    have hmul := Nat.mul_le_mul_right ((n_x * 2 + 1) * (n_y * 2 + 1)) (Nat.succ_le_of_lt hc)
    rw [Nat.succ_mul] at hmul
    omega

/-- Witness for C6: the values of the test, `n_x = n_y = 1`; the array becomes
`0, 1, ..., 8`. -/
theorem ind_x_valid_restriction_witness :
    (1 ≤ 1 ∧ 1 ≤ 1) ∧
    (indLoop 3 1 1 ⟨fun _ => 0, []⟩).written.Perm (List.range (1 * 1 * 3 * 3)) ∧
    (indLoop 3 1 1 ⟨fun _ => 0, []⟩).written = [0, 3, 6, 1, 4, 7, 2, 5, 8] ∧
    (List.range 9).map (indLoop 3 1 1 ⟨fun _ => 0, []⟩).ind_x = [0, 1, 2, 3, 4, 5, 6, 7, 8] :=
  ⟨⟨by decide, by decide⟩,
    (ind_x_valid_restriction 1 1 (by decide) (by decide) (fun _ => 0)).1,
    by decide, by decide⟩

/-- Witness for the symmetric case of C7: `N = 2 * 1`, the identity operator, assembled as the
two diagonal entries, `CEED_EPSILON = 1`. -/
theorem check_compares_with_transpose_witness :
    (∀ r c, r < 2 * 1 → c < 2 * 1 →
      Prb (fun (u : Nat → Int) => u) r c = Prb (fun (u : Nat → Int) => u) c r) ∧
    (assemblyCheck 2 1 (1 : Int) 2 (fun k => k) (fun k => k) (fun _ => 1) (fun u => u) = [] ↔
      ∀ r c, r < 2 * 1 → c < 2 * 1 →
        |Asm 2 1 2 (fun k => k) (fun k => k) (fun _ => (1 : Int)) r c
          - Prb (fun (u : Nat → Int) => u) r c| ≤ 100 * 1) ∧
    assemblyCheck 2 1 (1 : Int) 2 (fun k => k) (fun k => k) (fun _ => 1) (fun u => u) = [] :=
  ⟨fun r c hr hc => by interval_cases r <;> interval_cases c <;> rfl,
    (check_compares_with_transpose 2 1 (1 : Int) 2 (fun k => k) (fun k => k) (fun _ => 1)
      (fun u => u)).2 (fun r c hr hc => by interval_cases r <;> interval_cases c <;> rfl),
    by decide⟩

end T564

namespace OperatorModel

theorem sum_map_flatMap_range {R α : Type} [AddCommMonoid R] (n : Nat) (f : Nat → List α)
    (g : α → R) :
    (((List.range n).flatMap f).map g).sum = ∑ k in Finset.range n, ((f k).map g).sum := by
  induction n with
  | zero => simp
  | succ n ih =>
    rw [List.range_succ, List.flatMap_append, List.map_append, List.sum_append, ih,
      Finset.sum_range_succ, List.flatMap_singleton]

/-- A sum over the enumeration is the triple sum over elements and local indices. -/
theorem sum_enumeration {R : Type} [CommRing R] (op : Operator R) (h : Nat × Nat × Nat → R) :
    ((enumeration op).map h).sum
      = ∑ e in Finset.range op.num_elem, ∑ lo in Finset.range op.elem_size,
          ∑ li in Finset.range op.elem_size, h (e, lo, li) := by
  unfold enumeration
  rw [sum_map_flatMap_range]
  refine Finset.sum_congr rfl (fun e _ => ?_)
  rw [sum_map_flatMap_range]
  refine Finset.sum_congr rfl (fun lo _ => ?_)
  rw [List.map_map, T564.list_range_map_sum]
  rfl

/-- A linear QFunction maps finite linear combinations to linear combinations. -/
theorem LinearQF.map_sum {R : Type} [CommRing R] {f : (Nat → R) → (Nat → R)} (hf : LinearQF f)
    (n : Nat) (a : Nat → R) (y : Nat → Nat → R) :
    f (fun q => ∑ i in Finset.range n, a i * y i q)
      = fun q => ∑ i in Finset.range n, a i * f (y i) q := by
  induction n with
  | zero =>
    have h0 := hf.2 0 (fun _ => 0)
    simp only [zero_mul] at h0
    simpa using h0
  | succ n ih =>
    have e : (fun q => ∑ i in Finset.range (n + 1), a i * y i q)
        = fun q => (∑ i in Finset.range n, a i * y i q) + a n * y n q := by
      funext q
      rw [Finset.sum_range_succ]
    rw [e, hf.1, ih, hf.2]
    funext q
    rw [Finset.sum_range_succ]

theorem interpolate_unit {R : Type} [CommRing R] (op : Operator R) (li : Nat)
    (hli : li < op.elem_size) :
    interpolate op (T564.unitVec li) = fun q => op.interp_in li q := by
  funext q
  unfold interpolate T564.unitVec
  rw [Finset.sum_eq_single li]
  · simp
  · intro l _ hne
    simp [hne]
  · intro h
    exact absurd (Finset.mem_range.2 hli) h

/-- The local pipeline of a linear QFunction is the combination of its unit responses. -/
theorem localApply_linear {R : Type} [CommRing R] (op : Operator R) (e : Nat)
    (hf : LinearQF (op.qf e)) (x : Nat → R) (lo : Nat) :
    localApply op e x lo
      = ∑ li in Finset.range op.elem_size, localApply op e (T564.unitVec li) lo * x li := by
  unfold localApply
  have e1 : interpolate op x
      = fun q => ∑ li in Finset.range op.elem_size, x li * op.interp_in li q := rfl
  rw [e1, hf.map_sum]
  unfold interpolateT
  simp only [Finset.sum_mul]
  rw [Finset.sum_comm]
  refine Finset.sum_congr rfl (fun li hli => ?_)
  rw [interpolate_unit op li (Finset.mem_range.1 hli)]
  refine Finset.sum_congr rfl (fun q _ => ?_)
  ring

/-- Entry `(r, c)` of the assembled matrix as a sum over elements and local indices. -/
theorem assembledMatrix_eq {R : Type} [CommRing R] (op : Operator R) (r c : Nat) :
    assembledMatrix op r c
      = ∑ e in Finset.range op.num_elem, ∑ lo in Finset.range op.elem_size,
          ∑ li in Finset.range op.elem_size,
            if op.offsets_out e lo = r ∧ op.offsets_in e li = c then
              localApply op e (T564.unitVec li) lo else 0 := by
  unfold assembledMatrix assembleSymbolic assembleNumeric
  rw [List.zip_map', List.map_map, sum_enumeration]
  refine Finset.sum_congr rfl (fun e _ => Finset.sum_congr rfl (fun lo _ =>
    Finset.sum_congr rfl (fun li _ => ?_)))
  simp only [Function.comp, Prod.mk.injEq]

/-- Assembly/apply equivalence in exact arithmetic. -/
theorem matVec_assembled_eq_apply {R : Type} [CommRing R] (op : Operator R) (N : Nat)
    (hlin : ∀ e, e < op.num_elem → LinearQF (op.qf e))
    (hin : ∀ e l, e < op.num_elem → l < op.elem_size → op.offsets_in e l < N)
    (x : Nat → R) (r : Nat) :
    matVec N (assembledMatrix op) x r = apply op x r := by
  unfold matVec apply
  simp only [assembledMatrix_eq, Finset.sum_mul]
  rw [Finset.sum_comm]
  refine Finset.sum_congr rfl (fun e he => ?_)
  rw [Finset.sum_comm]
  refine Finset.sum_congr rfl (fun lo _ => ?_)
  by_cases hr : op.offsets_out e lo = r
  · rw [if_pos hr, localApply_linear op e (hlin e (Finset.mem_range.1 he)), Finset.sum_comm]
    refine Finset.sum_congr rfl (fun li hli => ?_)
    rw [Finset.sum_eq_single (op.offsets_in e li)]
    · rw [if_pos ⟨hr, rfl⟩]
      rfl
    · intro c _ hne
      rw [if_neg (fun h => hne h.2.symm), zero_mul]
    · intro h
      exact absurd (Finset.mem_range.2
        (hin e li (Finset.mem_range.1 he) (Finset.mem_range.1 hli))) h
  · rw [if_neg hr]
    refine Finset.sum_eq_zero (fun c _ => Finset.sum_eq_zero (fun li _ => ?_))
    rw [if_neg (fun h => hr h.1), zero_mul]

/-- Claim C3: assembly/apply equivalence.  For an operator whose QFunction is linear in its
active input, the matrix obtained by zipping the (row, col) pairs of AssembleSymbolic with the
values of AssembleNumeric, duplicates summed, multiplied by any probe vector, equals
`Apply(operator, probe)`: exactly in exact arithmetic, hence within `100 * eps` in every entry
for every `eps >= 0`. -/
theorem assembly_apply_equivalence {R : Type} [LinearOrderedCommRing R] (op : Operator R)
    (N : Nat) (eps : R)
    (hlin : ∀ e, e < op.num_elem → LinearQF (op.qf e))
    (hin : ∀ e l, e < op.num_elem → l < op.elem_size → op.offsets_in e l < N)
    (heps : 0 ≤ eps) :
    ∀ (probe : Nat → R) (r : Nat),
      matVec N (assembledMatrix op) probe r = apply op probe r ∧
      |matVec N (assembledMatrix op) probe r - apply op probe r| ≤ 100 * eps := by
  intro probe r
  have h := matVec_assembled_eq_apply op N hlin hin probe r
  refine ⟨h, ?_⟩
  rw [h, sub_self, abs_zero]
  exact mul_nonneg (by norm_num) heps

/-- Witness for C3: the two-element mass-like operator on three nodes, probed with the unit
vector of the shared node; entry 1 of the product is 20. -/
theorem assembly_apply_equivalence_witness :
    ((∀ e, e < massExample.num_elem → LinearQF (massExample.qf e)) ∧
      (∀ e l, e < massExample.num_elem → l < massExample.elem_size →
        massExample.offsets_in e l < 3) ∧ (0 : Int) ≤ 1) ∧
    (matVec 3 (assembledMatrix massExample) (T564.unitVec 1) 1
        = apply massExample (T564.unitVec 1) 1 ∧
      |matVec 3 (assembledMatrix massExample) (T564.unitVec 1) 1
        - apply massExample (T564.unitVec 1) 1| ≤ 100 * 1) ∧
    apply massExample (T564.unitVec 1) 1 = 20 :=
  ⟨⟨fun e _ => ⟨fun y z => funext (fun q => mul_add _ _ _),
        fun a y => funext (fun q => mul_left_comm _ _ _)⟩,
      fun e l he hl => Nat.lt_of_le_of_lt (Nat.add_le_add (Nat.le_of_lt_succ he)
        (Nat.le_of_lt_succ hl)) (by decide), by decide⟩,
    assembly_apply_equivalence massExample 3 1
      (fun e _ => ⟨fun y z => funext (fun q => mul_add _ _ _),
        fun a y => funext (fun q => mul_left_comm _ _ _)⟩)
      (fun e l he hl => Nat.lt_of_le_of_lt (Nat.add_le_add (Nat.le_of_lt_succ he)
        (Nat.le_of_lt_succ hl)) (by decide)) (by decide) (T564.unitVec 1) 1,
    by decide⟩

end OperatorModel

namespace Magma

/-- Every cell below `P_^2 * Q_` is the stage-1 write cell of some thread. -/
theorem stage1_idx_surj (P_ Q_ idx : Nat) (h : idx < P_ * P_ * Q_) :
    ∃ tx j, tx < P_ * P_ ∧ j < Q_ ∧ sTmpidx (tx * (1 * Q_)) 0 j 1 = idx := by
  have hQ : 0 < Q_ := by
    rcases Nat.eq_zero_or_pos Q_ with h0 | h0
    · subst h0; simp at h
    · exact h0
  refine ⟨idx / Q_, idx % Q_, Nat.div_lt_of_lt_mul (by rw [Nat.mul_comm]; exact h),
    Nat.mod_lt _ hQ, ?_⟩
  have := Nat.div_add_mod idx Q_
  simp only [sTmpidx, Nat.one_mul]
  rw [Nat.mul_comm Q_ (idx / Q_)] at this
  omega

/-- Every cell below `P_ * Q_^2` is the write-back cell of some thread. -/
theorem writeBack_idx_surj (P_ Q_ idx : Nat) (h : idx < P_ * Q_ * Q_) :
    ∃ tx j, tx < P_ * Q_ ∧ j < Q_ ∧ sTmpidx (tx / Q_ * (Q_ * Q_)) (tx % Q_) j Q_ = idx := by
  have hQ : 0 < Q_ := by
    rcases Nat.eq_zero_or_pos Q_ with h0 | h0
    · subst h0; simp at h
    · exact h0
  have hQQ : 0 < Q_ * Q_ := Nat.mul_pos hQ hQ
  have ha : idx / (Q_ * Q_) < P_ :=
    Nat.div_lt_of_lt_mul (by rw [Nat.mul_comm, ← Nat.mul_assoc]; exact h)
  have hrem : idx % (Q_ * Q_) < Q_ * Q_ := Nat.mod_lt _ hQQ
  have hj : idx % (Q_ * Q_) / Q_ < Q_ := Nat.div_lt_of_lt_mul hrem
  have hr : idx % (Q_ * Q_) % Q_ < Q_ := Nat.mod_lt _ hQ
  have hdiv : (idx / (Q_ * Q_) * Q_ + idx % (Q_ * Q_) % Q_) / Q_ = idx / (Q_ * Q_) := by
    rw [Nat.add_comm, Nat.add_mul_div_right _ _ hQ, Nat.div_eq_of_lt hr, Nat.zero_add]
  have hmod : (idx / (Q_ * Q_) * Q_ + idx % (Q_ * Q_) % Q_) % Q_ = idx % (Q_ * Q_) % Q_ := by
    rw [Nat.add_comm, Nat.add_mul_mod_self_right, Nat.mod_mod]
  refine ⟨idx / (Q_ * Q_) * Q_ + idx % (Q_ * Q_) % Q_, idx % (Q_ * Q_) / Q_,
    idx_lt_mul _ _ P_ Q_ ha hr, hj, ?_⟩
  rw [hdiv, hmod]
  simp only [sTmpidx]
  have e1 := Nat.div_add_mod idx (Q_ * Q_)
  have e2 := Nat.div_add_mod (idx % (Q_ * Q_)) Q_
  rw [Nat.mul_comm (Q_ * Q_) (idx / (Q_ * Q_))] at e1
  rw [Nat.mul_comm Q_ (idx % (Q_ * Q_) / Q_)] at e2
  omega

/-- Claim C11: within each stage of `magma_interp_3d_device` no two threads write the same
scratch cell.  The stage-1 write index `(tx, j) ↦ tx * Q_ + j` is injective for `j < Q_`, maps
`tx < P_^2`, `j < Q_` into `[0, P_^2 Q_)` and reaches every cell of that range; the write-back
index `(tx, j) ↦ (tx / Q_) * Q_ * Q_ + j * Q_ + tx % Q_` is injective for `j < Q_`, maps
`tx < P_ Q_`, `j < Q_` into `[0, P_ Q_^2)` and reaches every cell of that range; and every
cell read in stage 2, resp. stage 3, is a cell written in stage 1, resp. in the write-back. -/
theorem stage_writes_injective (P_ Q_ : Nat) :
    (∀ tx j tx2 j2, j < Q_ → j2 < Q_ →
      sTmpidx (tx * (1 * Q_)) 0 j 1 = sTmpidx (tx2 * (1 * Q_)) 0 j2 1 → tx = tx2 ∧ j = j2) ∧
    (∀ tx j, tx < P_ * P_ → j < Q_ →
      sTmpidx (tx * (1 * Q_)) 0 j 1 = tx * Q_ + j ∧ tx * Q_ + j < P_ ^ 2 * Q_) ∧
    (∀ idx, idx < P_ ^ 2 * Q_ →
      ∃ tx j, tx < P_ * P_ ∧ j < Q_ ∧ sTmpidx (tx * (1 * Q_)) 0 j 1 = idx) ∧
    (∀ tx j tx2 j2, j < Q_ → j2 < Q_ →
      sTmpidx (tx / Q_ * (Q_ * Q_)) (tx % Q_) j Q_
        = sTmpidx (tx2 / Q_ * (Q_ * Q_)) (tx2 % Q_) j2 Q_ → tx = tx2 ∧ j = j2) ∧
    (∀ tx j, tx < P_ * Q_ → j < Q_ →
      sTmpidx (tx / Q_ * (Q_ * Q_)) (tx % Q_) j Q_ = tx / Q_ * Q_ * Q_ + j * Q_ + tx % Q_ ∧
      tx / Q_ * Q_ * Q_ + j * Q_ + tx % Q_ < P_ * Q_ ^ 2) ∧
    (∀ idx, idx < P_ * Q_ ^ 2 →
      ∃ tx j, tx < P_ * Q_ ∧ j < Q_ ∧ sTmpidx (tx / Q_ * (Q_ * Q_)) (tx % Q_) j Q_ = idx) ∧
    (∀ tx i, tx < P_ * Q_ → i < P_ →
      ∃ b j, b < P_ * P_ ∧ j < Q_ ∧
        sTmpidx (tx / Q_ * (Q_ * P_)) (tx % Q_) i Q_ = sTmpidx (b * (1 * Q_)) 0 j 1) ∧
    (∀ tx i, tx < Q_ * Q_ → i < P_ →
      ∃ t j, t < P_ * Q_ ∧ j < Q_ ∧
        sTmpidx 0 tx i (Q_ * Q_) = sTmpidx (t / Q_ * (Q_ * Q_)) (t % Q_) j Q_) := by
  have e1 : ∀ tx j, sTmpidx (tx * (1 * Q_)) 0 j 1 = tx * Q_ + j := fun tx j => by
    simp [sTmpidx]
  have e2 : ∀ tx j, sTmpidx (tx / Q_ * (Q_ * Q_)) (tx % Q_) j Q_
      = tx / Q_ * Q_ * Q_ + j * Q_ + tx % Q_ := fun tx j => by
    simp only [sTmpidx]; ring
  have p2 : P_ ^ 2 * Q_ = P_ * P_ * Q_ := by ring
  have p3 : P_ * Q_ ^ 2 = P_ * Q_ * Q_ := by ring
  refine ⟨?_, ?_, ?_, ?_, ?_, ?_, ?_, ?_⟩
  · intro tx j tx2 j2 hj hj2 h
    rw [e1, e1] at h
    exact T564.flat_index_inj Q_ tx j tx2 j2 hj hj2 h
  · intro tx j htx hj
    refine ⟨e1 tx j, ?_⟩
    rw [p2]
    exact idx_lt_mul tx j (P_ * P_) Q_ htx hj
  · intro idx h
    rw [p2] at h
    exact stage1_idx_surj P_ Q_ idx h
  · intro tx j tx2 j2 hj hj2 h
    exact writeBack_idx_inj Q_ tx j tx2 j2 hj hj2 h
  · intro tx j htx hj
    refine ⟨e2 tx j, ?_⟩
    rw [← e2, p3]
    exact writeBack_idx_lt P_ Q_ tx j htx hj
  · intro idx h
    rw [p3] at h
    exact writeBack_idx_surj P_ Q_ idx h
  · intro tx i htx hi
    obtain ⟨b, j, hb, hj, h⟩ := stage1_idx_surj P_ Q_ _ (stage2_idx_lt P_ Q_ tx i htx hi)
    exact ⟨b, j, hb, hj, h.symm⟩
  · intro tx i htx hi
    obtain ⟨t, j, ht, hj, h⟩ := writeBack_idx_surj P_ Q_ _ (stage3_idx_lt P_ Q_ tx i htx hi)
    exact ⟨t, j, ht, hj, h.symm⟩

/-- Witness for C11: `P_ = 2`, `Q_ = 3`: threads 1 and 4 write different cells in the write-back,
and cell 11 of stage 1 is written by thread 3 for `j = 2`. -/
theorem stage_writes_injective_witness :
    (sTmpidx (1 / 3 * (3 * 3)) (1 % 3) 2 3 = sTmpidx (4 / 3 * (3 * 3)) (4 % 3) 2 3 →
      1 = 4 ∧ 2 = 2) ∧
    sTmpidx (1 / 3 * (3 * 3)) (1 % 3) 2 3 = 7 ∧ sTmpidx (4 / 3 * (3 * 3)) (4 % 3) 2 3 = 16 ∧
    sTmpidx (3 * (1 * 3)) 0 2 1 = 11 :=
  ⟨(stage_writes_injective 2 3).2.2.2.1 1 2 4 2 (by decide) (by decide),
    by decide, by decide, by decide⟩

/-- The contraction is linear in the input registers. -/
theorem contraction_linear {R : Type} [CommRing R] (P_ Q_ : Nat) (sT : Nat → R) (a b : R)
    (U1 U2 : Nat → Nat → Nat → R) (t c j : Nat) :
    contraction P_ Q_ sT (linComb a b U1 U2) t c j
      = a * contraction P_ Q_ sT U1 t c j + b * contraction P_ Q_ sT U2 t c j := by
  unfold contraction linComb
  simp only [add_mul, mul_assoc, Finset.sum_add_distrib, ← Finset.mul_sum]

/-- The contraction for component `c` reads the input registers of component `c` only. -/
theorem contraction_congr {R : Type} [CommRing R] (P_ Q_ : Nat) (sT : Nat → R)
    (rU rU2 : Nat → Nat → Nat → R) (c : Nat) (h : ∀ t i, rU t c i = rU2 t c i) (t j : Nat) :
    contraction P_ Q_ sT rU t c j = contraction P_ Q_ sT rU2 t c j := by
  unfold contraction
  simp only [h]

/-- Claim C12: the interpolation routine is linear in its input.  Over exact arithmetic, with at
least `max(P_, Q_)^2` threads, running `magma_interp_3d_device` from a zero `rV` on
`a * U1 + b * U2` leaves in every register of `rV` the value `a * (result on U1) +
b * (result on U2)`; in particular a zero input with zero initial `rV` gives a zero output. -/
theorem interp_3d_linear {R : Type} [CommRing R] (NCOMP_ P_ Q_ nthreads : Nat) (sT : Nat → R)
    (a b : R) (U1 U2 : Nat → Nat → Nat → R) (s s1 s2 : State R)
    (hn : max P_ Q_ ^ 2 ≤ nthreads)
    (h0 : ∀ t c k, s.rV t c k = 0) (h1 : ∀ t c k, s1.rV t c k = 0)
    (h2 : ∀ t c k, s2.rV t c k = 0) :
    (∀ t c j,
      (magma_interp_3d_device NCOMP_ P_ Q_ nthreads sT (linComb a b U1 U2) s).rV t c j
        = a * (magma_interp_3d_device NCOMP_ P_ Q_ nthreads sT U1 s1).rV t c j
          + b * (magma_interp_3d_device NCOMP_ P_ Q_ nthreads sT U2 s2).rV t c j) ∧
    (∀ t c j,
      (magma_interp_3d_device NCOMP_ P_ Q_ nthreads sT (fun _ _ _ => 0) s).rV t c j = 0) := by
  obtain ⟨g1, g2, g3⟩ := guards_of_max P_ Q_ nthreads hn
  refine ⟨?_, ?_⟩
  · intro t c j
    rw [(device_spec NCOMP_ P_ Q_ nthreads sT _ s g1 g2 g3).2 t c j,
      (device_spec NCOMP_ P_ Q_ nthreads sT U1 s1 g1 g2 g3).2 t c j,
      (device_spec NCOMP_ P_ Q_ nthreads sT U2 s2 g1 g2 g3).2 t c j, h0, h1, h2]
    by_cases h : t < Q_ * Q_ ∧ c < NCOMP_ ∧ j < Q_
    · rw [if_pos h, if_pos h, if_pos h, zero_add, zero_add, zero_add]
      exact contraction_linear P_ Q_ sT a b U1 U2 t c j
    · rw [if_neg h, if_neg h, if_neg h, mul_zero, mul_zero, add_zero]
  · intro t c j
    rw [(device_spec NCOMP_ P_ Q_ nthreads sT _ s g1 g2 g3).2 t c j, h0]
    by_cases h : t < Q_ * Q_ ∧ c < NCOMP_ ∧ j < Q_
    · rw [if_pos h, zero_add]
      unfold contraction
      simp
    · rw [if_neg h]

/-- Witness for C12: `P_ = 1`, `Q_ = 2`, one component, four threads, integers,
`2 * U1 + 3 * U2` with `U1 = 1`, `U2 = 5`. -/
theorem interp_3d_linear_witness :
    (max 1 2 ^ 2 ≤ 4 ∧
      ∀ t c k : Nat, (State.mk (fun _ => (0 : Int)) (fun _ _ => 0) (fun _ _ _ => 0) 0 []).rV t c k
        = 0) ∧
    (magma_interp_3d_device 1 1 2 4 (fun k => ((k + 2 : Nat) : Int))
        (linComb 2 3 (fun _ _ _ => 1) (fun _ _ _ => 5))
        (State.mk (fun _ => (0 : Int)) (fun _ _ => 0) (fun _ _ _ => 0) 0 [])).rV 3 0 1
      = 2 * (magma_interp_3d_device 1 1 2 4 (fun k => ((k + 2 : Nat) : Int)) (fun _ _ _ => 1)
          (State.mk (fun _ => (0 : Int)) (fun _ _ => 0) (fun _ _ _ => 0) 0 [])).rV 3 0 1
        + 3 * (magma_interp_3d_device 1 1 2 4 (fun k => ((k + 2 : Nat) : Int)) (fun _ _ _ => 5)
          (State.mk (fun _ => (0 : Int)) (fun _ _ => 0) (fun _ _ _ => 0) 0 [])).rV 3 0 1 ∧
    (magma_interp_3d_device 1 1 2 4 (fun k => ((k + 2 : Nat) : Int))
        (linComb 2 3 (fun _ _ _ => 1) (fun _ _ _ => 5))
        (State.mk (fun _ => (0 : Int)) (fun _ _ => 0) (fun _ _ _ => 0) 0 [])).rV 3 0 1 = 459 :=
  ⟨⟨by decide, fun _ _ _ => rfl⟩,
    (interp_3d_linear 1 1 2 4 (fun k => ((k + 2 : Nat) : Int)) 2 3 (fun _ _ _ => 1)
      (fun _ _ _ => 5)
      (State.mk (fun _ => (0 : Int)) (fun _ _ => 0) (fun _ _ _ => 0) 0 [])
      (State.mk (fun _ => (0 : Int)) (fun _ _ => 0) (fun _ _ _ => 0) 0 [])
      (State.mk (fun _ => (0 : Int)) (fun _ _ => 0) (fun _ _ _ => 0) 0 [])
      (by decide) (fun _ _ _ => rfl) (fun _ _ _ => rfl) (fun _ _ _ => rfl)).1 3 0 1,
    by decide⟩

/-- Claim C13: components do not mix.  With at least `max(P_, Q_)^2` threads, two runs of
`magma_interp_3d_device` with the same matrix whose input registers `rU[0][c][*]` and initial
output registers `rV[0][c][*]` agree for component `c`, and which may differ in every other
component, in the initial scratch `swork` and in `rTmp`, leave the same `rV[0][c][*]` on every
thread. -/
theorem interp_3d_components_independent {R : Type} [CommRing R]
    (NCOMP_ P_ Q_ nthreads : Nat) (sT : Nat → R) (rU rU2 : Nat → Nat → Nat → R)
    (s s2 : State R) (c : Nat) (hn : max P_ Q_ ^ 2 ≤ nthreads)
    (hU : ∀ t i, rU t c i = rU2 t c i) (hV : ∀ t j, s.rV t c j = s2.rV t c j) :
    ∀ t j, (magma_interp_3d_device NCOMP_ P_ Q_ nthreads sT rU s).rV t c j
      = (magma_interp_3d_device NCOMP_ P_ Q_ nthreads sT rU2 s2).rV t c j := by
  obtain ⟨g1, g2, g3⟩ := guards_of_max P_ Q_ nthreads hn
  intro t j
  rw [(device_spec NCOMP_ P_ Q_ nthreads sT rU s g1 g2 g3).2 t c j,
    (device_spec NCOMP_ P_ Q_ nthreads sT rU2 s2 g1 g2 g3).2 t c j, hV,
    contraction_congr P_ Q_ sT rU rU2 c hU t j]

/-- Witness for C13: `P_ = 1`, `Q_ = 2`, two components, four threads; the runs agree on
component 0 and differ on component 1, in the scratch and in `rTmp`. -/
theorem interp_3d_components_independent_witness :
    (max 1 2 ^ 2 ≤ 4 ∧
      (∀ t i : Nat, (fun (_ c _ : Nat) => if c = 0 then (1 : Int) else 7) t 0 i
        = (fun (_ c _ : Nat) => if c = 0 then (1 : Int) else 9) t 0 i) ∧
      (∀ t j : Nat,
        (State.mk (fun _ => (0 : Int)) (fun _ _ => 0) (fun _ c _ => if c = 0 then 10 else 20)
            0 []).rV t 0 j
          = (State.mk (fun _ => (4 : Int)) (fun _ _ => 5) (fun _ c _ => if c = 0 then 10 else 30)
            0 []).rV t 0 j)) ∧
    (magma_interp_3d_device 2 1 2 4 (fun k => ((k + 2 : Nat) : Int))
        (fun _ c _ => if c = 0 then 1 else 7)
        (State.mk (fun _ => (0 : Int)) (fun _ _ => 0) (fun _ c _ => if c = 0 then 10 else 20)
          0 [])).rV 3 0 1
      = (magma_interp_3d_device 2 1 2 4 (fun k => ((k + 2 : Nat) : Int))
        (fun _ c _ => if c = 0 then 1 else 9)
        (State.mk (fun _ => (4 : Int)) (fun _ _ => 5) (fun _ c _ => if c = 0 then 10 else 30)
          0 [])).rV 3 0 1 ∧
    (magma_interp_3d_device 2 1 2 4 (fun k => ((k + 2 : Nat) : Int))
        (fun _ c _ => if c = 0 then 1 else 9)
        (State.mk (fun _ => (4 : Int)) (fun _ _ => 5) (fun _ c _ => if c = 0 then 10 else 30)
          0 [])).rV 3 0 1 = 37 :=
  ⟨⟨by decide, fun _ _ => rfl, fun _ _ => rfl⟩,
    interp_3d_components_independent 2 1 2 4 (fun k => ((k + 2 : Nat) : Int))
      (fun _ c _ => if c = 0 then 1 else 7) (fun _ c _ => if c = 0 then 1 else 9)
      (State.mk (fun _ => (0 : Int)) (fun _ _ => 0) (fun _ c _ => if c = 0 then 10 else 20) 0 [])
      (State.mk (fun _ => (4 : Int)) (fun _ _ => 5) (fun _ c _ => if c = 0 then 10 else 30) 0 [])
      0 (by decide) (fun _ _ => rfl) (fun _ _ => rfl) 3 1,
    by decide⟩

/-- With `gridDim.x * blockDim.y >= nelem`, every element below `nelem` is the `elem_id` of
exactly one pair `(blockIdx.x, threadIdx.y)` of the launch. -/
theorem elemId_unique (nelem gridDim_x blockDim_y e : Nat)
    (hg : nelem ≤ gridDim_x * blockDim_y) (he : e < nelem) :
    ∃! p : Nat × Nat, p.1 < gridDim_x ∧ p.2 < blockDim_y ∧ elemId p.1 blockDim_y p.2 = e := by
  have hlt : e < gridDim_x * blockDim_y := Nat.lt_of_lt_of_le he hg
  have hb : 0 < blockDim_y := by
    rcases Nat.eq_zero_or_pos blockDim_y with h | h
    · subst h; simp at hlt
    · exact h
  have hm : e % blockDim_y < blockDim_y := Nat.mod_lt _ hb
  have hid : elemId (e / blockDim_y) blockDim_y (e % blockDim_y) = e := by
    unfold elemId
    rw [Nat.mul_comm]
    exact Nat.div_add_mod e blockDim_y
  refine ⟨(e / blockDim_y, e % blockDim_y),
    ⟨Nat.div_lt_of_lt_mul (by rw [Nat.mul_comm]; exact hlt), hm, hid⟩, ?_⟩
  rintro ⟨bx, ty⟩ ⟨-, hty, h⟩
  have h2 : bx * blockDim_y + ty = e / blockDim_y * blockDim_y + e % blockDim_y := by
    unfold elemId at h hid
    rw [h, hid]
  obtain ⟨e1, e2⟩ := T564.flat_index_inj blockDim_y bx ty _ _ hty hm h2
  simp only [Prod.mk.injEq]
  exact ⟨e1, e2⟩

theorem exampleHelpers_pointerRelative : exampleHelpers.PointerRelative := by
  refine ⟨?_, ?_, ?_⟩
  · intro L N d d2 base cs sTmp h
    simp only [exampleHelpers, h]
  · intro L N d d2 base cs h
    simp only [exampleHelpers, h]
  · intro L N d base cs rV k hk
    simp only [exampleHelpers, if_pos hk]

/-- Claim C14: the kernels process exactly the elements `0 .. nelem - 1`, each once.  With
`gridDim.x * blockDim.y >= nelem`, `elem_id = blockIdx.x * blockDim.y + threadIdx.y` is taken by
exactly one pair `(blockIdx.x, threadIdx.y)` for each element below `nelem`.  A thread row with
`elem_id >= nelem` leaves `dV` as it is, whatever the helpers, `dT` and `dU` are.  A thread
row with `elem_id < nelem` uses `dU` and `dV` only in the calls of `readU_3d`, `readV_3d` and
`writeV_3d`, with the base offsets `elem_id * estrdU` and `elem_id * estrdV`; so, for helpers that
work from the pointer they are given onwards, the result does not depend on the content of `dU`
below `elem_id * estrdU` and `dV` is unchanged below `elem_id * estrdV`. -/
theorem kernel_element_assignment {R : Type} [CommRing R] (NCOMP P Q nthreads : Nat) :
    (∀ nelem gridDim_x blockDim_y e, nelem ≤ gridDim_x * blockDim_y → e < nelem →
      ∃! p : Nat × Nat, p.1 < gridDim_x ∧ p.2 < blockDim_y ∧ elemId p.1 blockDim_y p.2 = e) ∧
    (∀ (H : Helpers R) (dT dU : Nat → R) (estrdU cstrdU : Nat) (dV : Nat → R)
        (estrdV cstrdV nelem blockIdx_x blockDim_y ty : Nat) (sTmp : Nat → R),
      nelem ≤ elemId blockIdx_x blockDim_y ty →
      magma_interpn_3d_kernel H NCOMP P Q nthreads dT dU estrdU cstrdU dV estrdV cstrdV nelem
          blockIdx_x blockDim_y ty sTmp = dV ∧
      magma_interpt_3d_kernel H NCOMP P Q nthreads dT dU estrdU cstrdU dV estrdV cstrdV nelem
          blockIdx_x blockDim_y ty sTmp = dV) ∧
    (∀ (H : Helpers R) (dT dU : Nat → R) (estrdU cstrdU : Nat) (dV : Nat → R)
        (estrdV cstrdV nelem blockIdx_x blockDim_y ty : Nat) (sTmp : Nat → R),
      elemId blockIdx_x blockDim_y ty < nelem →
      magma_interpn_3d_kernel H NCOMP P Q nthreads dT dU estrdU cstrdU dV estrdV cstrdV nelem
          blockIdx_x blockDim_y ty sTmp
        = H.writeV_3d Q NCOMP dV (elemId blockIdx_x blockDim_y ty * estrdV) cstrdV
            (magma_interp_3d_device NCOMP P Q nthreads (H.dread_T_gm2sm P Q false dT)
              (H.readU_3d P NCOMP dU (elemId blockIdx_x blockDim_y ty * estrdU) cstrdU sTmp).1
              { swork :=
                  (H.readU_3d P NCOMP dU (elemId blockIdx_x blockDim_y ty * estrdU) cstrdU
                    sTmp).2
                rTmp := fun _ _ => 0
                rV := fun _ _ _ => 0
                madds := 0
                trace := [] }).rV ∧
      magma_interpt_3d_kernel H NCOMP P Q nthreads dT dU estrdU cstrdU dV estrdV cstrdV nelem
          blockIdx_x blockDim_y ty sTmp
        = H.writeV_3d P NCOMP dV (elemId blockIdx_x blockDim_y ty * estrdV) cstrdV
            (magma_interp_3d_device NCOMP Q P nthreads (H.dread_T_gm2sm Q P true dT)
              (H.readU_3d Q NCOMP dU (elemId blockIdx_x blockDim_y ty * estrdU) cstrdU sTmp).1
              { swork :=
                  (H.readU_3d Q NCOMP dU (elemId blockIdx_x blockDim_y ty * estrdU) cstrdU
                    sTmp).2
                rTmp := fun _ _ => 0
                rV := H.readV_3d P NCOMP dV (elemId blockIdx_x blockDim_y ty * estrdV) cstrdV
                madds := 0
                trace := [] }).rV) ∧
    (∀ (H : Helpers R), H.PointerRelative →
      ∀ (dT dU dU2 : Nat → R) (estrdU cstrdU : Nat) (dV : Nat → R)
        (estrdV cstrdV nelem blockIdx_x blockDim_y ty : Nat) (sTmp : Nat → R),
      elemId blockIdx_x blockDim_y ty < nelem →
      (∀ k, dU (elemId blockIdx_x blockDim_y ty * estrdU + k)
        = dU2 (elemId blockIdx_x blockDim_y ty * estrdU + k)) →
      (magma_interpn_3d_kernel H NCOMP P Q nthreads dT dU estrdU cstrdU dV estrdV cstrdV nelem
          blockIdx_x blockDim_y ty sTmp
        = magma_interpn_3d_kernel H NCOMP P Q nthreads dT dU2 estrdU cstrdU dV estrdV cstrdV
          nelem blockIdx_x blockDim_y ty sTmp ∧
      magma_interpt_3d_kernel H NCOMP P Q nthreads dT dU estrdU cstrdU dV estrdV cstrdV nelem
          blockIdx_x blockDim_y ty sTmp
        = magma_interpt_3d_kernel H NCOMP P Q nthreads dT dU2 estrdU cstrdU dV estrdV cstrdV
          nelem blockIdx_x blockDim_y ty sTmp) ∧
      ∀ k, k < elemId blockIdx_x blockDim_y ty * estrdV →
        magma_interpn_3d_kernel H NCOMP P Q nthreads dT dU estrdU cstrdU dV estrdV cstrdV nelem
            blockIdx_x blockDim_y ty sTmp k = dV k ∧
        magma_interpt_3d_kernel H NCOMP P Q nthreads dT dU estrdU cstrdU dV estrdV cstrdV nelem
            blockIdx_x blockDim_y ty sTmp k = dV k) := by
  refine ⟨?_, ?_, ?_, ?_⟩
  · intro nelem gridDim_x blockDim_y e hg he
    exact elemId_unique nelem gridDim_x blockDim_y e hg he
  · intro H dT dU estrdU cstrdU dV estrdV cstrdV nelem bx bdy ty sTmp h
    unfold magma_interpn_3d_kernel magma_interpt_3d_kernel
    rw [if_pos h, if_pos h]
    exact ⟨rfl, rfl⟩
  · intro H dT dU estrdU cstrdU dV estrdV cstrdV nelem bx bdy ty sTmp h
    unfold magma_interpn_3d_kernel magma_interpt_3d_kernel interpnRegs interptRegs
    rw [if_neg (Nat.not_le_of_lt h), if_neg (Nat.not_le_of_lt h)]
    exact ⟨rfl, rfl⟩
  · intro H hH dT dU dU2 estrdU cstrdU dV estrdV cstrdV nelem bx bdy ty sTmp h hagree
    obtain ⟨hU, -, hW⟩ := hH
    refine ⟨⟨?_, ?_⟩, ?_⟩
    · unfold magma_interpn_3d_kernel interpnRegs
      rw [if_neg (Nat.not_le_of_lt h), if_neg (Nat.not_le_of_lt h),
        hU P NCOMP dU dU2 _ cstrdU sTmp hagree]
    · unfold magma_interpt_3d_kernel interptRegs
      rw [if_neg (Nat.not_le_of_lt h), if_neg (Nat.not_le_of_lt h),
        hU Q NCOMP dU dU2 _ cstrdU sTmp hagree]
    · intro k hk
      unfold magma_interpn_3d_kernel magma_interpt_3d_kernel
      rw [if_neg (Nat.not_le_of_lt h), if_neg (Nat.not_le_of_lt h)]
      exact ⟨hW _ _ _ _ _ _ k hk, hW _ _ _ _ _ _ k hk⟩

/-- Witness for C14: five elements on a launch of two blocks of three rows: element 4 belongs
to block 1, row 1, and to no other pair; row 2 of block 1 has `elem_id = 5` and returns at
once. -/
theorem kernel_element_assignment_witness :
    (5 ≤ 2 * 3 ∧ 4 < 5 ∧ 5 ≤ elemId 1 3 2 ∧ exampleHelpers.PointerRelative) ∧
    (∃! p : Nat × Nat, p.1 < 2 ∧ p.2 < 3 ∧ elemId p.1 3 p.2 = 4) ∧
    elemId 1 3 1 = 4 ∧
    magma_interpn_3d_kernel exampleHelpers 1 1 2 4 (fun k => ((k + 2 : Nat) : Int))
      (fun _ => 1) 1 1 (fun _ => 7) 8 8 5 1 3 2 (fun _ => 0) = (fun _ => 7) :=
  ⟨⟨by decide, by decide, by decide, exampleHelpers_pointerRelative⟩,
    (@kernel_element_assignment Int _ 1 1 2 4).1 5 2 3 4 (by decide) (by decide),
    by decide,
    ((kernel_element_assignment 1 1 2 4).2.1 exampleHelpers (fun k => ((k + 2 : Nat) : Int))
      (fun _ => 1) 1 1 (fun _ => 7) 8 8 5 1 3 2 (fun _ => 0) (by decide)).1⟩

end Magma

namespace T564

/-- Claim C15: the strided quadrature-data restriction of `main` is one-to-one.  With the
strides `{1, q * q, q * q}`, one component and `q * q` nodes per element, the layout map
`(e, n) ↦ n * 1 + 0 * (q * q) + e * (q * q)` sends `[0, num_elem) x [0, q * q)` into
`[0, num_qpts)`, is injective and reaches every index below `num_qpts = num_elem * q * q`; with
a second component the same strides alias: component 1 of element `e` falls on component 0 of
element `e + 1`. -/
theorem strided_q_data_bijective (q num_elem : Nat) :
    (∀ e n, e < num_elem → n < q * q →
      stridedIndex (strides_q_data q) e 0 n = n * 1 + 0 * (q * q) + e * (q * q) ∧
      stridedIndex (strides_q_data q) e 0 n < num_qpts num_elem q) ∧
    (∀ e n e2 n2, n < q * q → n2 < q * q →
      stridedIndex (strides_q_data q) e 0 n = stridedIndex (strides_q_data q) e2 0 n2 →
        e = e2 ∧ n = n2) ∧
    (∀ idx, idx < num_qpts num_elem q →
      ∃ e n, e < num_elem ∧ n < q * q ∧ stridedIndex (strides_q_data q) e 0 n = idx) ∧
    (∀ e n, stridedIndex (strides_q_data q) e 1 n
      = stridedIndex (strides_q_data q) (e + 1) 0 n) := by
  have hform : ∀ e n, stridedIndex (strides_q_data q) e 0 n = e * (q * q) + n := by
    intro e n
    simp only [stridedIndex, strides_q_data]
    omega
  refine ⟨?_, ?_, ?_, ?_⟩
  · intro e n he hn
    refine ⟨rfl, ?_⟩
    rw [hform]
    have h : (e + 1) * (q * q) ≤ num_elem * (q * q) := Nat.mul_le_mul_right _ he
    rw [Nat.succ_mul] at h
    unfold num_qpts
    rw [Nat.mul_assoc]
    omega
  · intro e n e2 n2 hn hn2 h
    rw [hform, hform] at h
    exact flat_index_inj (q * q) e n e2 n2 hn hn2 h
  · intro idx hidx
    unfold num_qpts at hidx
    rw [Nat.mul_assoc] at hidx
    have hq : 0 < q * q := by
      rcases Nat.eq_zero_or_pos (q * q) with h | h
      · rw [h] at hidx; simp at hidx
      · exact h
    refine ⟨idx / (q * q), idx % (q * q),
      Nat.div_lt_of_lt_mul (by rw [Nat.mul_comm]; exact hidx), Nat.mod_lt _ hq, ?_⟩
    rw [hform, Nat.mul_comm]
    exact Nat.div_add_mod idx (q * q)
  · intro e n
    simp only [stridedIndex, strides_q_data]
    ring

/-- Witness for C15: the values of the test, `q = 4` and one element: node 5 is index 5, below
`num_qpts = 16`; with two elements, component 1 of element 0 would fall on index 21, which is
node 5 of element 1. -/
theorem strided_q_data_bijective_witness :
    (0 < 1 ∧ 5 < 4 * 4) ∧
    (stridedIndex (strides_q_data 4) 0 0 5 = 5 * 1 + 0 * (4 * 4) + 0 * (4 * 4) ∧
      stridedIndex (strides_q_data 4) 0 0 5 < num_qpts 1 4) ∧
    stridedIndex (strides_q_data 4) 0 0 5 = 5 ∧ num_qpts 1 4 = 16 ∧
    stridedIndex (strides_q_data 4) 0 1 5 = 21 ∧ stridedIndex (strides_q_data 4) 1 0 5 = 21 :=
  ⟨⟨by decide, by decide⟩,
    (strided_q_data_bijective 4 1).1 0 5 (by decide) (by decide),
    by decide, by decide, by decide, by decide⟩

end T564

namespace NavierStokes

theorem startsWith_iff (hay needle : List Char) :
    startsWith hay needle = true ↔ ∃ t, hay = needle ++ t := by
  induction hay generalizing needle with
  | nil =>
    cases needle with
    | nil => simp [startsWith]
    | cons n ns => simp [startsWith]
  | cons h hs ih =>
    cases needle with
    | nil => simp [startsWith]
    | cons n ns =>
      simp only [startsWith, Bool.and_eq_true, beq_iff_eq, ih, List.cons_append,
        List.cons.injEq]
      constructor
      · rintro ⟨e, t, ht⟩
        exact ⟨t, e, ht⟩
      · rintro ⟨t, e, ht⟩
        exact ⟨e, t, ht⟩

/-- The search finds `needle` exactly when `hay` is some characters, then `needle`, then some
characters. -/
theorem occursIn_iff (needle hay : List Char) :
    occursIn needle hay = true ↔ ∃ s t, hay = s ++ needle ++ t := by
  induction hay with
  | nil =>
    simp only [occursIn, startsWith_iff]
    constructor
    · rintro ⟨t, ht⟩
      exact ⟨[], t, by simpa using ht⟩
    · rintro ⟨s, t, h⟩
      have h2 := congrArg List.length h
      simp only [List.length_nil, List.length_append] at h2
      have hs : s = [] := List.length_eq_zero.1 (by omega)
      subst hs
      exact ⟨t, by simpa using h⟩
  | cons a hs ih =>
    simp only [occursIn, Bool.or_eq_true, startsWith_iff, ih]
    constructor
    · rintro (⟨t, ht⟩ | ⟨s, t, ht⟩)
      · exact ⟨[], t, by simpa using ht⟩
      · exact ⟨a :: s, t, by simp [ht]⟩
    · rintro ⟨s, t, h⟩
      cases s with
      | nil => exact Or.inl ⟨t, by simpa using h⟩
      | cons b s2 =>
        simp only [List.cons_append, List.cons.injEq] at h
        exact Or.inr ⟨s2, t, h.2⟩

theorem strstr_self (s : String) : strstr s s = true := by
  unfold strstr
  rw [occursIn_iff]
  exact ⟨[], [], by simp⟩

/-- The matrix type chosen for each of the three vector types. -/
theorem select_mat_type_cases (K : Constants)
    (h1 : strstr K.VECSTANDARD K.VECCUDA = false)
    (h2 : strstr K.VECSTANDARD K.VECKOKKOS = false)
    (h3 : strstr K.VECKOKKOS K.VECCUDA = false) :
    select_mat_type K (some K.VECSTANDARD) = some K.MATAIJ ∧
    select_mat_type K (some K.VECCUDA) = some K.MATAIJCUSPARSE ∧
    select_mat_type K (some K.VECKOKKOS) = some K.MATAIJKOKKOS := by
  refine ⟨?_, ?_, ?_⟩
  · simp [select_mat_type, h1, h2]
  · simp [select_mat_type, strstr_self]
  · simp [select_mat_type, h3, strstr_self]

/-- For each of the three vector types: cuSPARSE exactly for CUDA, Kokkos exactly for Kokkos. -/
theorem select_mat_type_iff (K : Constants)
    (h1 : strstr K.VECSTANDARD K.VECCUDA = false)
    (h2 : strstr K.VECSTANDARD K.VECKOKKOS = false)
    (h3 : strstr K.VECKOKKOS K.VECCUDA = false)
    (m1 : K.MATAIJCUSPARSE ≠ K.MATAIJ) (m2 : K.MATAIJKOKKOS ≠ K.MATAIJ)
    (m3 : K.MATAIJCUSPARSE ≠ K.MATAIJKOKKOS) (v : String)
    (hv : v = K.VECSTANDARD ∨ v = K.VECCUDA ∨ v = K.VECKOKKOS) :
    (select_mat_type K (some v) = some K.MATAIJCUSPARSE ↔ some v = some K.VECCUDA) ∧
    (select_mat_type K (some v) = some K.MATAIJKOKKOS ↔ some v = some K.VECKOKKOS) := by
  obtain ⟨c1, c2, c3⟩ := select_mat_type_cases K h1 h2 h3
  have d1 : K.VECSTANDARD ≠ K.VECCUDA := by
    intro e
    rw [e, strstr_self] at h1
    exact Bool.noConfusion h1
  have d2 : K.VECSTANDARD ≠ K.VECKOKKOS := by
    intro e
    rw [e, strstr_self] at h2
    exact Bool.noConfusion h2
  have d3 : K.VECKOKKOS ≠ K.VECCUDA := by
    intro e
    rw [e, strstr_self] at h3
    exact Bool.noConfusion h3
  rcases hv with rfl | rfl | rfl
  · rw [c1]
    exact ⟨⟨fun e => absurd (Option.some.inj e).symm m1, fun e => absurd (Option.some.inj e) d1⟩,
      ⟨fun e => absurd (Option.some.inj e).symm m2, fun e => absurd (Option.some.inj e) d2⟩⟩
  · rw [c2]
    exact ⟨⟨fun _ => rfl, fun _ => rfl⟩,
      ⟨fun e => absurd (Option.some.inj e) m3, fun e => absurd (Option.some.inj e).symm d3⟩⟩
  · rw [c3]
    exact ⟨⟨fun e => absurd (Option.some.inj e).symm m3, fun e => absurd (Option.some.inj e) d3⟩,
      ⟨fun _ => rfl, fun _ => rfl⟩⟩

/-- Claim C16: storage types follow the backend's preferred memory type.  For every resource
string and both values of `CeedMemType`, the `vec_type` selected in `main` is not `NULL`;
preferred type host gives `VECSTANDARD` and `MATAIJ` whatever the resource; preferred type device
gives `VECCUDA` and `MATAIJCUSPARSE` when the resolved resource contains `/gpu/cuda`, otherwise
`VECKOKKOS` and `MATAIJKOKKOS` when it contains `/gpu/hip`, otherwise `VECSTANDARD` and `MATAIJ`;
the matrix type is `MATAIJCUSPARSE` if and only if the vector type is `VECCUDA`, and
`MATAIJKOKKOS` if and only if it is `VECKOKKOS`.  The constants of `ceed.h` and PETSc enter
through what the code needs of them: the two memory types differ, neither `VECCUDA` nor
`VECKOKKOS` occurs in `VECSTANDARD`, `VECCUDA` does not occur in `VECKOKKOS`, and the three
matrix types differ. -/
theorem storage_types_follow_memtype (K : Constants)
    (hmem : K.CEED_MEM_HOST ≠ K.CEED_MEM_DEVICE)
    (h1 : strstr K.VECSTANDARD K.VECCUDA = false)
    (h2 : strstr K.VECSTANDARD K.VECKOKKOS = false)
    (h3 : strstr K.VECKOKKOS K.VECCUDA = false)
    (m1 : K.MATAIJCUSPARSE ≠ K.MATAIJ) (m2 : K.MATAIJKOKKOS ≠ K.MATAIJ)
    (m3 : K.MATAIJCUSPARSE ≠ K.MATAIJKOKKOS)
    (resolved : String) (mem_type_backend : Int)
    (hm : mem_type_backend = K.CEED_MEM_HOST ∨ mem_type_backend = K.CEED_MEM_DEVICE) :
    select_vec_type K mem_type_backend resolved ≠ none ∧
    (mem_type_backend = K.CEED_MEM_HOST →
      select_vec_type K mem_type_backend resolved = some K.VECSTANDARD ∧
      select_mat_type K (select_vec_type K mem_type_backend resolved) = some K.MATAIJ) ∧
    (mem_type_backend = K.CEED_MEM_DEVICE →
      (select_vec_type K mem_type_backend resolved,
        select_mat_type K (select_vec_type K mem_type_backend resolved))
        = if strstr resolved "/gpu/cuda" then (some K.VECCUDA, some K.MATAIJCUSPARSE)
          else if strstr resolved "/gpu/hip" then (some K.VECKOKKOS, some K.MATAIJKOKKOS)
          else (some K.VECSTANDARD, some K.MATAIJ)) ∧
    (select_mat_type K (select_vec_type K mem_type_backend resolved) = some K.MATAIJCUSPARSE ↔
      select_vec_type K mem_type_backend resolved = some K.VECCUDA) ∧
    (select_mat_type K (select_vec_type K mem_type_backend resolved) = some K.MATAIJKOKKOS ↔
      select_vec_type K mem_type_backend resolved = some K.VECKOKKOS) ∧
    ((strstr resolved "/gpu/cuda" = true ↔
        ∃ s t, resolved.toList = s ++ "/gpu/cuda".toList ++ t) ∧
      (strstr resolved "/gpu/hip" = true ↔
        ∃ s t, resolved.toList = s ++ "/gpu/hip".toList ++ t)) := by
  obtain ⟨c1, c2, c3⟩ := select_mat_type_cases K h1 h2 h3
  have hhost : ∀ r, select_vec_type K K.CEED_MEM_HOST r = some K.VECSTANDARD := by
    intro r
    simp [select_vec_type]
  have hdev : ∀ r, select_vec_type K K.CEED_MEM_DEVICE r
      = if strstr r "/gpu/cuda" then some K.VECCUDA
        else if strstr r "/gpu/hip" then some K.VECKOKKOS else some K.VECSTANDARD := by
    intro r
    simp [select_vec_type, Ne.symm hmem]
  have hvec : ∃ v, select_vec_type K mem_type_backend resolved = some v ∧
      (v = K.VECSTANDARD ∨ v = K.VECCUDA ∨ v = K.VECKOKKOS) := by
    rcases hm with rfl | rfl
    · exact ⟨_, hhost resolved, Or.inl rfl⟩
    · rw [hdev]
      by_cases a : strstr resolved "/gpu/cuda" = true
      · rw [if_pos a]
        exact ⟨_, rfl, Or.inr (Or.inl rfl)⟩
      · rw [if_neg a]
        by_cases b : strstr resolved "/gpu/hip" = true
        · rw [if_pos b]
          exact ⟨_, rfl, Or.inr (Or.inr rfl)⟩
        · rw [if_neg b]
          exact ⟨_, rfl, Or.inl rfl⟩
  obtain ⟨v, hv, hcase⟩ := hvec
  obtain ⟨i1, i2⟩ := select_mat_type_iff K h1 h2 h3 m1 m2 m3 v hcase
  refine ⟨?_, ?_, ?_, ?_, ?_, ⟨?_, ?_⟩⟩
  · rw [hv]
    exact Option.some_ne_none v
  · intro h
    subst h
    rw [hhost]
    exact ⟨rfl, c1⟩
  · intro h
    subst h
    rw [hdev]
    by_cases a : strstr resolved "/gpu/cuda" = true
    · rw [if_pos a, if_pos a, c2]
    · rw [if_neg a, if_neg a]
      by_cases b : strstr resolved "/gpu/hip" = true
      · rw [if_pos b, if_pos b, c3]
      · rw [if_neg b, if_neg b, c1]
  · rw [hv]
    exact i1
  · rw [hv]
    exact i2
  · unfold strstr
    exact occursIn_iff _ _
  · unfold strstr
    exact occursIn_iff _ _

/-- Witness for C16: the values of the constants in `ceed.h` and PETSc, device memory and the
resource `/gpu/cuda/shared`: CUDA vectors and cuSPARSE matrices. -/
theorem storage_types_follow_memtype_witness :
    (petscConstants.CEED_MEM_HOST ≠ petscConstants.CEED_MEM_DEVICE ∧
      strstr petscConstants.VECSTANDARD petscConstants.VECCUDA = false ∧
      strstr petscConstants.VECSTANDARD petscConstants.VECKOKKOS = false ∧
      strstr petscConstants.VECKOKKOS petscConstants.VECCUDA = false ∧
      petscConstants.MATAIJCUSPARSE ≠ petscConstants.MATAIJ ∧
      petscConstants.MATAIJKOKKOS ≠ petscConstants.MATAIJ ∧
      petscConstants.MATAIJCUSPARSE ≠ petscConstants.MATAIJKOKKOS ∧
      ((1 : Int) = petscConstants.CEED_MEM_HOST ∨ (1 : Int) = petscConstants.CEED_MEM_DEVICE)) ∧
    select_vec_type petscConstants 1 "/gpu/cuda/shared" ≠ none ∧
    select_vec_type petscConstants 1 "/gpu/cuda/shared" = some "cuda" ∧
    select_mat_type petscConstants (select_vec_type petscConstants 1 "/gpu/cuda/shared")
      = some "aijcusparse" :=
  ⟨⟨by decide, by decide, by decide, by decide, by decide, by decide, by decide, by decide⟩,
    (storage_types_follow_memtype petscConstants (by decide) (by decide) (by decide)
      (by decide) (by decide) (by decide) (by decide) "/gpu/cuda/shared" 1 (by decide)).1,
    by decide, by decide⟩

end NavierStokes
